import Mathlib

/-!
# Shallow embedding of the Persistent-Data-Structures library

This file embeds the core of the C++ repository (persistent array, persistent
HAMT hash map, persistent fat-node list, and the shared undo/redo manager) as
executable Lean definitions and proves/refutes the specification claims about
them.

Conventions used throughout:

* C++ `std::size_t` quantities are modelled as `Nat`; signed version ids of the
  persistent list are `Int`.
* Fallible C++ code (a `CONTRACT_EXPECT` that may throw `PreConditionFailure`,
  a `throw std::exception(...)`, `std::vector::at` which throws
  `std::out_of_range`, dereferencing a null pointer, ...) is modelled with
  `Except CError`, where the error carries the kind of C++ exception raised.
* Heap-allocated nodes that are shared and mutated through `shared_ptr`s
  (the array's modification tree, the list's fat nodes) are modelled with an
  explicit heap: a list of node records addressed by `Nat` ids.  A C++
  `shared_ptr` becomes a node id; `nullptr` becomes `none : Option Nat`.
* The `double` labels of the list-order structure are modelled as exact
  fractions (`Frac`, an unnormalised numerator/denominator pair compared by
  cross-multiplication); the specification describes them as real-valued
  labels, and every label the code builds is an exact ternary fraction.
-/

set_option autoImplicit false
set_option linter.unusedSectionVars false
set_option linter.unnecessarySeqFocus false

namespace PDS

/-- The kinds of C++ exceptions that the sources can raise.
`preConditionFailure`, `assertionFailure` and `postConditionFailure` are the
three contract-failure classes of `ContractExceptions.h`; `stdException` is a
plain `throw std::exception(...)` as in `PersistentList::findNodeByIndex`;
`outOfRange` is `std::out_of_range` thrown by `std::vector::at`;
`nullDeref` marks a dereference of an absent pointer. -/
inductive CError where
  | preConditionFailure
  | assertionFailure
  | postConditionFailure
  | stdException
  | outOfRange
  | nullDeref
  | nonTermination
  deriving DecidableEq, Repr

instance {ε α : Type} [DecidableEq ε] [DecidableEq α] : DecidableEq (Except ε α) :=
  fun a b =>
    match a, b with
    | .ok x, .ok y =>
      decidable_of_iff (x = y) (by constructor <;> (intro h; cases h; rfl))
    | .error e, .error e' =>
      decidable_of_iff (e = e') (by constructor <;> (intro h; cases h; rfl))
    | .ok _, .error _ => isFalse (by intro h; cases h)
    | .error _, .ok _ => isFalse (by intro h; cases h)

/-! ## The undo/redo manager

Embeds `Undo::UndoRedoManager` from the current generation of
`UndoRedoManager.h` (the persistent-stack variant): two singly linked stacks of
actions, `pushUndo` pushes onto the undo stack and clears the redo stack,
`undo`/`redo` move the top action to the other stack and apply its thunk.

In the C++ sources an action is a pair of thunks
`manager -> Collection`; at every call site (`PersistentArray::modify`,
`PersistentHashMap::modifyHamt`, `PersistentList::getChildren`) the thunks
capture the collection state by value and merely re-attach the manager that is
supplied at apply time.  An action is therefore modelled as the pair of
captured state records, and applying a thunk is rebuilding the collection from
the captured state plus the repositioned manager. -/

/-- One `Undo::IUndoRedoAction`: the state captured by the undo thunk and the
state captured by the redo thunk. -/
structure HistoryAction (σ : Type) where
  undoState : σ
  redoState : σ
  deriving DecidableEq, Repr

/-- `Undo::UndoRedoManager`: a pair of persistent stacks of actions. -/
structure UndoRedoManager (σ : Type) where
  undoStack : List (HistoryAction σ)
  redoStack : List (HistoryAction σ)
  deriving DecidableEq, Repr

namespace UndoRedoManager

variable {σ : Type}

/-- The default-constructed manager: both stacks empty. -/
def empty : UndoRedoManager σ := ⟨[], []⟩

/-- `UndoRedoManager::pushUndo`: returns `{undoStack_.push(action), {}}`.
The `CONTRACT_EXPECT(undoRedoAction)` cannot fail here because every caller
passes a freshly created action, and actions are values in this model. -/
def pushUndo (m : UndoRedoManager σ) (a : HistoryAction σ) : UndoRedoManager σ :=
  ⟨a :: m.undoStack, []⟩

/-- `UndoRedoManager::hasUndo`. -/
def hasUndo (m : UndoRedoManager σ) : Bool := !m.undoStack.isEmpty

/-- `UndoRedoManager::hasRedo`. -/
def hasRedo (m : UndoRedoManager σ) : Bool := !m.redoStack.isEmpty

/-- `UndoRedoManager::undo`: `CONTRACT_EXPECT(hasUndo())`, then pop the top
action off the undo stack, push it onto the redo stack, and apply its undo
thunk to the resulting manager.  Returns the captured undo state together with
the manager handed to the thunk. -/
def undo (m : UndoRedoManager σ) : Except CError (σ × UndoRedoManager σ) :=
  match m.undoStack with
  | [] => .error .preConditionFailure
  | a :: rest => .ok (a.undoState, ⟨rest, a :: m.redoStack⟩)

/-- `UndoRedoManager::redo`: mirror image of `undo`. -/
def redo (m : UndoRedoManager σ) : Except CError (σ × UndoRedoManager σ) :=
  match m.redoStack with
  | [] => .error .preConditionFailure
  | a :: rest => .ok (a.redoState, ⟨a :: m.undoStack, rest⟩)

end UndoRedoManager

/-! ## The persistent array

Embeds `Persistence::PersistentArray` (the current generation in
`PersistentArray.h`: the one built on `UndoablePersistentCollection`, with
`setValue` / `pushBack` / `emplaceBack` / `popBack` and the private `modify`).

The modification tree is held in an explicit heap `PAHeap`.  A node is either
a root holding the backing storage or a change-set `(index, value)` with a
parent pointer.  Node ids are indices into the heap; nodes are only ever
appended, and a change-set's parent always has a smaller id than the node
itself, which makes the parent walks terminate. -/

/-- `RootNodeImpl` / `ChangeSetNodeImpl`: the two node implementations. -/
inductive PANodeImpl (T : Type) where
  | root (storage : List T)
  | changeSet (index : Nat) (val : T)
  deriving DecidableEq, Repr

/-- `PersistentNode`: an implementation plus a parent pointer. -/
structure PANode (T : Type) where
  impl : PANodeImpl T
  parent : Option Nat
  deriving DecidableEq, Repr

/-- The shared modification tree: all nodes ever allocated, addressed by id. -/
abbrev PAHeap (T : Type) := List (PANode T)

/-- `NodeImplBase::contains`. -/
def paImplContains {T : Type} : PANodeImpl T → Nat → Bool
  | .root storage, index => index < storage.length
  | .changeSet mi _, index => mi == index

/-- `NodeImplBase::value` restricted to indices the node contains. -/
def paImplValue {T : Type} : PANodeImpl T → Nat → Option T
  | .root storage, index => storage.get? index
  | .changeSet mi v, index => if mi == index then some v else none

/-- A `PersistentArray` value: its size, its node pointer (which is `none` for
the lazily initialised default-constructed array) and its undo/redo manager.
The state captured by the history thunks of `PersistentArray::modify` is
exactly the `(size, node)` pair. -/
structure PArrayState where
  size : Nat
  node : Option Nat
  deriving DecidableEq, Repr

structure PArray where
  size : Nat
  node : Option Nat
  mgr : UndoRedoManager PArrayState
  deriving DecidableEq, Repr

namespace PArray

variable {T : Type}

/-- The walk of `PersistentArray::value`: follow parent pointers from the
array's node until a node containing the index is found.  (The in-place
re-rooting performed by the C++ `value()` is an internal reorganisation of the
tree whose stated purpose is to return exactly the value this walk finds; the
walk is literally the `value()` of the previous generation of the file.)
The fuel is the starting id plus one: parents have strictly smaller ids, so
this many steps always suffice on well-formed heaps; running out of fuel or
hitting a dangling id reports the null dereference of `CONTRACT_ENSURE` /
`SAFE_DEREF`. -/
def findValueFrom (heap : PAHeap T) : Nat → Nat → Nat → Except CError T
  | 0, _, _ => .error .nullDeref
  | fuel + 1, id, index =>
    match heap.get? id with
    | none => .error .nullDeref
    | some node =>
      if paImplContains node.impl index then
        match paImplValue node.impl index with
        | some v => .ok v
        | none => .error .nullDeref
      else
        match node.parent with
        | none => .error .nullDeref
        | some p => findValueFrom heap fuel p index

/-- `PersistentArray::value`: `CONTRACT_EXPECT(index < size_)`, then the walk.
A `none` node with `index < size` cannot happen on well-formed states (a
default-constructed array has size 0). -/
def value (heap : PAHeap T) (a : PArray) (index : Nat) : Except CError T :=
  if index < a.size then
    match a.node with
    | none => .error .nullDeref
    | some id => findValueFrom heap (id + 1) id index
  else .error .preConditionFailure

/-- `PersistentArray::findOrCreateRoot`: walk to the root (creating a fresh
empty root when the array is lazily uninitialised).  Returns the heap (possibly
extended), the id of the root and the origin node id of the array.  Fuel as in
`findValueFrom`. -/
def findRootFrom (heap : PAHeap T) : Nat → Nat → Except CError Nat
  | 0, _ => .error .nullDeref
  | fuel + 1, id =>
    match heap.get? id with
    | none => .error .nullDeref
    | some node =>
      match node.impl, node.parent with
      | .root _, _ => .ok id
      | .changeSet _ _, none => .error .nullDeref
      | .changeSet _ _, some p => findRootFrom heap fuel p

/-- `PersistentArray::modify`: push the `(old state, new state)` action and
return the array rebuilt from the new state (the body of the `redo` lambda). -/
def modify (a : PArray) (newNode : Option Nat) (newSize : Nat) : PArray :=
  { size := newSize
    node := newNode
    mgr := a.mgr.pushUndo ⟨⟨a.size, a.node⟩, ⟨newSize, newNode⟩⟩ }

/-- `PersistentArray::setValue`: `CONTRACT_EXPECT(index < size_)`, allocate a
change-set child of the current node, and `modify` with unchanged size. -/
def setValue (heap : PAHeap T) (a : PArray) (index : Nat) (v : T) :
    Except CError (PAHeap T × PArray) :=
  if index < a.size then
    .ok (heap ++ [⟨.changeSet index v, a.node⟩], a.modify (some heap.length) a.size)
  else .error .preConditionFailure

/-- `PersistentArray::emplaceBack` (and therefore both `pushBack` overloads,
which forward to it): find or create the root; if the root already stores an
element at index `size_`, allocate a change-set for that index, otherwise
append the value to the root's backing storage in place. -/
def emplaceBack (heap : PAHeap T) (a : PArray) (v : T) :
    Except CError (PAHeap T × PArray) :=
  match a.node with
  | none =>
    /- lazy initialisation: `node_ = PersistentNode::makeRoot()`; the fresh
    root is empty so `root.contains(size_)` is false and the value is appended
    to it.  (The C++ mutates the array's own `node_` member here; that lazy
    memoisation is observationally the same as keeping `node_` absent, which is
    how the returned old array is modelled.) -/
    let rootId := heap.length
    let heap := heap ++ [⟨.root [v], none⟩]
    .ok (heap, a.modify (some rootId) (a.size + 1))
  | some id =>
    match findRootFrom heap (id + 1) id with
    | .error e => .error e
    | .ok rootId =>
      match heap.get? rootId with
      | none => .error .nullDeref
      | some rootNode =>
        match rootNode.impl with
        | .changeSet _ _ => .error .nullDeref
        | .root storage =>
          if a.size < storage.length then
            /- `root.contains(size_)`: create a change-set over the current
            node -/
            .ok (heap ++ [⟨.changeSet a.size v, a.node⟩],
                 a.modify (some heap.length) (a.size + 1))
          else
            /- extend the root's storage in place -/
            .ok (heap.set rootId ⟨.root (storage ++ [v]), rootNode.parent⟩,
                 a.modify a.node (a.size + 1))

/-- `PersistentArray::popBack`: `CONTRACT_EXPECT(!empty())`, then `modify` with
the same node and decremented size. -/
def popBack (heap : PAHeap T) (a : PArray) : Except CError (PAHeap T × PArray) :=
  if a.size = 0 then .error .preConditionFailure
  else .ok (heap, a.modify a.node (a.size - 1))

/-- Collection-level `undo` (delegation through `UndoablePersistentCollection`
to the manager): rebuild the array from the captured state. -/
def undo (a : PArray) : Except CError PArray :=
  match a.mgr.undo with
  | .error e => .error e
  | .ok (s, m) => .ok ⟨s.size, s.node, m⟩

/-- Collection-level `redo`. -/
def redo (a : PArray) : Except CError PArray :=
  match a.mgr.redo with
  | .error e => .error e
  | .ok (s, m) => .ok ⟨s.size, s.node, m⟩

end PArray

/-! ## The persistent HAMT hash map

Embeds `HamtUtils.h` (the status-returning generation, the one present under
`src/Collections/`) and `PersistentHashMap` (the current generation: the one
whose `insert`/`erase` dispatch on the returned `HamtVisitorStatus`).

The three node variants become one inductive type; `shared_ptr` sharing needs
no heap here because HAMT nodes are immutable (`path copying`): every visitor
builds new nodes and never mutates existing ones.  A null `HamtNodeSPtr` is
`none` at the positions where the sources can produce one (the map root and
the eraser's result).  The `child != newChild` shared-pointer comparisons are
modelled as structural comparisons: a visitor returns the very pointer it was
given exactly when it makes no change, so pointer equality and structural
equality distinguish the same branches up to structurally identical results. -/

/-- `HamtTraits`: `BitSize = 5`, `BitMask = 0x1F`, `Capacity = 32`,
`MaxDepth = sizeof(std::size_t) * 8 / BitSize - 1 = 11`. -/
def hamtBitSize : Nat := 5
def hamtBitMask : Nat := 0x1F
def hamtCapacity : Nat := 32
def hamtMaxDepth : Nat := 11

/-- Sanity check: `MaxDepth` is `sizeof(std::size_t) * 8 / BitSize - 1`. -/
theorem hamtMaxDepth_eq : hamtMaxDepth = 64 / hamtBitSize - 1 := rfl

/-- `HamtVisitorStatus`. -/
inductive HamtStatus where
  | resized
  | modifiedExisting
  | unchanged
  deriving DecidableEq, Repr

/-- The HAMT node variants `HamtValueNode | HamtBitmapNode | HamtCollisionNode`.
A value node stores the key-value pair together with the cached hash of the
key.  A bitmap node stores the 32-bit bitset (as a `Nat`) and the child list.
A collision node stores its child list (value nodes, in well-formed tries). -/
inductive HamtNode (K V : Type) where
  | value (key : K) (val : V) (hash : Nat)
  | bitmap (bm : Nat) (children : List (HamtNode K V))
  | collision (children : List (HamtNode K V))

/-- Decidable structural equality of HAMT nodes (the nested `List` prevents
`deriving DecidableEq`; the helper `listDec` recurses over child lists). -/
def hamtNodeDecEq {K V : Type} [DecidableEq K] [DecidableEq V] :
    (a b : HamtNode K V) → Decidable (a = b)
  | .value k v h, .value k' v' h' =>
    decidable_of_iff (k = k' ∧ v = v' ∧ h = h') (by
      constructor
      · rintro ⟨rfl, rfl, rfl⟩; rfl
      · intro h; cases h; exact ⟨rfl, rfl, rfl⟩)
  | .bitmap bm ch, .bitmap bm' ch' =>
    match Nat.decEq bm bm', listDec ch ch' with
    | isTrue h1, isTrue h2 => isTrue (by rw [h1, h2])
    | isFalse h1, _ => isFalse (by intro h; cases h; exact h1 rfl)
    | _, isFalse h2 => isFalse (by intro h; cases h; exact h2 rfl)
  | .collision ch, .collision ch' =>
    match listDec ch ch' with
    | isTrue h2 => isTrue (by rw [h2])
    | isFalse h2 => isFalse (by intro h; cases h; exact h2 rfl)
  | .value _ _ _, .bitmap _ _ => isFalse (by intro h; cases h)
  | .value _ _ _, .collision _ => isFalse (by intro h; cases h)
  | .bitmap _ _, .value _ _ _ => isFalse (by intro h; cases h)
  | .bitmap _ _, .collision _ => isFalse (by intro h; cases h)
  | .collision _, .value _ _ _ => isFalse (by intro h; cases h)
  | .collision _, .bitmap _ _ => isFalse (by intro h; cases h)
where listDec : (l l' : List (HamtNode K V)) → Decidable (l = l')
  | [], [] => isTrue rfl
  | [], _ :: _ => isFalse (by intro h; cases h)
  | _ :: _, [] => isFalse (by intro h; cases h)
  | a :: l, a' :: l' =>
    match hamtNodeDecEq a a', listDec l l' with
    | isTrue h1, isTrue h2 => isTrue (by rw [h1, h2])
    | isFalse h1, _ => isFalse (by intro h; cases h; exact h1 rfl)
    | _, isFalse h2 => isFalse (by intro h; cases h; exact h2 rfl)

instance {K V : Type} [DecidableEq K] [DecidableEq V] : DecidableEq (HamtNode K V) :=
  hamtNodeDecEq

namespace Hamt

variable {K V : Type} [DecidableEq K] [DecidableEq V]

/-- `HamtVisitorBase::getLevelBit`: `(hash >> (BitSize * level)) & BitMask`. -/
def levelBit (hash level : Nat) : Nat := (hash >>> (hamtBitSize * level)) &&& hamtBitMask

/-- `Bitmap::test`. -/
def containsBit (bm bit : Nat) : Bool := bm.testBit bit

/-- `std::bitset::count` over the 32-bit alphabet. -/
def popcount32 (bm : Nat) : Nat := (List.range hamtCapacity).countP (fun i => bm.testBit i)

/-- `HamtBitmapNode::bitToIndex`: `(bitmap_ & ((1 << bit) - 1)).count()`, the
number of set bits strictly below `bit`. -/
def bitToIndex (bm bit : Nat) : Nat := (List.range bit).countP (fun i => bm.testBit i)

/-- The set bits of a bitmap, lowest first. -/
def bitsOf (bm : Nat) : List Nat := (List.range hamtCapacity).filter (fun i => bm.testBit i)

/-- `Util::vectorInserted`: a copy of the vector with `v` inserted at
position `i`. -/
def vectorInserted {α : Type} (l : List α) (i : Nat) (v : α) : List α :=
  l.take i ++ v :: l.drop i

/-- `Util::vectorReplaced`: a copy with position `i` replaced by `v`. -/
def vectorReplaced {α : Type} (l : List α) (i : Nat) (v : α) : List α :=
  l.take i ++ v :: l.drop (i + 1)

/-- `Util::vectorErased`: a copy with position `i` removed. -/
def vectorErased {α : Type} (l : List α) (i : Nat) : List α :=
  l.take i ++ l.drop (i + 1)

/-- `HamtBitmapNode::insertBit`: `CONTRACT_EXPECT(!containsBit(bit))`, then a
copy with the bit set and the child spliced in at its bit-sorted position. -/
def insertBit (bm : Nat) (children : List (HamtNode K V)) (bit : Nat)
    (node : HamtNode K V) : Except CError (HamtNode K V) :=
  if containsBit bm bit then .error .preConditionFailure
  else .ok (.bitmap (bm ||| (1 <<< bit)) (vectorInserted children (bitToIndex bm bit) node))

/-- `HamtBitmapNode::replaceBit`: `CONTRACT_EXPECT(containsBit(bit))`, then a
copy with the child at that bit replaced. -/
def replaceBit (bm : Nat) (children : List (HamtNode K V)) (bit : Nat)
    (node : HamtNode K V) : Except CError (HamtNode K V) :=
  if containsBit bm bit then
    .ok (.bitmap bm (vectorReplaced children (bitToIndex bm bit) node))
  else .error .preConditionFailure

/-- `HamtBitmapNode::eraseBit`: `CONTRACT_EXPECT(containsBit(bit))`, then a
copy with the bit cleared and the child removed. -/
def eraseBit (bm : Nat) (children : List (HamtNode K V)) (bit : Nat) :
    Except CError (HamtNode K V) :=
  if containsBit bm bit then
    .ok (.bitmap (bm ^^^ (1 <<< bit)) (vectorErased children (bitToIndex bm bit)))
  else .error .preConditionFailure

/-- `HamtBitmapNode::getChildAtBit`: `CONTRACT_EXPECT(containsBit(bit))`, then
`children().at(bitToIndex(bit))` (`std::vector::at` throws
`std::out_of_range` when the index is out of bounds). -/
def getChildAtBit (bm : Nat) (children : List (HamtNode K V)) (bit : Nat) :
    Except CError (HamtNode K V) :=
  if containsBit bm bit then
    match children.get? (bitToIndex bm bit) with
    | some c => .ok c
    | none => .error .outOfRange
  else .error .preConditionFailure

/-- `HamtCollisionNode::findCollision`: linear scan comparing keys.  (The C++
`findImpl` `dynamic_cast`s each child to a value node before comparing; in
well-formed tries every collision child is a value node, and non-value
children are never matched.) -/
def findCollision (key : K) (children : List (HamtNode K V)) : Option (HamtNode K V) :=
  children.find? (fun c => match c with
    | .value k _ _ => k == key
    | _ => false)

/-- `HamtCollisionNode::removeCollision`: erase the first child whose key
equals `key`. -/
def removeCollision (key : K) (children : List (HamtNode K V)) : List (HamtNode K V) :=
  children.eraseP (fun c => match c with
    | .value k _ _ => k == key
    | _ => false)

/-- `HamtCollisionNode::addCollision`: append the value node at the end. -/
def addCollision (children : List (HamtNode K V)) (node : HamtNode K V) :
    List (HamtNode K V) :=
  children ++ [node]

/-- `InserterVisitor::visit` (all three overloads) together with
`InserterVisitor::resolveCollision`, as one recursive traversal.

* value leaf: equal keys update (`ModifiedExisting`) or keep (`Unchanged`)
  depending on `replace`; distinct keys resolve the collision.  Resolution at
  `level > MaxDepth` builds a two-child collision node; otherwise, when the
  two hashes still agree on the current level's bits, the C++ builds the
  one-child bitmap `HamtBitmapNode::create(bitCurrent, node)` and re-accepts
  the inserter into it (the recursive call on that bitmap below), and when
  they disagree it builds the two-bit bitmap with the children ordered by bit
  index ascending.
* bitmap node: absent bit inserts the leaf (`Resized`); present bit recurses
  into the child one level deeper and replaces it when changed.
* collision node: `replace` semantics via `removeCollision`/`addCollision`.

The `fuel` parameter only bounds the recursion so that the definition is
structural; `insertFuelFor` below strictly exceeds the length of any possible
run: each re-entry strictly decreases
`8 * (MaxDepth + 2 - level) + 4 * valueBonus + nodeWeight node`, where
`valueBonus` is 1 at a value leaf with level at most `MaxDepth` (descending
into a bitmap child loses 8 against a bonus of at most 4 and a weight
decrease, and the `resolveCollision` re-entry at the same level trades the
bonus 4 for a one-child-bitmap wrapper of weight increase 1), so a run never
exhausts it. -/
def insertGo (insKey : K) (insVal : V) (insHash : Nat) (replace : Bool) :
    Nat → Nat → HamtNode K V → Except CError (HamtStatus × HamtNode K V)
  | 0, _, _ => .error .nonTermination
  | fuel + 1, level, .value k v h =>
    if k = insKey then
      if replace then .ok (.modifiedExisting, .value insKey insVal insHash)
      else .ok (.unchanged, .value k v h)
    else
      /- `resolveCollision` -/
      if hamtMaxDepth < level then
        .ok (.resized, .collision [.value k v h, .value insKey insVal insHash])
      else
        let bitCurrent := levelBit h level
        let bitInserted := levelBit insHash level
        if bitCurrent = bitInserted then
          match insertGo insKey insVal insHash replace fuel level
              (.bitmap (1 <<< bitCurrent) [.value k v h]) with
          | .error e => .error e
          | .ok (_, n) => .ok (.resized, n)
        else
          .ok (.resized, .bitmap ((1 <<< bitCurrent) ||| (1 <<< bitInserted))
            (if bitCurrent < bitInserted
             then [.value k v h, .value insKey insVal insHash]
             else [.value insKey insVal insHash, .value k v h]))
  | fuel + 1, level, .bitmap bm children =>
    let bit := levelBit insHash level
    if containsBit bm bit then
      match children.get? (bitToIndex bm bit) with
      | none => .error .outOfRange
      | some child =>
        match insertGo insKey insVal insHash replace fuel (level + 1) child with
        | .error e => .error e
        | .ok (status, newChild) =>
          if child = newChild then .ok (status, .bitmap bm children)
          else
            match replaceBit bm children bit newChild with
            | .error e => .error e
            | .ok n => .ok (status, n)
    else
      match insertBit bm children bit (.value insKey insVal insHash) with
      | .error e => .error e
      | .ok n => .ok (.resized, n)
  | _ + 1, _, .collision children =>
    let found := (findCollision insKey children).isSome
    let (children1, status) :=
      if found && replace
      then (removeCollision insKey children, HamtStatus.modifiedExisting)
      else (children, HamtStatus.resized)
    if !found || replace then
      .ok (status, .collision (addCollision children1 (.value insKey insVal insHash)))
    else
      .ok (.unchanged, .collision children1)

/-- The number of constructors of a trie (used only for fuel bounds). -/
def nodeWeight : HamtNode K V → Nat
  | .value _ _ _ => 1
  | .bitmap _ children => 1 + go children
  | .collision children => 1 + go children
where go : List (HamtNode K V) → Nat
  | [] => 0
  | c :: cs => nodeWeight c + go cs

/-- Fuel that strictly exceeds the longest possible run of `insertGo` from
level 0 (see the measure in `insertGo`'s doc comment). -/
def insertFuelFor (node : HamtNode K V) : Nat :=
  8 * (hamtMaxDepth + 2) + 4 + nodeWeight node + 1

/-- `EraserVisitor::visit` (all three overloads).  A `none` result is the
`nullptr` the C++ returns after erasing a value leaf.  The bitmap case mirrors
the source: absent bit is `Unchanged`; an erased child collapses the node to
its single remaining child when only one remains (`children().at(0)`, which
throws `std::out_of_range` when none remains); an unchanged child is
`Unchanged`.  The eraser only descends into children, so `nodeWeight + 1`
fuel always suffices. -/
def eraseGo (key : K) (hash : Nat) :
    Nat → Nat → HamtNode K V → Except CError (HamtStatus × Option (HamtNode K V))
  | 0, _, _ => .error .nonTermination
  | _ + 1, _, .value k v h =>
    if k = key then .ok (.resized, none)
    else .ok (.unchanged, some (.value k v h))
  | fuel + 1, level, .bitmap bm children =>
    let bit := levelBit hash level
    if containsBit bm bit then
      match children.get? (bitToIndex bm bit) with
      | none => .error .outOfRange
      | some child =>
        match eraseGo key hash fuel (level + 1) child with
        | .error e => .error e
        | .ok (status, newChild) =>
          match newChild with
          | none =>
            match eraseBit bm children bit with
            | .error e => .error e
            | .ok (.bitmap bm1 children1) =>
              if 1 < children1.length then .ok (status, some (.bitmap bm1 children1))
              else
                match children1.get? 0 with
                | some c => .ok (status, some c)
                | none => .error .outOfRange
            | .ok n => .ok (status, some n)
          | some nc =>
            if child = nc then .ok (.unchanged, some (.bitmap bm children))
            else
              match replaceBit bm children bit nc with
              | .error e => .error e
              | .ok n => .ok (status, some n)
    else .ok (.unchanged, some (.bitmap bm children))
  | _ + 1, _, .collision children =>
    if (findCollision key children).isSome then
      let removed := removeCollision key children
      if 1 < removed.length then .ok (.resized, some (.collision removed))
      else
        match removed.get? 0 with
        | some c => .ok (.resized, some c)
        | none => .error .outOfRange
    else .ok (.unchanged, some (.collision children))

/-- `SearcherVisitor::visit` (all three overloads): returns the matching value
leaf's pair, or `none`.  Descends into children only, so `nodeWeight + 1`
fuel always suffices. -/
def searchGo (key : K) (hash : Nat) :
    Nat → Nat → HamtNode K V → Except CError (Option (K × V))
  | 0, _, _ => .error .nonTermination
  | _ + 1, _, .value k v _ =>
    if k = key then .ok (some (k, v)) else .ok none
  | fuel + 1, level, .bitmap bm children =>
    let bit := levelBit hash level
    if containsBit bm bit then
      match children.get? (bitToIndex bm bit) with
      | none => .error .outOfRange
      | some child => searchGo key hash fuel (level + 1) child
    else .ok none
  | _ + 1, _, .collision children =>
    match findCollision key children with
    | some (.value k v _) => .ok (some (k, v))
    | _ => .ok none

/-- A visit that reports `Unchanged` hands back the stored node itself (so in
the first-generation `modifyHamt` the pointer test `newRoot != hamtRoot_`
is exactly status `≠ Unchanged`). -/
theorem insertGo_unchanged_eq (insKey : K) (insVal : V) (insHash : Nat)
    (replace : Bool) :
    ∀ (fuel level : Nat) (node n' : HamtNode K V),
      insertGo insKey insVal insHash replace fuel level node
        = .ok (.unchanged, n') → n' = node := by
  intro fuel
  induction fuel with
  | zero => intro level node n' h; exact Except.noConfusion h
  | succ fuel ih =>
    intro level node n' h
    match node with
    | .value k v hh =>
      simp only [insertGo] at h
      split at h
      · split at h
        · exact absurd h (by simp)
        · injection h with h1
          injection h1 with _ h2
          exact h2.symm
      · split at h
        · exact absurd h (by simp)
        · split at h
          · split at h
            · exact Except.noConfusion h
            · exact absurd h (by simp)
          · exact absurd h (by simp)
    | .bitmap bm children =>
      simp only [insertGo] at h
      split at h
      · split at h
        · exact Except.noConfusion h
        · rename_i child hchild
          split at h
          · exact Except.noConfusion h
          · rename_i status newChild hrec
            split at h
            · rename_i heq
              injection h with h1
              injection h1 with _ h2
              exact h2.symm
            · rename_i hne
              split at h
              · exact Except.noConfusion h
              · rename_i nrep hrep
                injection h with h1
                injection h1 with hs _
                subst hs
                exact absurd (ih (level + 1) child newChild hrec).symm hne
      · split at h
        · exact Except.noConfusion h
        · exact absurd h (by simp)
    | .collision children =>
      simp only [insertGo] at h
      cases hfound : (findCollision insKey children).isSome with
      | false =>
        rw [hfound] at h
        cases replace with
        | false =>
          simp only [Bool.false_and, Bool.not_false, Bool.true_or, if_true,
            if_false] at h
          exact absurd h (by simp)
        | true =>
          simp only [Bool.false_and, Bool.not_false, Bool.true_or, if_true,
            if_false] at h
          exact absurd h (by simp)
      | true =>
        rw [hfound] at h
        cases replace with
        | false =>
          simp only [Bool.true_and, Bool.not_true, Bool.false_or, if_false,
            if_true] at h
          injection h with h1
          injection h1 with _ h2
          exact h2.symm
        | true =>
          simp only [Bool.true_and, Bool.not_true, Bool.false_or, if_false,
            if_true] at h
          exact absurd h (by simp)

end Hamt

/-! ### The map level

`PersistentHashMap` (current generation, the one in the second half of the
header): `size_`, `hamtRoot_` (possibly null) and the manager.  The state the
`modifyHamt` thunks capture is the `(size, root)` pair. -/

structure PMapState (K V : Type) where
  size : Nat
  root : Option (HamtNode K V)

structure PMap (K V : Type) where
  size : Nat
  root : Option (HamtNode K V)
  mgr : UndoRedoManager (PMapState K V)

instance {K V : Type} [DecidableEq K] [DecidableEq V] : DecidableEq (PMapState K V) :=
  fun a b =>
    decidable_of_iff (a.size = b.size ∧ a.root = b.root) (by
      constructor
      · rintro ⟨h1, h2⟩; cases a; cases b; simp_all
      · rintro rfl; exact ⟨rfl, rfl⟩)

instance {K V : Type} [DecidableEq K] [DecidableEq V] : DecidableEq (PMap K V) :=
  fun a b =>
    decidable_of_iff (a.size = b.size ∧ a.root = b.root ∧ a.mgr = b.mgr) (by
      constructor
      · rintro ⟨h1, h2, h3⟩; cases a; cases b; simp_all
      · rintro rfl; exact ⟨rfl, rfl, rfl⟩)

namespace PMap

variable {K V : Type} [DecidableEq K] [DecidableEq V]

/-- The default-constructed map. -/
def empty : PMap K V := ⟨0, none, .empty⟩

/-- `PersistentHashMap::modifyHamt` (current generation): always pushes the
`(old state, new state)` action and returns the map rebuilt from the new
state. -/
def modifyHamt (m : PMap K V) (newRoot : Option (HamtNode K V)) (newSize : Nat) :
    PMap K V :=
  { size := newSize
    root := newRoot
    mgr := m.mgr.pushUndo ⟨⟨m.size, m.root⟩, ⟨newSize, newRoot⟩⟩ }

/-- `PersistentHashMap::insert` (current generation): an empty trie is
initialised with the new leaf at size 1; otherwise the inserter visitor runs
and the size grows by one exactly on status `Resized`. -/
def insert (hashF : K → Nat) (m : PMap K V) (kv : K × V) (replace : Bool) :
    Except CError (PMap K V) :=
  match m.root with
  | none => .ok (m.modifyHamt (some (.value kv.1 kv.2 (hashF kv.1))) 1)
  | some root =>
    match Hamt.insertGo kv.1 kv.2 (hashF kv.1) replace (Hamt.insertFuelFor root) 0 root with
    | .error e => .error e
    | .ok (status, newRoot) =>
      .ok (m.modifyHamt (some newRoot)
        (if status = .resized then m.size + 1 else m.size))

/-- `PersistentHashMap::erase` (current generation): an empty trie maps to
`modifyHamt(nullptr, 0)`; otherwise the eraser visitor runs and the size
shrinks by one exactly on status `Resized`. -/
def erase (hashF : K → Nat) (m : PMap K V) (k : K) : Except CError (PMap K V) :=
  match m.root with
  | none => .ok (m.modifyHamt none 0)
  | some root =>
    match Hamt.eraseGo k (hashF k) (Hamt.nodeWeight root + 1) 0 root with
    | .error e => .error e
    | .ok (status, newRoot) =>
      .ok (m.modifyHamt newRoot
        (if status = .resized then m.size - 1 else m.size))

/-- `PersistentHashMap::find`: searcher visitor on a non-null root. -/
def find (hashF : K → Nat) (m : PMap K V) (k : K) : Except CError (Option V) :=
  match m.root with
  | none => .ok none
  | some root =>
    match Hamt.searchGo k (hashF k) (Hamt.nodeWeight root + 1) 0 root with
    | .error e => .error e
    | .ok r => .ok (r.map Prod.snd)

/-- `PersistentHashMap::contains` (where `find` succeeds). -/
def containsB (hashF : K → Nat) (m : PMap K V) (k : K) : Bool :=
  match m.find hashF k with
  | .ok (some _) => true
  | _ => false

/-- Collection-level `undo` (the thunks of `modifyHamt` rebuilt the map from
the captured state and the repositioned manager). -/
def undo (m : PMap K V) : Except CError (PMap K V) :=
  match m.mgr.undo with
  | .error e => .error e
  | .ok (s, mgr) => .ok ⟨s.size, s.root, mgr⟩

/-- Collection-level `redo`. -/
def redo (m : PMap K V) : Except CError (PMap K V) :=
  match m.mgr.redo with
  | .error e => .error e
  | .ok (s, mgr) => .ok ⟨s.size, s.root, mgr⟩

/-- `hasUndo` / `hasRedo` of the collection. -/
def hasUndo (m : PMap K V) : Bool := m.mgr.hasUndo

def hasRedo (m : PMap K V) : Bool := m.mgr.hasRedo

/-- The size the FIRST generation of `PersistentHashMap` (the first half of
`part_002`) gives the map returned by `insert`.  That variant's `insert` calls
`modifyHamt(inserter, node, size_ + 1)` unconditionally, and its `modifyHamt`
applies the new size whenever the root returned by the visitor differs from
the stored root (a `shared_ptr` inequality `newRoot != hamtRoot_`), falling
back to `returnUnchangedWithUndo` (same size) otherwise.  Its visitors (an
older `HamtUtils.h` generation returning bare nodes instead of
status-node pairs) are not among the sources; per the spec's Insert
description they build the same new root as today's `InserterVisitor`, and
they hand back the stored node itself exactly in the `Unchanged` cases
(`insertGo_unchanged_eq` below proves that correspondence for the embedded
visitor), so the pointer test `newRoot != hamtRoot_` is status `≠ Unchanged`.
On an empty trie the visitor is not run and `newRoot` is the `defaultValue`
leaf, which differs from the null root. -/
def insertFirstVariantSize (hashF : K → Nat) (m : PMap K V) (kv : K × V)
    (replace : Bool) : Except CError Nat :=
  match m.root with
  | none => .ok (m.size + 1)
  | some root =>
    match Hamt.insertGo kv.1 kv.2 (hashF kv.1) replace (Hamt.insertFuelFor root) 0 root with
    | .error e => .error e
    | .ok (status, _) =>
      .ok (if status = .unchanged then m.size else m.size + 1)

end PMap

/-! ## The persistent list

Embeds `PersistentList.h` in the generation of `part_003` (namespace-qualified
names `PersistenceListOrder` / `PersistenceListNode`, operations
`set`/`erase`/`insert`/`pushFront`/`pushBack`/`popFront`/`popBack`, history
through `getChildren`).  The other generations in the sources have the same
algorithms.

* The order structure's `double` weights are the spec's real-valued labels and
  are modelled as exact fractions `Frac` (`weight_border = 2000000000000` is
  exactly representable; the labels are thirds of previous labels, so their
  denominators are powers of three and every value is exact).
* `handles` is a vector of list iterators with `handles[0] == handles[1]`
  pointing at the element `1` and `handles[v]` pointing at the element `v`;
  since each positive id occurs exactly once in the label list, an iterator is
  recovered as the position of its element.
* Fat nodes are mutated through shared pointers, so they live in an explicit
  heap; `std::map<int, _, CmpByListVersion>` becomes an association list kept
  sorted in the order's `less`.
* The C++ `while` loops of `makeNewNode`/`dropNode` walk outward along a
  version's chain; they are given `heap length + 1` fuel, which bounds any
  terminating execution (the walk visits pre-existing pairwise distinct
  nodes); exhausted fuel reports `nonTermination`. -/

/-- Version ids (C++ `int`; negative ids are the reverse companions). -/
abbrev VId := Int

/-- Exact fractions `num / den`.  Every fraction the order structure builds
has a positive denominator (a power of three times a list length), and the
representation is left unnormalised; comparison and equality are by
cross-multiplication, which agrees with the rational value ordering whenever
both denominators are positive. -/
structure Frac where
  num : Int
  den : Int
  deriving DecidableEq, Repr

namespace Frac

/-- The integer `n` as a fraction. -/
def ofInt (n : Int) : Frac := ⟨n, 1⟩

/-- Value addition. -/
def add (a b : Frac) : Frac := ⟨a.num * b.den + b.num * a.den, a.den * b.den⟩

/-- Value subtraction. -/
def sub (a b : Frac) : Frac := ⟨a.num * b.den - b.num * a.den, a.den * b.den⟩

/-- Multiplication by an integer. -/
def scale (n : Int) (a : Frac) : Frac := ⟨n * a.num, a.den⟩

/-- Division by a (positive) natural number. -/
def divNat (a : Frac) (n : Nat) : Frac := ⟨a.num, a.den * n⟩

/-- Value negation. -/
def neg (a : Frac) : Frac := ⟨-a.num, a.den⟩

/-- Value comparison `<` (cross-multiplication). -/
def ltB (a b : Frac) : Bool := a.num * b.den < b.num * a.den

/-- Value equality `==` (cross-multiplication). -/
def eqB (a b : Frac) : Bool := a.num * b.den = b.num * a.den

/-- The rational value of a fraction. -/
def val (a : Frac) : ℚ := (a.num : ℚ) / (a.den : ℚ)

end Frac

/-- `weight_border`. -/
def weightBorder : Frac := ⟨2000000000000, 1⟩

/-- `PersistenceListOrder`: the label list over `±id`, and the two weight
tables indexed by id (`handles` is implicit; see the section comment). -/
structure ListOrder where
  list : List VId
  weight_true : List Frac
  weight_reverse : List Frac
  deriving DecidableEq, Repr

namespace ListOrder

/-- The relabelling pass of `PersistenceListOrder::add`: walk the label list
assigning `cur`, `cur + step`, ... to the true weight of positive entries and
the reverse weight of negative entries. -/
def relabel (step : Frac) : List VId → Frac → List Frac → List Frac → List Frac × List Frac
  | [], _, wt, wr => (wt, wr)
  | i :: rest, cur, wt, wr =>
    if i < 0 then relabel step rest (cur.add step) wt (wr.set (-i).toNat cur)
    else relabel step rest (cur.add step) (wt.set i.toNat cur) wr

/-- `PersistenceListOrder::add`.  Returns the new order and the new version
number.  `CONTRACT_EXPECT(parent <= handles.size())` guards the handle lookup
(the `int`-versus-`size_t` comparison makes a negative parent fail it too). -/
def add (o : ListOrder) (parent : VId) : Except CError (ListOrder × VId) :=
  if o.list.isEmpty then
    .ok (⟨[1, -1], [weightBorder.neg, weightBorder.neg], [weightBorder, weightBorder]⟩, 1)
  else if parent < 0 || (o.weight_true.length : Int) < parent then
    .error .preConditionFailure
  else
    let target : VId := if parent = 0 then 1 else parent
    let idx := o.list.indexOf target
    match o.list.get? (idx + 1) with
    | none => .error .nullDeref
    | some next_parent =>
      let parent_value := o.weight_true.getD parent.toNat (.ofInt 0)
      let next_parent_value :=
        if 0 < next_parent then o.weight_true.getD next_parent.toNat (.ofInt 0)
        else o.weight_reverse.getD (-next_parent).toNat (.ofInt 0)
      let new_version : VId := (o.weight_true.length : Int)
      let list' := (o.list.take (idx + 1)) ++ new_version :: (-new_version) :: o.list.drop (idx + 1)
      let delta := next_parent_value.sub parent_value
      let true_weight := parent_value.add (delta.divNat 3)
      let true_reverse := parent_value.add ((Frac.scale 2 delta).divNat 3)
      let wt := o.weight_true ++ [true_weight]
      let wr := o.weight_reverse ++ [true_reverse]
      if true_weight.eqB true_reverse then
        let step := weightBorder.divNat wt.length
        let (wt', wr') := relabel step list' weightBorder.neg wt wr
        .ok (⟨list', wt', wr'⟩, new_version)
      else
        .ok (⟨list', wt, wr⟩, new_version)

/-- `PersistenceListOrder::less`: compare the weights (reverse weight for
negative arguments).  The `CONTRACT_EXPECT(abs l < weight_true.size())`
guards hold for every id a reachable list ever compares; out-of-range reads
default to `0` here. -/
def lessB (o : ListOrder) (l r : VId) : Bool :=
  let wl := if l < 0 then o.weight_reverse.getD (-l).toNat (.ofInt 0)
            else o.weight_true.getD l.toNat (.ofInt 0)
  let wr := if r < 0 then o.weight_reverse.getD (-r).toNat (.ofInt 0)
            else o.weight_true.getD r.toNat (.ofInt 0)
  wl.ltB wr

end ListOrder

/-- A version-keyed `std::map<int, α, CmpByListVersion>`: an association list
kept sorted ascending in the order's `less`. -/
abbrev VMap (α : Type) := List (VId × α)

namespace VMap

variable {α : Type}

/-- `map[k] = x`: sorted insert, overwriting an equivalent key. -/
def insertV (o : ListOrder) (k : VId) (x : α) : VMap α → VMap α
  | [] => [(k, x)]
  | (k', x') :: rest =>
    if o.lessB k' k then (k', x') :: insertV o k x rest
    else if o.lessB k k' then (k, x) :: (k', x') :: rest
    else (k, x) :: rest

/-- `--map.upper_bound(v)`: the last entry whose key is not beyond `v`; `none`
when `upper_bound` is already `begin` (where the C++ would decrement `begin`,
which is undefined). -/
def lookupLE (o : ListOrder) (v : VId) : VMap α → Option α
  | [] => none
  | (k, x) :: rest =>
    if o.lessB v k then none
    else
      match lookupLE o v rest with
      | some y => some y
      | none => some x

/-- The entries from `map.lower_bound(v)` to `map.end()` (used by
`copyNextAfter` / `copyLastAfter`). -/
def fromV (o : ListOrder) (v : VId) (m : VMap α) : VMap α :=
  m.filter (fun e => !o.lessB e.1 v)

/-- `map.find(v) != map.end()` (key equivalence under the comparator). -/
def containsKey (o : ListOrder) (v : VId) (m : VMap α) : Bool :=
  m.any (fun e => !o.lessB e.1 v && !o.lessB v e.1)

end VMap

/-- `MAX_SIZE_FAT_NODE`. -/
def maxSizeFatNode : Nat := 10

/-- `PersistenceListNode`: three version-keyed maps.  Node references are heap
ids (`none` is `nullptr`). -/
structure ListNode (T : Type) where
  next_ : VMap (Option Nat)
  last_ : VMap (Option Nat)
  value_ : VMap T
  deriving DecidableEq, Repr

namespace ListNode

variable {T : Type}

/-- The value-carrying constructor: `ListNode(version, value, last, next, cmp)`. -/
def mkValue (version : VId) (value : T) (last next : Option Nat) : ListNode T :=
  ⟨[(version, next)], [(version, last)], [(version, value)]⟩

/-- The sentinel constructor (`head_` / `tail_`): no value entry. -/
def mkSentinel (version : VId) (last next : Option Nat) : ListNode T :=
  ⟨[(version, next)], [(version, last)], []⟩

/-- `PersistenceListNode::add`: insert into `value_` unless the node already
holds `MAX_SIZE_FAT_NODE` values. -/
def add (o : ListOrder) (n : ListNode T) (version : VId) (value : T) :
    ListNode T × Bool :=
  if maxSizeFatNode ≤ n.value_.length then (n, false)
  else ({ n with value_ := n.value_.insertV o version value }, true)

/-- `canSetNext`: sentinels (no values) always can; fat nodes need room. -/
def canSetNext (n : ListNode T) : Bool :=
  n.value_.length = 0 || n.next_.length < maxSizeFatNode

/-- `canSetLast`. -/
def canSetLast (n : ListNode T) : Bool :=
  n.value_.length = 0 || n.last_.length < maxSizeFatNode

/-- `setNext`: refuse only when full *and* the version is not already a key. -/
def setNext (o : ListOrder) (n : ListNode T) (version : VId) (next : Option Nat) :
    ListNode T × Bool :=
  if !n.canSetNext && !(n.next_.containsKey o version) then (n, false)
  else ({ n with next_ := n.next_.insertV o version next }, true)

/-- `setLast`. -/
def setLast (o : ListOrder) (n : ListNode T) (version : VId) (last : Option Nat) :
    ListNode T × Bool :=
  if !n.canSetLast && !(n.last_.containsKey o version) then (n, false)
  else ({ n with last_ := n.last_.insertV o version last }, true)

/-- `copyNextAfter`: copy every `next_` entry of `src` from `lower_bound
(version)` on into this node. -/
def copyNextAfter (o : ListOrder) (n src : ListNode T) (version : VId) : ListNode T :=
  let merged := (VMap.fromV o version src.next_).foldl
    (fun m e => VMap.insertV o e.1 e.2 m) n.next_
  { n with next_ := merged }

/-- `copyLastAfter`. -/
def copyLastAfter (o : ListOrder) (n src : ListNode T) (version : VId) : ListNode T :=
  let merged := (VMap.fromV o version src.last_).foldl
    (fun m e => VMap.insertV o e.1 e.2 m) n.last_
  { n with last_ := merged }

/-- `PersistenceListNode::find`: `CONTRACT_EXPECT(!value_.empty())`, then the
greatest-key-≤-version entry (`--upper_bound`; decrementing `begin` is
undefined and surfaces as `nullDeref`). -/
def findV (o : ListOrder) (n : ListNode T) (version : VId) : Except CError T :=
  if n.value_.isEmpty then .error .preConditionFailure
  else
    match n.value_.lookupLE o version with
    | some x => .ok x
    | none => .error .nullDeref

/-- `getNext`. -/
def getNext (o : ListOrder) (n : ListNode T) (version : VId) :
    Except CError (Option Nat) :=
  if n.next_.isEmpty then .error .preConditionFailure
  else
    match n.next_.lookupLE o version with
    | some x => .ok x
    | none => .error .nullDeref

/-- `getLast`. -/
def getLast (o : ListOrder) (n : ListNode T) (version : VId) :
    Except CError (Option Nat) :=
  if n.last_.isEmpty then .error .preConditionFailure
  else
    match n.last_.lookupLE o version with
    | some x => .ok x
    | none => .error .nullDeref

end ListNode

/-- The state shared by every version of one `PersistentList` lineage: the
order structure, the fat-node heap, and the `head_`/`tail_` sentinels. -/
structure PListShared (T : Type) where
  order : ListOrder
  heap : List (ListNode T)
  head : Nat
  tail : Nat
  deriving DecidableEq, Repr

/-- The state captured by `getChildren`'s history thunks that is not shared:
`(version_, size_)` (the thunks also capture `listOrder_`/`head_`/`tail_`,
which are the same for every version of the lineage). -/
structure PListState where
  version : VId
  size : Nat
  deriving DecidableEq, Repr

/-- A `PersistentList` value. -/
structure PList where
  version : VId
  size : Nat
  mgr : UndoRedoManager PListState
  deriving DecidableEq, Repr

namespace PList

variable {T : Type}

/-- Dereference a node id (`SAFE_DEREF`-style: dangling means null). -/
def hGet (sh : PListShared T) (id : Nat) : Except CError (ListNode T) :=
  match sh.heap.get? id with
  | some n => .ok n
  | none => .error .nullDeref

/-- Write back a node. -/
def hSet (sh : PListShared T) (id : Nat) (n : ListNode T) : PListShared T :=
  { sh with heap := sh.heap.set id n }

/-- Dereference an optional node id (`ptr->...` on a possibly null pointer). -/
def deref : Option Nat → Except CError Nat
  | some id => .ok id
  | none => .error .nullDeref

/-- `id->getNext(version)` on the heap. -/
def getNextH (sh : PListShared T) (id : Nat) (version : VId) :
    Except CError (Option Nat) := do
  let n ← hGet sh id
  n.getNext sh.order version

/-- `id->getLast(version)` on the heap. -/
def getLastH (sh : PListShared T) (id : Nat) (version : VId) :
    Except CError (Option Nat) := do
  let n ← hGet sh id
  n.getLast sh.order version

/-- `id->find(version)` on the heap. -/
def findH (sh : PListShared T) (id : Nat) (version : VId) : Except CError T := do
  let n ← hGet sh id
  n.findV sh.order version

/-- `id->setNext(version, next)` on the heap (the callers ignore the returned
flag). -/
def setNextH (sh : PListShared T) (id : Nat) (version : VId) (next : Option Nat) :
    Except CError (PListShared T) := do
  let n ← hGet sh id
  .ok (hSet sh id (n.setNext sh.order version next).1)

/-- `id->setLast(version, last)` on the heap. -/
def setLastH (sh : PListShared T) (id : Nat) (version : VId) (last : Option Nat) :
    Except CError (PListShared T) := do
  let n ← hGet sh id
  .ok (hSet sh id (n.setLast sh.order version last).1)

/-- `id->add(version, value)` on the heap, returning the success flag. -/
def addH (sh : PListShared T) (id : Nat) (version : VId) (value : T) :
    Except CError (PListShared T × Bool) := do
  let n ← hGet sh id
  let (n', ok) := n.add sh.order version value
  .ok (hSet sh id n', ok)

/-- Allocate a node, returning its id. -/
def pushNode (sh : PListShared T) (n : ListNode T) : PListShared T × Nat :=
  ({ sh with heap := sh.heap ++ [n] }, sh.heap.length)

/-- The leftward loop shared by `makeNewNode` and `dropNode`:
```
while (!cur_last->canSetNext()) {
  cur_new_node = new ListNode(writeV, cur_last->find(readV),
                              cur_last->getLast(readV), cur_next);
  cur_new_node->copyNextAfter(cur_last, writeV);
  cur_last->getLast(readV)->setNext(writeV, cur_new_node);
  cur_next->setLast(writeV, cur_new_node);
  cur_next = cur_new_node; cur_last = cur_last->getLast(readV);
}
cur_last->setNext(writeV, cur_next); cur_next->setLast(writeV, cur_last);
```
In `makeNewNode` the read version equals the write version; in `dropNode` the
reads use `old_version`. -/
def relinkLeft (writeV readV : VId) :
    Nat → PListShared T → Nat → Nat → Except CError (PListShared T)
  | 0, _, _, _ => .error .nonTermination
  | fuel + 1, sh, curLast, curNext => do
    let nL ← hGet sh curLast
    if nL.canSetNext then do
      let sh ← setNextH sh curLast writeV (some curNext)
      setLastH sh curNext writeV (some curLast)
    else do
      let prev ← deref (← nL.getLast sh.order readV)
      let val ← nL.findV sh.order readV
      let copy := (ListNode.mkValue writeV val (some prev) (some curNext)).copyNextAfter
        sh.order nL writeV
      let (sh, newId) := pushNode sh copy
      let sh ← setNextH sh prev writeV (some newId)
      let sh ← setLastH sh curNext writeV (some newId)
      relinkLeft writeV readV fuel sh prev newId

/-- The rightward loop shared by `makeNewNode` and `dropNode` (mirror image of
`relinkLeft`, acting on `last_` links). -/
def relinkRight (writeV readV : VId) :
    Nat → PListShared T → Nat → Nat → Except CError (PListShared T)
  | 0, _, _, _ => .error .nonTermination
  | fuel + 1, sh, curLast, curNext => do
    let nN ← hGet sh curNext
    if nN.canSetLast then do
      let sh ← setNextH sh curLast writeV (some curNext)
      setLastH sh curNext writeV (some curLast)
    else do
      let nxt ← deref (← nN.getNext sh.order readV)
      let val ← nN.findV sh.order readV
      let copy := (ListNode.mkValue writeV val (some curLast) (some nxt)).copyLastAfter
        sh.order nN writeV
      let (sh, newId) := pushNode sh copy
      let sh ← setLastH sh nxt writeV (some newId)
      let sh ← setNextH sh curLast writeV (some newId)
      relinkRight writeV readV fuel sh newId nxt

/-- `PersistentList::makeNewNode(version, value, last, next)`: allocate the
new fat node and stitch it in between `last` and `next` at `version`, copying
full neighbours outward. -/
def makeNewNode (sh : PListShared T) (version : VId) (value : T)
    (last next : Nat) : Except CError (PListShared T) := do
  let (sh, newId) := pushNode sh (ListNode.mkValue version value none none)
  let sh ← relinkLeft version version (sh.heap.length + 1) sh last newId
  relinkRight version version (sh.heap.length + 1) sh newId next

/-- `PersistentList::dropNode(version, old_version, node)`: rewire the
node's neighbours (read at `old_version`) directly to each other at
`version`, copying full neighbours outward. -/
def dropNode (sh : PListShared T) (version old_version : VId) (node : Nat) :
    Except CError (PListShared T) := do
  let n ← hGet sh node
  let curLast ← deref (← n.getLast sh.order old_version)
  let curNext ← deref (← n.getNext sh.order old_version)
  let sh ← relinkLeft version old_version (sh.heap.length + 1) sh curLast curNext
  let n ← hGet sh node
  let curLast ← deref (← n.getLast sh.order old_version)
  let curNext ← deref (← n.getNext sh.order old_version)
  relinkRight version old_version (sh.heap.length + 1) sh curLast curNext

/-- The walk of `findNodeByIndex`: `index + 1` `getNext` steps from `head_`,
throwing `std::exception` on a null pointer. -/
def walkNext (sh : PListShared T) (version : VId) :
    Nat → Option Nat → Except CError Nat
  | 0, cur => deref cur |>.mapError (fun _ => .stdException)
  | steps + 1, cur =>
    match cur with
    | none => .error .stdException
    | some id => do
      let nxt ← getNextH sh id version
      walkNext sh version steps nxt

/-- `PersistentList::findNodeByIndex(version, index)`: `index >= size_` (an
`int`-versus-`size_t` comparison, so a negative index wraps around and fails
too) throws a plain `std::exception("index more size")`; otherwise walk
`index + 1` `next` edges from `head_`. -/
def findNodeByIndex (sh : PListShared T) (size : Nat) (version : VId)
    (index : Int) : Except CError Nat :=
  if index < 0 || (size : Int) ≤ index then .error .stdException
  else walkNext sh version (index.toNat + 1) (some sh.head)

/-- `PersistentList::getChildren(new_version, size)`: push the undo/redo pair
capturing `(version_, size_)` and `(new_version, size)` and return the list
carrying the new state. -/
def getChildren (l : PList) (new_version : VId) (size : Nat) : PList :=
  { version := new_version
    size := size
    mgr := l.mgr.pushUndo ⟨⟨l.version, l.size⟩, ⟨new_version, size⟩⟩ }

/-- `PersistentList::find(index)`. -/
def findT (sh : PListShared T) (l : PList) (index : Int) : Except CError T := do
  let ptr ← findNodeByIndex sh l.size l.version index
  findH sh ptr l.version

/-- `PersistentList::set(index, value)`. -/
def setT (sh : PListShared T) (l : PList) (index : Int) (value : T) :
    Except CError (PListShared T × PList) := do
  let ptr ← findNodeByIndex sh l.size l.version index
  let (o', new_version) ← sh.order.add l.version
  let sh := { sh with order := o' }
  let (sh, ok1) ← addH sh ptr new_version value
  let sh ←
    if ok1 then pure sh
    else do
      let last ← deref (← getLastH sh ptr l.version)
      let next ← deref (← getNextH sh ptr l.version)
      makeNewNode sh new_version value last next
  let oldVal ← findH sh ptr l.version
  let (sh, ok2) ← addH sh ptr (-new_version) oldVal
  let sh ←
    if ok2 then pure sh
    else do
      let last ← deref (← getLastH sh ptr l.version)
      let next ← deref (← getNextH sh ptr l.version)
      makeNewNode sh (-new_version) oldVal last next
  .ok (sh, getChildren l new_version l.size)

/-- `PersistentList::erase(index)`. -/
def eraseT (sh : PListShared T) (l : PList) (index : Int) :
    Except CError (PListShared T × PList) := do
  let ptr ← findNodeByIndex sh l.size l.version index
  let last ← deref (← getLastH sh ptr l.version)
  let next ← deref (← getNextH sh ptr l.version)
  let (o', new_version) ← sh.order.add l.version
  let sh := { sh with order := o' }
  let sh ← dropNode sh new_version l.version ptr
  let ptr1 ← findNodeByIndex sh l.size l.version index
  let restored ← findH sh ptr1 l.version
  let sh ← makeNewNode sh (-new_version) restored last next
  .ok (sh, getChildren l new_version (l.size - 1))

/-- `PersistentList::insert(index, value)`. -/
def insertT (sh : PListShared T) (l : PList) (index : Int) (value : T) :
    Except CError (PListShared T × PList) := do
  let (o', new_version) ← sh.order.add l.version
  let sh := { sh with order := o' }
  let ptr ← findNodeByIndex sh l.size l.version index
  let last ← deref (← getLastH sh ptr l.version)
  let sh ← makeNewNode sh new_version value last ptr
  let ptr1 ← findNodeByIndex sh l.size new_version index
  let sh ← dropNode sh (-new_version) new_version ptr1
  .ok (sh, getChildren l new_version (l.size + 1))

/-- `PersistentList::pushFront(value)`: `insert(0, value)`. -/
def pushFront (sh : PListShared T) (l : PList) (value : T) :
    Except CError (PListShared T × PList) :=
  insertT sh l 0 value

/-- `PersistentList::pushBack(value)`. -/
def pushBack (sh : PListShared T) (l : PList) (value : T) :
    Except CError (PListShared T × PList) := do
  let (o', new_version) ← sh.order.add l.version
  let sh := { sh with order := o' }
  let last ← deref (← getLastH sh sh.tail l.version)
  let sh ← makeNewNode sh new_version value last sh.tail
  let ptr1 ← deref (← getLastH sh sh.tail new_version)
  let sh ← dropNode sh (-new_version) new_version ptr1
  .ok (sh, getChildren l new_version (l.size + 1))

/-- `PersistentList::popFront()`: `erase(0)`. -/
def popFront (sh : PListShared T) (l : PList) : Except CError (PListShared T × PList) :=
  eraseT sh l 0

/-- `PersistentList::popBack()`: `erase(size_ - 1)` (on an empty list the
`size_t` arithmetic wraps and `findNodeByIndex` throws). -/
def popBack (sh : PListShared T) (l : PList) : Except CError (PListShared T × PList) :=
  eraseT sh l ((l.size : Int) - 1)

/-- The constructor's build loop: append one fat node per initializer value,
linking it behind `ptr`. -/
def buildChain (version : VId) : PListShared T → Nat → List T →
    Except CError (PListShared T × Nat)
  | sh, ptr, [] => .ok (sh, ptr)
  | sh, ptr, x :: rest => do
    let (sh, fatId) := pushNode sh (ListNode.mkValue version x (some ptr) none)
    let sh ← setNextH sh ptr version (some fatId)
    let sh ← setLastH sh fatId version (some ptr)
    buildChain version sh fatId rest

/-- The initializer-list constructor (the default constructor is the
`values = []` case: same sentinels, same initial links). -/
def ofList (values : List T) : Except CError (PListShared T × PList) := do
  let (order, _) ← ListOrder.add ⟨[], [], []⟩ 0
  let version : VId := 1
  let headNode : ListNode T := ListNode.mkSentinel version none none
  let sh : PListShared T := ⟨order, [headNode], 0, 0⟩
  let (sh, lastPtr) ← buildChain version sh 0 values
  let (sh, tailId) := pushNode sh (ListNode.mkSentinel version (some lastPtr) none)
  let sh ← setNextH sh lastPtr version (some tailId)
  .ok ({ sh with tail := tailId },
       { version := version, size := values.length, mgr := .empty })

/-- Collection-level `undo` (`CONTRACT_EXPECT(hasUndo())` then the manager). -/
def undoL (l : PList) : Except CError PList :=
  match l.mgr.undo with
  | .error e => .error e
  | .ok (s, mgr) => .ok ⟨s.version, s.size, mgr⟩

/-- Collection-level `redo`. -/
def redoL (l : PList) : Except CError PList :=
  match l.mgr.redo with
  | .error e => .error e
  | .ok (s, mgr) => .ok ⟨s.version, s.size, mgr⟩

/-- The observable contents of a list value: `find` at every index. -/
def obsList (sh : PListShared T) (l : PList) : List (Except CError T) :=
  (List.range l.size).map (fun i => findT sh l (i : Int))

end PList

/-! ## The fat-node value cap (C7)

`PersistenceListNode::add` refuses to grow a `value_` map that already holds
`MAX_SIZE_FAT_NODE` entries, and `value_` is written nowhere else, so the
value map of every node on the heap stays within the cap under every public
operation.  (The `next_`/`last_` maps do *not* obey the cap: `canSetNext`/
`canSetLast` exempt valueless sentinel nodes, see `claim_C7_counterexample`.) -/

/-- A successful `Except` bind splits into successful stages. -/
theorem exBindOk {ε α β : Type} {x : Except ε α} {f : α → Except ε β} {b : β}
    (h : x >>= f = .ok b) : ∃ a, x = .ok a ∧ f a = .ok b := by
  cases x with
  | error e => exact absurd h (by simp [bind, Except.bind])
  | ok a => exact ⟨a, rfl, by simpa [bind, Except.bind] using h⟩

namespace PList

variable {T : Type}

/-- The value-cap invariant: every node on the heap holds at most
`MAX_SIZE_FAT_NODE` entries in its `value_` map. -/
def VCap (sh : PListShared T) : Prop :=
  ∀ n ∈ sh.heap, n.value_.length ≤ maxSizeFatNode

/-- A sorted insert grows an association list by at most one entry. -/
theorem insertV_length_le {α : Type} (o : ListOrder) (k : VId) (x : α)
    (m : VMap α) : (VMap.insertV o k x m).length ≤ m.length + 1 := by
  induction m with
  | nil => simp [VMap.insertV]
  | cons e rest ih =>
    obtain ⟨k', x'⟩ := e
    simp only [VMap.insertV]
    split
    · simpa using Nat.succ_le_succ ih
    · split <;> simp

/-- `ListNode.add` keeps the value map within the cap. -/
theorem add_value_le (o : ListOrder) (n : ListNode T) (v : VId) (x : T)
    (h : n.value_.length ≤ maxSizeFatNode) :
    ((n.add o v x).1).value_.length ≤ maxSizeFatNode := by
  unfold ListNode.add
  split
  · exact h
  · rename_i hlt
    have h2 := insertV_length_le o v x n.value_
    show (VMap.insertV o v x n.value_).length ≤ maxSizeFatNode
    unfold maxSizeFatNode at hlt ⊢
    omega

/-- `setNext` never touches the value map. -/
theorem setNext_value (o : ListOrder) (n : ListNode T) (v : VId) (x : Option Nat) :
    ((n.setNext o v x).1).value_ = n.value_ := by
  unfold ListNode.setNext; split <;> rfl

/-- `setLast` never touches the value map. -/
theorem setLast_value (o : ListOrder) (n : ListNode T) (v : VId) (x : Option Nat) :
    ((n.setLast o v x).1).value_ = n.value_ := by
  unfold ListNode.setLast; split <;> rfl

/-- `copyNextAfter` never touches the value map. -/
theorem copyNextAfter_value (o : ListOrder) (n src : ListNode T) (v : VId) :
    (n.copyNextAfter o src v).value_ = n.value_ := rfl

/-- `copyLastAfter` never touches the value map. -/
theorem copyLastAfter_value (o : ListOrder) (n src : ListNode T) (v : VId) :
    (n.copyLastAfter o src v).value_ = n.value_ := rfl

/-- A node read from the heap is on the heap. -/
theorem hGet_mem {sh : PListShared T} {i : Nat} {n : ListNode T}
    (h : hGet sh i = .ok n) : n ∈ sh.heap := by
  unfold hGet at h
  split at h
  · rename_i m hm
    cases h
    exact List.get?_mem hm
  · exact absurd h (by simp)

/-- Overwriting a heap slot with a capped node preserves the invariant. -/
theorem vcap_hSet {sh : PListShared T} {i : Nat} {n : ListNode T}
    (hs : VCap sh) (hn : n.value_.length ≤ maxSizeFatNode) : VCap (hSet sh i n) := by
  intro m hm
  rcases List.mem_or_eq_of_mem_set hm with h | h
  · exact hs m h
  · exact h ▸ hn

/-- Allocating a capped node preserves the invariant. -/
theorem vcap_pushNode {sh : PListShared T} {n : ListNode T}
    (hs : VCap sh) (hn : n.value_.length ≤ maxSizeFatNode) :
    VCap (pushNode sh n).1 := by
  intro m hm
  simp only [pushNode, List.mem_append, List.mem_singleton] at hm
  rcases hm with h | h
  · exact hs m h
  · exact h ▸ hn

/-- `setNextH` preserves the invariant. -/
theorem vcap_setNextH {sh sh' : PListShared T} {i : Nat} {v : VId} {x : Option Nat}
    (h : setNextH sh i v x = .ok sh') (hs : VCap sh) : VCap sh' := by
  obtain ⟨n, hn, h⟩ := exBindOk h
  cases h
  exact vcap_hSet hs (by rw [setNext_value]; exact hs n (hGet_mem hn))

/-- `setLastH` preserves the invariant. -/
theorem vcap_setLastH {sh sh' : PListShared T} {i : Nat} {v : VId} {x : Option Nat}
    (h : setLastH sh i v x = .ok sh') (hs : VCap sh) : VCap sh' := by
  obtain ⟨n, hn, h⟩ := exBindOk h
  cases h
  exact vcap_hSet hs (by rw [setLast_value]; exact hs n (hGet_mem hn))

/-- `addH` preserves the invariant. -/
theorem vcap_addH {sh : PListShared T} {out : PListShared T × Bool} {i : Nat}
    {v : VId} {x : T} (h : addH sh i v x = .ok out) (hs : VCap sh) : VCap out.1 := by
  obtain ⟨n, hn, h⟩ := exBindOk h
  cases h
  exact vcap_hSet hs (add_value_le _ n v x (hs n (hGet_mem hn)))

/-- The leftward relink loop preserves the invariant: every node it allocates
carries exactly one value. -/
theorem vcap_relinkLeft (wv rv : VId) (fuel : Nat) :
    ∀ {sh sh' : PListShared T} {a b : Nat},
      relinkLeft wv rv fuel sh a b = .ok sh' → VCap sh → VCap sh' := by
  induction fuel with
  | zero =>
    intro sh sh' a b h
    exact absurd h (by simp [relinkLeft])
  | succ fuel ih =>
    intro sh sh' a b h hs
    rw [relinkLeft] at h
    obtain ⟨nL, hnL, h⟩ := exBindOk h
    split at h
    · obtain ⟨sh1, h1, h2⟩ := exBindOk h
      exact vcap_setLastH h2 (vcap_setNextH h1 hs)
    · obtain ⟨o1, _, h⟩ := exBindOk h
      obtain ⟨prev, _, h⟩ := exBindOk h
      obtain ⟨val, _, h⟩ := exBindOk h
      simp only [pushNode] at h
      obtain ⟨sh1, h1, h⟩ := exBindOk h
      obtain ⟨sh2, h2, h⟩ := exBindOk h
      refine ih h (vcap_setLastH h2 (vcap_setNextH h1 ?_))
      exact vcap_pushNode hs (by rw [copyNextAfter_value]; simp [ListNode.mkValue, maxSizeFatNode])

/-- The rightward relink loop preserves the invariant. -/
theorem vcap_relinkRight (wv rv : VId) (fuel : Nat) :
    ∀ {sh sh' : PListShared T} {a b : Nat},
      relinkRight wv rv fuel sh a b = .ok sh' → VCap sh → VCap sh' := by
  induction fuel with
  | zero =>
    intro sh sh' a b h
    exact absurd h (by simp [relinkRight])
  | succ fuel ih =>
    intro sh sh' a b h hs
    rw [relinkRight] at h
    obtain ⟨nN, hnN, h⟩ := exBindOk h
    split at h
    · obtain ⟨sh1, h1, h2⟩ := exBindOk h
      exact vcap_setLastH h2 (vcap_setNextH h1 hs)
    · obtain ⟨o1, _, h⟩ := exBindOk h
      obtain ⟨nxt, _, h⟩ := exBindOk h
      obtain ⟨val, _, h⟩ := exBindOk h
      simp only [pushNode] at h
      obtain ⟨sh1, h1, h⟩ := exBindOk h
      obtain ⟨sh2, h2, h⟩ := exBindOk h
      refine ih h (vcap_setNextH h2 (vcap_setLastH h1 ?_))
      exact vcap_pushNode hs (by rw [copyLastAfter_value]; simp [ListNode.mkValue, maxSizeFatNode])

/-- `makeNewNode` preserves the invariant. -/
theorem vcap_makeNewNode {sh sh' : PListShared T} {v : VId} {x : T} {a b : Nat}
    (h : makeNewNode sh v x a b = .ok sh') (hs : VCap sh) : VCap sh' := by
  unfold makeNewNode at h
  simp only [pushNode] at h
  obtain ⟨sh1, h1, h⟩ := exBindOk h
  exact vcap_relinkRight _ _ _ h
    (vcap_relinkLeft _ _ _ h1 (vcap_pushNode hs (by simp [ListNode.mkValue, maxSizeFatNode])))

/-- `dropNode` preserves the invariant. -/
theorem vcap_dropNode {sh sh' : PListShared T} {v ov : VId} {i : Nat}
    (h : dropNode sh v ov i = .ok sh') (hs : VCap sh) : VCap sh' := by
  unfold dropNode at h
  obtain ⟨n, _, h⟩ := exBindOk h
  obtain ⟨o1, _, h⟩ := exBindOk h
  obtain ⟨cl, _, h⟩ := exBindOk h
  obtain ⟨o2, _, h⟩ := exBindOk h
  obtain ⟨cn, _, h⟩ := exBindOk h
  obtain ⟨sh1, h1, h⟩ := exBindOk h
  obtain ⟨n2, _, h⟩ := exBindOk h
  obtain ⟨o3, _, h⟩ := exBindOk h
  obtain ⟨cl2, _, h⟩ := exBindOk h
  obtain ⟨o4, _, h⟩ := exBindOk h
  obtain ⟨cn2, _, h⟩ := exBindOk h
  exact vcap_relinkRight _ _ _ h (vcap_relinkLeft _ _ _ h1 hs)

/-- Changing only the order structure preserves the invariant. -/
theorem vcap_order {sh : PListShared T} {o : ListOrder} (hs : VCap sh) :
    VCap { sh with order := o } := hs

/-- `set` preserves the invariant. -/
theorem vcap_setT {sh : PListShared T} {l : PList} {i : Int} {x : T}
    {out : PListShared T × PList} (h : setT sh l i x = .ok out) (hs : VCap sh) :
    VCap out.1 := by
  unfold setT at h
  obtain ⟨ptr, _, h⟩ := exBindOk h
  obtain ⟨ov, _, h⟩ := exBindOk h
  obtain ⟨o', nv⟩ := ov
  obtain ⟨p1, h1, h⟩ := exBindOk h
  obtain ⟨sh1, ok1⟩ := p1
  have hs1 : VCap sh1 := vcap_addH h1 (vcap_order hs)
  have cont : ∀ {shm : PListShared T}, VCap shm →
      ((do
        let oldVal ← findH shm ptr l.version
        let (sh, ok2) ← addH shm ptr (-nv) oldVal
        let sh ←
          if ok2 then pure sh
          else do
            let last ← deref (← getLastH sh ptr l.version)
            let next ← deref (← getNextH sh ptr l.version)
            makeNewNode sh (-nv) oldVal last next
        .ok (sh, getChildren l nv l.size)) = Except.ok out) → VCap out.1 := by
    intro shm hsm hc
    obtain ⟨oldVal, _, hc⟩ := exBindOk hc
    obtain ⟨p3, h3, hc⟩ := exBindOk hc
    obtain ⟨sh3, ok2⟩ := p3
    have hs3 : VCap sh3 := vcap_addH h3 hsm
    cases ok2 with
    | true =>
      cases hc
      exact hs3
    | false =>
      obtain ⟨o1, _, hc⟩ := exBindOk hc
      obtain ⟨la, _, hc⟩ := exBindOk hc
      obtain ⟨o2, _, hc⟩ := exBindOk hc
      obtain ⟨ne, _, hc⟩ := exBindOk hc
      obtain ⟨sh4, h4, hc⟩ := exBindOk hc
      cases hc
      exact vcap_makeNewNode h4 hs3
  cases ok1 with
  | true => exact cont hs1 h
  | false =>
    obtain ⟨o1, _, h⟩ := exBindOk h
    obtain ⟨la, _, h⟩ := exBindOk h
    obtain ⟨o2, _, h⟩ := exBindOk h
    obtain ⟨ne, _, h⟩ := exBindOk h
    obtain ⟨sh2, h2, h⟩ := exBindOk h
    exact cont (vcap_makeNewNode h2 hs1) h

/-- `erase` preserves the invariant. -/
theorem vcap_eraseT {sh : PListShared T} {l : PList} {i : Int}
    {out : PListShared T × PList} (h : eraseT sh l i = .ok out) (hs : VCap sh) :
    VCap out.1 := by
  unfold eraseT at h
  obtain ⟨ptr, _, h⟩ := exBindOk h
  obtain ⟨o1, _, h⟩ := exBindOk h
  obtain ⟨la, _, h⟩ := exBindOk h
  obtain ⟨o2, _, h⟩ := exBindOk h
  obtain ⟨ne, _, h⟩ := exBindOk h
  obtain ⟨ov, _, h⟩ := exBindOk h
  obtain ⟨o', nv⟩ := ov
  obtain ⟨sh1, h1, h⟩ := exBindOk h
  obtain ⟨ptr1, _, h⟩ := exBindOk h
  obtain ⟨restored, _, h⟩ := exBindOk h
  obtain ⟨sh2, h2, h⟩ := exBindOk h
  cases h
  exact vcap_makeNewNode h2 (vcap_dropNode h1 (vcap_order hs))

/-- `insert` preserves the invariant. -/
theorem vcap_insertT {sh : PListShared T} {l : PList} {i : Int} {x : T}
    {out : PListShared T × PList} (h : insertT sh l i x = .ok out) (hs : VCap sh) :
    VCap out.1 := by
  unfold insertT at h
  obtain ⟨ov, _, h⟩ := exBindOk h
  obtain ⟨o', nv⟩ := ov
  obtain ⟨ptr, _, h⟩ := exBindOk h
  obtain ⟨o1, _, h⟩ := exBindOk h
  obtain ⟨la, _, h⟩ := exBindOk h
  obtain ⟨sh1, h1, h⟩ := exBindOk h
  obtain ⟨ptr1, _, h⟩ := exBindOk h
  obtain ⟨sh2, h2, h⟩ := exBindOk h
  cases h
  exact vcap_dropNode h2 (vcap_makeNewNode h1 (vcap_order hs))

/-- `pushBack` preserves the invariant. -/
theorem vcap_pushBack {sh : PListShared T} {l : PList} {x : T}
    {out : PListShared T × PList} (h : pushBack sh l x = .ok out) (hs : VCap sh) :
    VCap out.1 := by
  unfold pushBack at h
  obtain ⟨ov, _, h⟩ := exBindOk h
  obtain ⟨o', nv⟩ := ov
  obtain ⟨o1, _, h⟩ := exBindOk h
  obtain ⟨la, _, h⟩ := exBindOk h
  obtain ⟨sh1, h1, h⟩ := exBindOk h
  obtain ⟨o2, _, h⟩ := exBindOk h
  obtain ⟨ptr1, _, h⟩ := exBindOk h
  obtain ⟨sh2, h2, h⟩ := exBindOk h
  cases h
  exact vcap_dropNode h2 (vcap_makeNewNode h1 (vcap_order hs))

/-- The constructor's build loop preserves the invariant. -/
theorem vcap_buildChain (v : VId) :
    ∀ (values : List T) {sh : PListShared T} {ptr : Nat}
      {out : PListShared T × Nat},
      buildChain v sh ptr values = .ok out → VCap sh → VCap out.1 := by
  intro values
  induction values with
  | nil =>
    intro sh ptr out h hs
    cases h
    exact hs
  | cons x rest ih =>
    intro sh ptr out h hs
    rw [buildChain] at h
    simp only [pushNode] at h
    obtain ⟨sh1, h1, h⟩ := exBindOk h
    obtain ⟨sh2, h2, h⟩ := exBindOk h
    refine ih h (vcap_setLastH h2 (vcap_setNextH h1 ?_))
    exact vcap_pushNode hs (by simp [ListNode.mkValue, maxSizeFatNode])

/-- The constructor establishes the invariant. -/
theorem vcap_ofList {values : List T} {out : PListShared T × PList}
    (h : ofList values = .ok out) : VCap out.1 := by
  unfold ofList at h
  simp only [pushNode] at h
  obtain ⟨op, _, h⟩ := exBindOk h
  obtain ⟨ord, v0⟩ := op
  obtain ⟨p1, h1, h⟩ := exBindOk h
  obtain ⟨shb, lastPtr⟩ := p1
  obtain ⟨sh2, h2, h⟩ := exBindOk h
  cases h
  have hinit : VCap (⟨ord, [ListNode.mkSentinel 1 none none], 0, 0⟩ : PListShared T) := by
    intro n hn
    simp only [List.mem_singleton] at hn
    subst hn
    simp [ListNode.mkSentinel, maxSizeFatNode]
  have hb : VCap shb := vcap_buildChain 1 values h1 hinit
  have hp : VCap (pushNode shb (ListNode.mkSentinel 1 (some lastPtr) none)).1 :=
    vcap_pushNode hb (by simp [ListNode.mkSentinel, maxSizeFatNode])
  intro n hn
  exact vcap_setNextH h2 hp n hn

/-- One public mutating operation on some version of the lineage. -/
inductive PLStep : PListShared T → PListShared T → Prop
  | set (sh sh' : PListShared T) (l : PList) (i : Int) (x : T) (l' : PList) :
      setT sh l i x = .ok (sh', l') → PLStep sh sh'
  | erase (sh sh' : PListShared T) (l : PList) (i : Int) (l' : PList) :
      eraseT sh l i = .ok (sh', l') → PLStep sh sh'
  | insert (sh sh' : PListShared T) (l : PList) (i : Int) (x : T) (l' : PList) :
      insertT sh l i x = .ok (sh', l') → PLStep sh sh'
  | push_front (sh sh' : PListShared T) (l : PList) (x : T) (l' : PList) :
      pushFront sh l x = .ok (sh', l') → PLStep sh sh'
  | push_back (sh sh' : PListShared T) (l : PList) (x : T) (l' : PList) :
      pushBack sh l x = .ok (sh', l') → PLStep sh sh'
  | pop_front (sh sh' : PListShared T) (l : PList) (l' : PList) :
      popFront sh l = .ok (sh', l') → PLStep sh sh'
  | pop_back (sh sh' : PListShared T) (l : PList) (l' : PList) :
      popBack sh l = .ok (sh', l') → PLStep sh sh'

/-- The shared states reachable by a constructor call followed by any sequence
of public operations applied to any versions of the lineage (`find`, `undo`,
`redo` and `getChildren` never touch the shared state). -/
inductive PLReach : PListShared T → Prop
  | init (values : List T) (sh : PListShared T) (l : PList) :
      ofList values = .ok (sh, l) → PLReach sh
  | step (sh sh' : PListShared T) : PLReach sh → PLStep sh sh' → PLReach sh'

/-- Every reachable shared state satisfies the value cap. -/
theorem reach_vcap {sh : PListShared T} (h : PLReach sh) : VCap sh := by
  induction h with
  | init values sh l h0 => exact vcap_ofList h0
  | step sh sh' hr hs ih =>
    cases hs with
    | set l i x l' h0 => exact vcap_setT h0 ih
    | erase l i l' h0 => exact vcap_eraseT h0 ih
    | insert l i x l' h0 => exact vcap_insertT h0 ih
    | push_front l x l' h0 => exact vcap_insertT h0 ih
    | push_back l x l' h0 => exact vcap_pushBack h0 ih
    | pop_front l l' h0 => exact vcap_eraseT h0 ih
    | pop_back l l' h0 => exact vcap_eraseT h0 ih

end PList

/-! ## The public mutating operations, enumerated

Used to quantify over "every mutating public operation" in the history
claims.  `pushBack` on the array forwards to `emplaceBack`, and the list's
`pushFront`/`popFront`/`popBack` forward to `insert`/`erase`; they are listed
separately all the same. -/

/-- `hasUndo` of the array (delegation to the manager). -/
def PArray.hasUndo (a : PArray) : Bool := a.mgr.hasUndo

/-- `hasRedo` of the array. -/
def PArray.hasRedo (a : PArray) : Bool := a.mgr.hasRedo

/-- `hasUndo` of the list. -/
def PList.hasUndoL (l : PList) : Bool := l.mgr.hasUndo

/-- `hasRedo` of the list. -/
def PList.hasRedoL (l : PList) : Bool := l.mgr.hasRedo

/-- The mutating operations of `PersistentArray`. -/
inductive PAOp (T : Type) where
  | setValue (index : Nat) (v : T)
  | emplaceBack (v : T)
  | popBack

/-- Dispatch a `PAOp`. -/
def PArray.runOp {T : Type} (heap : PAHeap T) (a : PArray) :
    PAOp T → Except CError (PAHeap T × PArray)
  | .setValue i v => PArray.setValue heap a i v
  | .emplaceBack v => PArray.emplaceBack heap a v
  | .popBack => PArray.popBack heap a

/-- The mutating operations of `PersistentHashMap`. -/
inductive PMapOp (K V : Type) where
  | insert (kv : K × V) (replace : Bool)
  | erase (k : K)

/-- Dispatch a `PMapOp`. -/
def PMap.runOp {K V : Type} [DecidableEq K] [DecidableEq V] (hashF : K → Nat)
    (m : PMap K V) : PMapOp K V → Except CError (PMap K V)
  | .insert kv r => m.insert hashF kv r
  | .erase k => m.erase hashF k

/-- The mutating operations of `PersistentList`. -/
inductive PLOp (T : Type) where
  | set (i : Int) (x : T)
  | erase (i : Int)
  | insert (i : Int) (x : T)
  | push_front (x : T)
  | push_back (x : T)
  | pop_front
  | pop_back

/-- Dispatch a `PLOp`. -/
def PList.runOp {T : Type} (sh : PListShared T) (l : PList) :
    PLOp T → Except CError (PListShared T × PList)
  | .set i x => PList.setT sh l i x
  | .erase i => PList.eraseT sh l i
  | .insert i x => PList.insertT sh l i x
  | .push_front x => PList.pushFront sh l x
  | .push_back x => PList.pushBack sh l x
  | .pop_front => PList.popFront sh l
  | .pop_back => PList.popBack sh l

/-! ### Every successful mutation returns a freshly pushed history -/

namespace PArray

variable {T : Type}

/-- A successful array operation returns an array built by `modify`. -/
theorem arr_runOp_ok_modify {heap : PAHeap T} {a : PArray} {op : PAOp T}
    {out : PAHeap T × PArray} (h : PArray.runOp heap a op = .ok out) :
    ∃ nd sz, out.2 = a.modify nd sz := by
  cases op with
  | setValue i v =>
    simp only [runOp] at h
    unfold setValue at h
    split at h
    · cases h
      exact ⟨_, _, rfl⟩
    · exact Except.noConfusion h
  | emplaceBack v =>
    simp only [runOp] at h
    unfold emplaceBack at h
    split at h
    · cases h
      exact ⟨_, _, rfl⟩
    · split at h
      · exact Except.noConfusion h
      · split at h
        · exact Except.noConfusion h
        · split at h
          · exact Except.noConfusion h
          · split at h
            · cases h
              exact ⟨_, _, rfl⟩
            · cases h
              exact ⟨_, _, rfl⟩
  | popBack =>
    simp only [runOp] at h
    unfold popBack at h
    split at h
    · exact Except.noConfusion h
    · cases h
      exact ⟨_, _, rfl⟩

end PArray

namespace PMap

variable {K V : Type} [DecidableEq K] [DecidableEq V]

/-- A successful map operation returns a map built by `modifyHamt`. -/
theorem runOp_ok_modify {hashF : K → Nat} {m : PMap K V} {op : PMapOp K V}
    {out : PMap K V} (h : PMap.runOp hashF m op = .ok out) :
    ∃ r sz, out = m.modifyHamt r sz := by
  cases op with
  | insert kv rep =>
    simp only [runOp] at h
    unfold insert at h
    split at h
    · cases h
      exact ⟨_, _, rfl⟩
    · split at h
      · exact Except.noConfusion h
      · cases h
        exact ⟨_, _, rfl⟩
  | erase k =>
    simp only [runOp] at h
    unfold erase at h
    split at h
    · cases h
      exact ⟨_, _, rfl⟩
    · split at h
      · exact Except.noConfusion h
      · cases h
        exact ⟨_, _, rfl⟩

end PMap

namespace PList

variable {T : Type}

/-- A successful `set` returns the list built by `getChildren` (same size, new
version). -/
theorem setT_ok_out {sh : PListShared T} {l : PList} {i : Int} {x : T}
    {out : PListShared T × PList} (h : setT sh l i x = .ok out) :
    ∃ nv, out.2 = l.getChildren nv l.size := by
  unfold setT at h
  obtain ⟨ptr, _, h⟩ := exBindOk h
  obtain ⟨ov, _, h⟩ := exBindOk h
  obtain ⟨o', nv⟩ := ov
  obtain ⟨p1, h1, h⟩ := exBindOk h
  obtain ⟨sh1, ok1⟩ := p1
  have cont : ∀ {shm : PListShared T},
      ((do
        let oldVal ← findH shm ptr l.version
        let (sh, ok2) ← addH shm ptr (-nv) oldVal
        let sh ←
          if ok2 then pure sh
          else do
            let last ← deref (← getLastH sh ptr l.version)
            let next ← deref (← getNextH sh ptr l.version)
            makeNewNode sh (-nv) oldVal last next
        .ok (sh, getChildren l nv l.size)) = Except.ok out) →
      ∃ nv, out.2 = l.getChildren nv l.size := by
    intro shm hc
    obtain ⟨oldVal, _, hc⟩ := exBindOk hc
    obtain ⟨p3, h3, hc⟩ := exBindOk hc
    obtain ⟨sh3, ok2⟩ := p3
    cases ok2 with
    | true =>
      cases hc
      exact ⟨nv, rfl⟩
    | false =>
      obtain ⟨o1, _, hc⟩ := exBindOk hc
      obtain ⟨la, _, hc⟩ := exBindOk hc
      obtain ⟨o2, _, hc⟩ := exBindOk hc
      obtain ⟨ne, _, hc⟩ := exBindOk hc
      obtain ⟨sh4, h4, hc⟩ := exBindOk hc
      cases hc
      exact ⟨nv, rfl⟩
  cases ok1 with
  | true => exact cont h
  | false =>
    obtain ⟨o1, _, h⟩ := exBindOk h
    obtain ⟨la, _, h⟩ := exBindOk h
    obtain ⟨o2, _, h⟩ := exBindOk h
    obtain ⟨ne, _, h⟩ := exBindOk h
    obtain ⟨sh2, h2, h⟩ := exBindOk h
    exact cont h

/-- A successful `erase` returns the list built by `getChildren` (size down
one, new version). -/
theorem eraseT_ok_out {sh : PListShared T} {l : PList} {i : Int}
    {out : PListShared T × PList} (h : eraseT sh l i = .ok out) :
    ∃ nv, out.2 = l.getChildren nv (l.size - 1) := by
  unfold eraseT at h
  obtain ⟨ptr, _, h⟩ := exBindOk h
  obtain ⟨o1, _, h⟩ := exBindOk h
  obtain ⟨la, _, h⟩ := exBindOk h
  obtain ⟨o2, _, h⟩ := exBindOk h
  obtain ⟨ne, _, h⟩ := exBindOk h
  obtain ⟨ov, _, h⟩ := exBindOk h
  obtain ⟨o', nv⟩ := ov
  obtain ⟨sh1, h1, h⟩ := exBindOk h
  obtain ⟨ptr1, _, h⟩ := exBindOk h
  obtain ⟨restored, _, h⟩ := exBindOk h
  obtain ⟨sh2, h2, h⟩ := exBindOk h
  cases h
  exact ⟨nv, rfl⟩

/-- A successful `insert` returns the list built by `getChildren` (size up
one, new version). -/
theorem insertT_ok_out {sh : PListShared T} {l : PList} {i : Int} {x : T}
    {out : PListShared T × PList} (h : insertT sh l i x = .ok out) :
    ∃ nv, out.2 = l.getChildren nv (l.size + 1) := by
  unfold insertT at h
  obtain ⟨ov, _, h⟩ := exBindOk h
  obtain ⟨o', nv⟩ := ov
  obtain ⟨ptr, _, h⟩ := exBindOk h
  obtain ⟨o1, _, h⟩ := exBindOk h
  obtain ⟨la, _, h⟩ := exBindOk h
  obtain ⟨sh1, h1, h⟩ := exBindOk h
  obtain ⟨ptr1, _, h⟩ := exBindOk h
  obtain ⟨sh2, h2, h⟩ := exBindOk h
  cases h
  exact ⟨nv, rfl⟩

/-- A successful `pushBack` returns the list built by `getChildren` (size up
one, new version). -/
theorem pushBack_ok_out {sh : PListShared T} {l : PList} {x : T}
    {out : PListShared T × PList} (h : pushBack sh l x = .ok out) :
    ∃ nv, out.2 = l.getChildren nv (l.size + 1) := by
  unfold pushBack at h
  obtain ⟨ov, _, h⟩ := exBindOk h
  obtain ⟨o', nv⟩ := ov
  obtain ⟨o1, _, h⟩ := exBindOk h
  obtain ⟨la, _, h⟩ := exBindOk h
  obtain ⟨sh1, h1, h⟩ := exBindOk h
  obtain ⟨o2, _, h⟩ := exBindOk h
  obtain ⟨ptr1, _, h⟩ := exBindOk h
  obtain ⟨sh2, h2, h⟩ := exBindOk h
  cases h
  exact ⟨nv, rfl⟩

/-- A successful list operation returns a list built by `getChildren`. -/
theorem runOp_ok_children {sh : PListShared T} {l : PList} {op : PLOp T}
    {out : PListShared T × PList} (h : PList.runOp sh l op = .ok out) :
    ∃ nv sz, out.2 = l.getChildren nv sz := by
  cases op with
  | set i x => obtain ⟨nv, hv⟩ := setT_ok_out h; exact ⟨nv, _, hv⟩
  | erase i => obtain ⟨nv, hv⟩ := eraseT_ok_out h; exact ⟨nv, _, hv⟩
  | insert i x => obtain ⟨nv, hv⟩ := insertT_ok_out h; exact ⟨nv, _, hv⟩
  | push_front x => obtain ⟨nv, hv⟩ := insertT_ok_out h; exact ⟨nv, _, hv⟩
  | push_back x => obtain ⟨nv, hv⟩ := pushBack_ok_out h; exact ⟨nv, _, hv⟩
  | pop_front => obtain ⟨nv, hv⟩ := eraseT_ok_out h; exact ⟨nv, _, hv⟩
  | pop_back => obtain ⟨nv, hv⟩ := eraseT_ok_out h; exact ⟨nv, _, hv⟩

end PList

/-! ## The bitmap structural invariant (C6)

Every bitmap node of a trie built by `insert`/`erase` keeps its bitmap within
32 bits and its children vector at exactly `popcount` entries, children
ordered by bit index ascending.  The embedding's child vectors hold nodes and
can hold no null: the inserter always stores freshly built nodes, and the
eraser catches a null child before storing anything. -/

namespace Hamt

variable {K V : Type}

/-- Structural soundness of a trie node, recursively: every bitmap node's
bitmap fits the 32-bit alphabet and its children vector has exactly
`popcount` entries. -/
def structOKb : HamtNode K V → Bool
  | .value _ _ _ => true
  | .bitmap bm children =>
    decide (bm < 2 ^ hamtCapacity) && decide (children.length = popcount32 bm)
      && listOK children
  | .collision children => listOK children
where listOK : List (HamtNode K V) → Bool
  | [] => true
  | c :: cs => structOKb c && listOK cs

/-- Members of a structurally sound children list are sound. -/
theorem listOK_mem {c : HamtNode K V} :
    ∀ {l : List (HamtNode K V)}, structOKb.listOK l = true → c ∈ l →
      structOKb c = true := by
  intro l
  induction l with
  | nil => intro _ hc; cases hc
  | cons a as ih =>
    intro h hc
    rw [structOKb.listOK, Bool.and_eq_true] at h
    rcases List.mem_cons.mp hc with rfl | hm
    · exact h.1
    · exact ih h.2 hm

/-- A list of sound nodes is a sound children list. -/
theorem listOK_of_mem :
    ∀ {l : List (HamtNode K V)}, (∀ c ∈ l, structOKb c = true) →
      structOKb.listOK l = true := by
  intro l
  induction l with
  | nil => intro _; rfl
  | cons a as ih =>
    intro h
    rw [structOKb.listOK, Bool.and_eq_true]
    exact ⟨h a (List.mem_cons_self a as),
           ih (fun c hc => h c (List.mem_cons_of_mem a hc))⟩

/-- `levelBit` lies below the 32-bit capacity. -/
theorem levelBit_lt (hash level : Nat) : levelBit hash level < hamtCapacity := by
  have h := Nat.and_le_right (n := hash >>> (hamtBitSize * level)) (m := hamtBitMask)
  unfold levelBit
  unfold hamtBitMask at h ⊢
  unfold hamtCapacity
  omega

/-- The single set bit of `1 <<< bit`. -/
theorem testBit_one_shift (bit i : Nat) :
    (1 <<< bit).testBit i = decide (i = bit) := by
  rw [Nat.shiftLeft_eq, one_mul, Nat.testBit_two_pow]
  exact decide_eq_decide.mpr eq_comm

/-- Counting a predicate weakened by one fresh element. -/
theorem countP_or_single {p : Nat → Bool} {bit : Nat} (hp : p bit = false) :
    ∀ l : List Nat,
      l.countP (fun i => p i || decide (i = bit)) = l.countP p + l.count bit := by
  intro l
  induction l with
  | nil => simp
  | cons a as ih =>
    by_cases ha : a = bit
    · subst ha
      simp [List.countP_cons, List.count_cons, hp, ih]
      omega
    · simp [List.countP_cons, List.count_cons, ha, ih]
      omega

/-- Counting a predicate stripped of one held element. -/
theorem countP_xor_single {p : Nat → Bool} {bit : Nat} (hp : p bit = true) :
    ∀ l : List Nat,
      l.countP p
        = l.countP (fun i => xor (p i) (decide (i = bit))) + l.count bit := by
  intro l
  induction l with
  | nil => simp
  | cons a as ih =>
    by_cases ha : a = bit
    · subst ha
      simp [List.countP_cons, List.count_cons, hp, ih]
      omega
    · simp [List.countP_cons, List.count_cons, ha, ih]
      omega

/-- Setting a fresh bit adds one to the population count. -/
theorem popcount32_or (bm bit : Nat) (hbit : bit < hamtCapacity)
    (h : bm.testBit bit = false) :
    popcount32 (bm ||| (1 <<< bit)) = popcount32 bm + 1 := by
  unfold popcount32
  have hcong : (List.range hamtCapacity).countP
      (fun i => (bm ||| (1 <<< bit)).testBit i)
      = (List.range hamtCapacity).countP
        (fun i => bm.testBit i || decide (i = bit)) := by
    apply List.countP_congr
    intro i _
    rw [Nat.testBit_or, testBit_one_shift]
  rw [hcong, countP_or_single h,
      List.count_eq_one_of_mem (List.nodup_range _) (List.mem_range.mpr hbit)]

/-- Clearing a held bit removes one from the population count. -/
theorem popcount32_xor (bm bit : Nat) (hbit : bit < hamtCapacity)
    (h : bm.testBit bit = true) :
    popcount32 bm = popcount32 (bm ^^^ (1 <<< bit)) + 1 := by
  unfold popcount32
  have hcong : (List.range hamtCapacity).countP
      (fun i => (bm ^^^ (1 <<< bit)).testBit i)
      = (List.range hamtCapacity).countP
        (fun i => xor (bm.testBit i) (decide (i = bit))) := by
    apply List.countP_congr
    intro i _
    rw [Nat.testBit_xor, testBit_one_shift]
  rw [hcong, countP_xor_single h (List.range hamtCapacity),
      List.count_eq_one_of_mem (List.nodup_range _) (List.mem_range.mpr hbit)]

/-- A one-bit bitmap has population count one. -/
theorem popcount32_single (bit : Nat) (hbit : bit < hamtCapacity) :
    popcount32 (1 <<< bit) = 1 := by
  have h0 : popcount32 0 = 0 := rfl
  have h := popcount32_or 0 bit hbit (Nat.zero_testBit bit)
  rw [h0] at h
  simpa using h

/-- Counting over a longer initial range counts at least as much. -/
theorem countP_range_mono (p : Nat → Bool) {a b : Nat} (h : a ≤ b) :
    (List.range a).countP p ≤ (List.range b).countP p := by
  obtain ⟨k, rfl⟩ := Nat.le.dest h
  rw [List.range_add, List.countP_append]
  omega

/-- `bitToIndex` never exceeds the population count. -/
theorem bitToIndex_le (bm bit : Nat) (hbit : bit ≤ hamtCapacity) :
    bitToIndex bm bit ≤ popcount32 bm :=
  countP_range_mono _ hbit

/-- `bitToIndex` of a held bit is a strict index into the children vector. -/
theorem bitToIndex_lt (bm bit : Nat) (hbit : bit < hamtCapacity)
    (h : bm.testBit bit = true) : bitToIndex bm bit < popcount32 bm := by
  have h1 : (List.range (bit + 1)).countP (fun i => bm.testBit i)
      = bitToIndex bm bit + 1 := by
    unfold bitToIndex
    rw [List.range_succ, List.countP_append]
    simp [h]
  have h2 : (List.range (bit + 1)).countP (fun i => bm.testBit i)
      ≤ popcount32 bm := countP_range_mono _ hbit
  unfold popcount32 at h2 ⊢
  omega

/-- Cross-referencing `popcount32` with the listed set bits. -/
theorem popcount32_eq_bitsOf_length (bm : Nat) :
    popcount32 bm = (bitsOf bm).length := by
  unfold popcount32 bitsOf
  exact List.countP_eq_length_filter _ _

/-- The prefix count below the `i`-th listed element of a filtered range is
`i` itself. -/
theorem countP_range_filter_get (p : Nat → Bool) :
    ∀ (n i b : Nat), ((List.range n).filter p).get? i = some b →
      (List.range b).countP p = i := by
  intro n
  induction n with
  | zero => intro i b h; exact Option.noConfusion h
  | succ n ih =>
    intro i b h
    by_cases hp : p n = true
    · have hsplit : (List.range (n + 1)).filter p
          = (List.range n).filter p ++ [n] := by
        rw [List.range_succ, List.filter_append]
        simp [hp]
      rw [hsplit] at h
      by_cases hlt : i < ((List.range n).filter p).length
      · rw [List.get?_append hlt] at h
        exact ih i b h
      · rw [List.get?_append_right (by omega)] at h
        have hcase : i - ((List.range n).filter p).length = 0 := by
          by_contra hne
          rw [List.get?_eq_none.mpr (by simp; omega)] at h
          exact Option.noConfusion h
        rw [hcase] at h
        have hb : n = b := by simpa using h
        subst hb
        have hc : (List.range n).countP p = ((List.range n).filter p).length :=
          List.countP_eq_length_filter _ _
        omega
    · have hsplit : (List.range (n + 1)).filter p = (List.range n).filter p := by
        rw [List.range_succ, List.filter_append]
        simp [hp]
      rw [hsplit] at h
      exact ih i b h

/-- `bitToIndex` at the `i`-th lowest set bit is `i`. -/
theorem bitToIndex_bitsOf (bm i : Nat) (hi : i < (bitsOf bm).length) :
    bitToIndex bm ((bitsOf bm).get ⟨i, hi⟩) = i :=
  countP_range_filter_get (fun b => bm.testBit b) hamtCapacity i _
    (List.get?_eq_get hi)

/-- The listed set bits are strictly ascending. -/
theorem bitsOf_pairwise (bm : Nat) : (bitsOf bm).Pairwise (· < ·) :=
  (List.pairwise_lt_range hamtCapacity).filter _

/-- Every listed set bit is held by the bitmap. -/
theorem bitsOf_testBit {bm b : Nat} (h : b ∈ bitsOf bm) : bm.testBit b = true :=
  List.of_mem_filter h

/-- Every listed set bit is below the capacity. -/
theorem bitsOf_lt {bm b : Nat} (h : b ∈ bitsOf bm) : b < hamtCapacity :=
  List.mem_range.mp (List.mem_of_mem_filter h)

/-- Length of `vectorInserted`. -/
theorem vectorInserted_length {α : Type} (l : List α) (i : Nat) (v : α)
    (h : i ≤ l.length) : (vectorInserted l i v).length = l.length + 1 := by
  unfold vectorInserted
  simp
  omega

/-- Length of `vectorReplaced`. -/
theorem vectorReplaced_length {α : Type} (l : List α) (i : Nat) (v : α)
    (h : i < l.length) : (vectorReplaced l i v).length = l.length := by
  unfold vectorReplaced
  simp
  omega

/-- Length of `vectorErased`. -/
theorem vectorErased_length {α : Type} (l : List α) (i : Nat)
    (h : i < l.length) : (vectorErased l i).length + 1 = l.length := by
  unfold vectorErased
  simp
  omega

/-- Members of `vectorInserted`. -/
theorem vectorInserted_mem {α : Type} {l : List α} {i : Nat} {v c : α}
    (hc : c ∈ vectorInserted l i v) : c ∈ l ∨ c = v := by
  unfold vectorInserted at hc
  rcases List.mem_append.mp hc with h | h
  · exact .inl (List.take_subset _ _ h)
  · rcases List.mem_cons.mp h with rfl | h
    · exact .inr rfl
    · exact .inl (List.drop_subset _ _ h)

/-- Members of `vectorReplaced`. -/
theorem vectorReplaced_mem {α : Type} {l : List α} {i : Nat} {v c : α}
    (hc : c ∈ vectorReplaced l i v) : c ∈ l ∨ c = v := by
  unfold vectorReplaced at hc
  rcases List.mem_append.mp hc with h | h
  · exact .inl (List.take_subset _ _ h)
  · rcases List.mem_cons.mp h with rfl | h
    · exact .inr rfl
    · exact .inl (List.drop_subset _ _ h)

/-- Members of `vectorErased`. -/
theorem vectorErased_mem {α : Type} {l : List α} {i : Nat} {c : α}
    (hc : c ∈ vectorErased l i) : c ∈ l := by
  unfold vectorErased at hc
  rcases List.mem_append.mp hc with h | h
  · exact List.take_subset _ _ h
  · exact List.drop_subset _ _ h

/-- `insertBit` builds a sound bitmap node from sound inputs. -/
theorem insertBit_structOK {bm : Nat} {children : List (HamtNode K V)}
    {bit : Nat} {c n : HamtNode K V} (h : insertBit bm children bit c = .ok n)
    (hbm : bm < 2 ^ hamtCapacity) (hlen : children.length = popcount32 bm)
    (hbit : bit < hamtCapacity) (hc : structOKb c = true)
    (hl : structOKb.listOK children = true) : structOKb n = true := by
  unfold insertBit at h
  split at h
  · exact Except.noConfusion h
  · rename_i hcont
    cases h
    have hshift : 1 <<< bit < 2 ^ hamtCapacity := by
      rw [Nat.shiftLeft_eq, one_mul]
      exact Nat.pow_lt_pow_right (by omega) hbit
    have hfresh : bm.testBit bit = false := by
      revert hcont
      unfold containsBit
      intro hcont
      exact Bool.not_eq_true _ ▸ (by simpa using hcont)
    rw [structOKb, Bool.and_eq_true, Bool.and_eq_true]
    refine ⟨⟨?_, ?_⟩, ?_⟩
    · exact decide_eq_true_eq.mpr (Nat.or_lt_two_pow hbm hshift)
    · refine decide_eq_true_eq.mpr ?_
      rw [vectorInserted_length children _ c
            (hlen ▸ bitToIndex_le bm bit (Nat.le_of_lt hbit)),
          popcount32_or bm bit hbit hfresh, hlen]
    · refine listOK_of_mem ?_
      intro d hd
      rcases vectorInserted_mem hd with hm | rfl
      · exact listOK_mem hl hm
      · exact hc

/-- `replaceBit` builds a sound bitmap node from sound inputs. -/
theorem replaceBit_structOK {bm : Nat} {children : List (HamtNode K V)}
    {bit : Nat} {c n : HamtNode K V} (h : replaceBit bm children bit c = .ok n)
    (hbm : bm < 2 ^ hamtCapacity) (hlen : children.length = popcount32 bm)
    (hbit : bit < hamtCapacity) (hc : structOKb c = true)
    (hl : structOKb.listOK children = true) : structOKb n = true := by
  unfold replaceBit at h
  split at h
  · rename_i hcont
    cases h
    have hheld : bm.testBit bit = true := by simpa [containsBit] using hcont
    rw [structOKb, Bool.and_eq_true, Bool.and_eq_true]
    refine ⟨⟨decide_eq_true_eq.mpr hbm, ?_⟩, ?_⟩
    · refine decide_eq_true_eq.mpr ?_
      rw [vectorReplaced_length children _ c
            (hlen ▸ bitToIndex_lt bm bit hbit hheld), hlen]
    · refine listOK_of_mem ?_
      intro d hd
      rcases vectorReplaced_mem hd with hm | rfl
      · exact listOK_mem hl hm
      · exact hc
  · exact Except.noConfusion h

/-- `eraseBit` builds a sound bitmap node from sound inputs. -/
theorem eraseBit_structOK {bm : Nat} {children : List (HamtNode K V)}
    {bit : Nat} {n : HamtNode K V} (h : eraseBit bm children bit = .ok n)
    (hbm : bm < 2 ^ hamtCapacity) (hlen : children.length = popcount32 bm)
    (hbit : bit < hamtCapacity)
    (hl : structOKb.listOK children = true) : structOKb n = true := by
  unfold eraseBit at h
  split at h
  · rename_i hcont
    cases h
    have hheld : bm.testBit bit = true := by simpa [containsBit] using hcont
    have hshift : 1 <<< bit < 2 ^ hamtCapacity := by
      rw [Nat.shiftLeft_eq, one_mul]
      exact Nat.pow_lt_pow_right (by omega) hbit
    rw [structOKb, Bool.and_eq_true, Bool.and_eq_true]
    refine ⟨⟨?_, ?_⟩, ?_⟩
    · exact decide_eq_true_eq.mpr (Nat.xor_lt_two_pow hbm hshift)
    · refine decide_eq_true_eq.mpr ?_
      have he := vectorErased_length children (bitToIndex bm bit)
        (hlen ▸ bitToIndex_lt bm bit hbit hheld)
      have hp := popcount32_xor bm bit hbit hheld
      omega
    · exact listOK_of_mem (fun d hd => listOK_mem hl (vectorErased_mem hd))
  · exact Except.noConfusion h

end Hamt

namespace Hamt

variable {K V : Type}

/-- Assemble a sound bitmap node. -/
theorem structOK_bitmap_mk {bm : Nat} {children : List (HamtNode K V)}
    (h1 : bm < 2 ^ hamtCapacity) (h2 : children.length = popcount32 bm)
    (h3 : structOKb.listOK children = true) :
    structOKb (.bitmap bm children) = true := by
  rw [structOKb, Bool.and_eq_true, Bool.and_eq_true]
  exact ⟨⟨decide_eq_true_eq.mpr h1, decide_eq_true_eq.mpr h2⟩, h3⟩

/-- Take a sound bitmap node apart. -/
theorem structOK_bitmap_elim {bm : Nat} {children : List (HamtNode K V)}
    (h : structOKb (.bitmap bm children) = true) :
    bm < 2 ^ hamtCapacity ∧ children.length = popcount32 bm ∧
      structOKb.listOK children = true := by
  rw [structOKb, Bool.and_eq_true, Bool.and_eq_true] at h
  exact ⟨decide_eq_true_eq.mp h.1.1, decide_eq_true_eq.mp h.1.2, h.2⟩

/-- A one-bit shift stays below the 32-bit bound. -/
theorem one_shift_lt {bit : Nat} (h : bit < hamtCapacity) :
    (1 <<< bit) < 2 ^ hamtCapacity := by
  rw [Nat.shiftLeft_eq, one_mul]
  exact Nat.pow_lt_pow_right (by omega) h

/-- The inserter visitor preserves structural soundness. -/
theorem insertGo_structOK (insKey : K) (insVal : V) (insHash : Nat)
    (replace : Bool) [DecidableEq K] [DecidableEq V] :
    ∀ (fuel level : Nat) (node : HamtNode K V)
      (res : HamtStatus × HamtNode K V),
      insertGo insKey insVal insHash replace fuel level node = .ok res →
      structOKb node = true → structOKb res.2 = true := by
  intro fuel
  induction fuel with
  | zero =>
    intro level node res h
    exact absurd h (by simp [insertGo])
  | succ fuel ih =>
    intro level node res h hok
    cases node with
    | value k v hh =>
      simp only [insertGo] at h
      split at h
      · split at h
        · cases h; rfl
        · cases h; exact hok
      · split at h
        · cases h; rfl
        · split at h
          · split at h
            · exact Except.noConfusion h
            · rename_i fst p heq
              cases h
              refine ih level _ (fst, p) heq ?_
              refine structOK_bitmap_mk (one_shift_lt (levelBit_lt hh level)) ?_ rfl
              simp [popcount32_single _ (levelBit_lt hh level)]
          · rename_i hne
            have hbc := levelBit_lt hh level
            have hbi := levelBit_lt insHash level
            have hfresh : (1 <<< levelBit hh level).testBit (levelBit insHash level)
                = false := by
              rw [testBit_one_shift]
              exact decide_eq_false (fun hh2 => hne hh2.symm)
            have hbm2 : ((1 <<< levelBit hh level) ||| (1 <<< levelBit insHash level))
                < 2 ^ hamtCapacity :=
              Nat.or_lt_two_pow (one_shift_lt hbc) (one_shift_lt hbi)
            have hpc2 : popcount32
                ((1 <<< levelBit hh level) ||| (1 <<< levelBit insHash level)) = 2 := by
              rw [popcount32_or _ _ hbi hfresh, popcount32_single _ hbc]
            split at h
            · cases h
              exact structOK_bitmap_mk hbm2 (by simp [hpc2]) rfl
            · cases h
              exact structOK_bitmap_mk hbm2 (by simp [hpc2]) rfl
    | bitmap bm children =>
      obtain ⟨hbm, hlen, hl⟩ := structOK_bitmap_elim hok
      simp only [insertGo] at h
      split at h
      · split at h
        · exact Except.noConfusion h
        · rename_i child heq
          split at h
          · exact Except.noConfusion h
          · rename_i p heq2
            split at h
            · cases h
              exact structOK_bitmap_mk hbm hlen hl
            · split at h
              · exact Except.noConfusion h
              · rename_i n2 heq3
                cases h
                refine replaceBit_structOK heq3 hbm hlen (levelBit_lt _ _) ?_ hl
                exact ih _ _ _ heq2 (listOK_mem hl (List.get?_mem heq))
      · split at h
        · exact Except.noConfusion h
        · rename_i n2 heq3
          cases h
          exact insertBit_structOK heq3 hbm hlen (levelBit_lt _ _) rfl hl
    | collision children =>
      have hl : structOKb.listOK children = true := hok
      simp only [insertGo] at h
      split at h
      · cases h
        refine listOK_of_mem ?_
        intro d hd
        rcases List.mem_append.mp hd with hm | hm
        · split at hm
          · exact listOK_mem hl ((List.eraseP_sublist _).subset hm)
          · exact listOK_mem hl hm
        · rw [List.mem_singleton.mp hm]
          rfl
      · cases h
        split
        · exact listOK_of_mem
            (fun d hd => listOK_mem hl ((List.eraseP_sublist _).subset hd))
        · exact hl

/-- The eraser visitor preserves structural soundness. -/
theorem eraseGo_structOK (key : K) (hash : Nat) [DecidableEq K] [DecidableEq V] :
    ∀ (fuel level : Nat) (node : HamtNode K V)
      (res : HamtStatus × Option (HamtNode K V)),
      eraseGo key hash fuel level node = .ok res →
      structOKb node = true →
      ∀ n, res.2 = some n → structOKb n = true := by
  intro fuel
  induction fuel with
  | zero =>
    intro level node res h
    exact absurd h (by simp [eraseGo])
  | succ fuel ih =>
    intro level node res h hok n hres
    cases node with
    | value k v hh =>
      simp only [eraseGo] at h
      split at h
      · cases h; exact Option.noConfusion hres
      · cases h
        cases Option.some.inj hres
        exact hok
    | bitmap bm children =>
      obtain ⟨hbm, hlen, hl⟩ := structOK_bitmap_elim hok
      simp only [eraseGo] at h
      split at h
      · split at h
        · exact Except.noConfusion h
        · rename_i child heq
          split at h
          · exact Except.noConfusion h
          · rename_i p heq2
            split at h
            · split at h
              · exact Except.noConfusion h
              · rename_i bm1 children1 heq3
                have hsub := eraseBit_structOK heq3 hbm hlen (levelBit_lt _ _) hl
                split at h
                · cases h
                  cases Option.some.inj hres
                  exact hsub
                · split at h
                  · rename_i c heq4
                    cases h
                    cases Option.some.inj hres
                    obtain ⟨_, _, hl1⟩ := structOK_bitmap_elim hsub
                    exact listOK_mem hl1 (List.get?_mem heq4)
                  · exact Except.noConfusion h
              · rename_i n2 heq3
                cases h
                cases Option.some.inj hres
                exact eraseBit_structOK heq3 hbm hlen (levelBit_lt _ _) hl
            · rename_i nc
              split at h
              · cases h
                cases Option.some.inj hres
                exact structOK_bitmap_mk hbm hlen hl
              · split at h
                · exact Except.noConfusion h
                · rename_i n2 heq3
                  cases h
                  cases Option.some.inj hres
                  refine replaceBit_structOK heq3 hbm hlen (levelBit_lt _ _) ?_ hl
                  exact ih _ _ _ heq2 (listOK_mem hl (List.get?_mem heq)) nc rfl
      · cases h
        cases Option.some.inj hres
        exact structOK_bitmap_mk hbm hlen hl
    | collision children =>
      have hl : structOKb.listOK children = true := hok
      simp only [eraseGo] at h
      split at h
      · split at h
        · cases h
          cases Option.some.inj hres
          exact listOK_of_mem
            (fun d hd => listOK_mem hl ((List.eraseP_sublist _).subset hd))
        · split at h
          · rename_i c heq4
            cases h
            cases Option.some.inj hres
            exact listOK_mem hl ((List.eraseP_sublist _).subset (List.get?_mem heq4))
          · exact Except.noConfusion h
      · cases h
        cases Option.some.inj hres
        exact hl

/-- The descendant relation on trie nodes (reflexive, through children). -/
inductive HamtSub : HamtNode K V → HamtNode K V → Prop
  | refl (n : HamtNode K V) : HamtSub n n
  | bitmap_child (n c : HamtNode K V) (bm : Nat) (children : List (HamtNode K V)) :
      c ∈ children → HamtSub n c → HamtSub n (.bitmap bm children)
  | collision_child (n c : HamtNode K V) (children : List (HamtNode K V)) :
      c ∈ children → HamtSub n c → HamtSub n (.collision children)

/-- Structural soundness is hereditary. -/
theorem structOK_sub {n r : HamtNode K V} (hsub : HamtSub n r)
    (hr : structOKb r = true) : structOKb n = true := by
  induction hsub with
  | refl => exact hr
  | bitmap_child c bm children hc hs ih =>
    exact ih (listOK_mem (structOK_bitmap_elim hr).2.2 hc)
  | collision_child c children hc hs ih =>
    exact ih (listOK_mem hr hc)

end Hamt

namespace PMap

variable {K V : Type} [DecidableEq K] [DecidableEq V]

/-- Structural soundness of a map's root (a null root is sound). -/
def rootOKb (m : PMap K V) : Bool :=
  match m.root with
  | none => true
  | some r => Hamt.structOKb r

/-- `insert` preserves root soundness. -/
theorem insert_rootOK {hashF : K → Nat} {m m2 : PMap K V} {kv : K × V}
    {rep : Bool} (h : m.insert hashF kv rep = .ok m2)
    (hm : rootOKb m = true) : rootOKb m2 = true := by
  unfold insert at h
  split at h
  · cases h; rfl
  · rename_i root heq
    split at h
    · exact Except.noConfusion h
    · rename_i p heq2
      cases h
      have hroot : Hamt.structOKb root = true := by
        unfold rootOKb at hm
        rw [heq] at hm
        exact hm
      exact Hamt.insertGo_structOK kv.1 kv.2 (hashF kv.1) rep _ 0 root _ heq2 hroot

/-- `erase` preserves root soundness. -/
theorem erase_rootOK {hashF : K → Nat} {m m2 : PMap K V} {k : K}
    (h : m.erase hashF k = .ok m2) (hm : rootOKb m = true) :
    rootOKb m2 = true := by
  unfold erase at h
  split at h
  · cases h; rfl
  · rename_i root heq
    split at h
    · exact Except.noConfusion h
    · rename_i st newRoot heq2
      cases h
      have hroot : Hamt.structOKb root = true := by
        unfold rootOKb at hm
        rw [heq] at hm
        exact hm
      unfold rootOKb
      match hp : newRoot with
      | none => rfl
      | some n =>
        exact Hamt.eraseGo_structOK k (hashF k) _ 0 root (st, some n) heq2
          hroot n rfl

/-- The maps built from `empty` by any sequence of `insert`/`erase` calls. -/
inductive MReach (hashF : K → Nat) : PMap K V → Prop
  | empty : MReach hashF PMap.empty
  | insert (m m2 : PMap K V) (kv : K × V) (rep : Bool) :
      MReach hashF m → m.insert hashF kv rep = .ok m2 → MReach hashF m2
  | erase (m m2 : PMap K V) (k : K) :
      MReach hashF m → m.erase hashF k = .ok m2 → MReach hashF m2

/-- Every reachable map has a structurally sound root. -/
theorem reach_rootOK {hashF : K → Nat} {m : PMap K V} (h : MReach hashF m) :
    rootOKb m = true := by
  induction h with
  | empty => rfl
  | insert m m2 kv rep hr hop ih => exact insert_rootOK hop ih
  | erase m m2 k hr hop ih => exact erase_rootOK hop ih

end PMap

/-! ## Receiver persistence (C1)

For the array: the shared heap only ever grows by fresh nodes, or extends a
root's backing storage in place; reads of a pre-existing array value walk
parent chains of pre-existing nodes, so every read that succeeded before a
mutation returns the same element afterwards.  The hash map's embedding is
pure (the C++ visitors only build fresh nodes; nothing writes through a
shared pointer), so its receiver cannot change at all.  The list's case is
the `ReadPres` development further down. -/

namespace PArray

variable {T : Type}

/-- Per-node heap soundness: parents point strictly downwards (the heap is
allocated in order), and root nodes have no parent. -/
def nodeOKb (n : PANode T) (j : Nat) : Bool :=
  (match n.parent with
   | none => true
   | some p => decide (p < j)) &&
  (match n.impl, n.parent with
   | .root _, some _ => false
   | _, _ => true)

/-- Heap soundness. -/
def AWF (heap : PAHeap T) : Prop :=
  ∀ j (h : j < heap.length), nodeOKb (heap.get ⟨j, h⟩) j = true

/-- Every index below the array's size reads successfully. -/
def readsOKb (heap : PAHeap T) (a : PArray) : Bool :=
  (List.range a.size).all (fun i =>
    match value heap a i with
    | .ok _ => true
    | .error _ => false)

/-- Validity of an array value over a heap: its node is live and all its
reads succeed. -/
def AValid (heap : PAHeap T) (a : PArray) : Prop :=
  (match a.node with
   | none => True
   | some id => id < heap.length) ∧
  readsOKb heap a = true

/-- The walk's inner step on a found node's stored value (`findValueFrom`'s
value match, as a function, for stating intermediate goals). -/
def valueStep : Option T → Except CError T
  | some v => .ok v
  | none => .error .nullDeref

/-- The walk's step through a parent pointer. -/
def parentStep (heap : PAHeap T) (fuel idx : Nat) : Option Nat → Except CError T
  | none => .error .nullDeref
  | some p => findValueFrom heap fuel p idx

/-- Soundness facts for one live node. -/
theorem awf_get? {heap : PAHeap T} (hw : AWF heap) {j : Nat} {n : PANode T}
    (h : heap.get? j = some n) :
    (∀ p, n.parent = some p → p < j) ∧
    (∀ s, n.impl = .root s → n.parent = none) := by
  have hj : j < heap.length := (List.get?_eq_some.mp h).1
  have hn : heap.get ⟨j, hj⟩ = n := by
    have h2 := List.get?_eq_get hj
    rw [h] at h2
    exact (Option.some.inj h2).symm
  have hok := hw j hj
  rw [hn, nodeOKb, Bool.and_eq_true] at hok
  constructor
  · intro p hp
    rw [hp] at hok
    exact decide_eq_true_eq.mp hok.1
  · intro s hs
    match hpar : n.parent with
    | none => rfl
    | some p =>
      rw [hs, hpar] at hok
      exact absurd hok.2 (by simp)

/-- Walks are unaffected by appending fresh nodes. -/
theorem findValueFrom_append (heap ext : PAHeap T) (hw : AWF heap) :
    ∀ (fuel id idx : Nat), id < heap.length →
      findValueFrom (heap ++ ext) fuel id idx
        = findValueFrom heap fuel id idx := by
  intro fuel
  induction fuel with
  | zero => intro id idx _; rfl
  | succ fuel ih =>
    intro id idx hid
    rw [findValueFrom, findValueFrom, List.get?_append hid]
    cases hg : heap.get? id with
    | none => rfl
    | some n =>
      show (if paImplContains n.impl idx = true then
          match paImplValue n.impl idx with
          | some v => Except.ok v
          | none => Except.error CError.nullDeref
        else
          match n.parent with
          | none => Except.error CError.nullDeref
          | some p => findValueFrom (heap ++ ext) fuel p idx) =
        (if paImplContains n.impl idx = true then
          match paImplValue n.impl idx with
          | some v => Except.ok v
          | none => Except.error CError.nullDeref
        else
          match n.parent with
          | none => Except.error CError.nullDeref
          | some p => findValueFrom heap fuel p idx)
      by_cases hcont : paImplContains n.impl idx = true
      · rw [if_pos hcont, if_pos hcont]
      · rw [if_neg hcont, if_neg hcont]
        cases hp : n.parent with
        | none => rfl
        | some p =>
          exact ih p idx (Nat.lt_trans ((awf_get? hw hg).1 p hp) hid)

/-- Successful walks are unaffected by extending a root's storage in place. -/
theorem findValueFrom_set_root {heap : PAHeap T} (hw : AWF heap) {rid : Nat}
    {storage : List T} {par : Option Nat} (v : T)
    (hr : heap.get? rid = some ⟨.root storage, par⟩) :
    ∀ (fuel id idx : Nat) (x : T),
      findValueFrom heap fuel id idx = .ok x →
      findValueFrom (heap.set rid ⟨.root (storage ++ [v]), par⟩) fuel id idx
        = .ok x := by
  have hparn : par = none := ((awf_get? hw hr).2 storage rfl)
  intro fuel
  induction fuel with
  | zero => intro id idx x h; exact absurd h (by simp [findValueFrom])
  | succ fuel ih =>
    intro id idx x h
    rw [findValueFrom] at h ⊢
    by_cases hid : id = rid
    · subst hid
      rw [hr] at h
      have hset : (heap.set id ⟨.root (storage ++ [v]), par⟩).get? id
          = some ⟨.root (storage ++ [v]), par⟩ := by
        rw [List.get?_set_eq, hr]
        rfl
      rw [hset]
      have h2 : (if paImplContains (PANodeImpl.root storage) idx = true
          then valueStep (paImplValue (PANodeImpl.root storage) idx)
          else parentStep heap fuel idx par) = Except.ok x := h
      show (if paImplContains (PANodeImpl.root (storage ++ [v])) idx = true
          then valueStep (paImplValue (PANodeImpl.root (storage ++ [v])) idx)
          else parentStep (heap.set id ⟨.root (storage ++ [v]), par⟩) fuel idx par)
        = Except.ok x
      by_cases hcont : idx < storage.length
      · rw [if_pos (by simpa [paImplContains] using hcont)] at h2
        rw [if_pos (by simp [paImplContains]; omega)]
        have hval : paImplValue (PANodeImpl.root (storage ++ [v])) idx
            = paImplValue (PANodeImpl.root storage) idx := by
          simp only [paImplValue, List.get?_eq_getElem?]
          exact List.getElem?_append_left hcont
        rw [hval]
        exact h2
      · rw [if_neg (by simpa [paImplContains] using hcont)] at h2
        rw [hparn] at h2
        exact absurd h2 (by simp [parentStep])
    · rw [List.get?_set_ne _ _ (fun he => hid he.symm)]
      cases hg : heap.get? id with
      | none =>
        rw [hg] at h
        exact absurd h (by simp)
      | some n =>
        rw [hg] at h
        have h2 : (if paImplContains n.impl idx = true
            then valueStep (paImplValue n.impl idx)
            else parentStep heap fuel idx n.parent) = Except.ok x := h
        show (if paImplContains n.impl idx = true
            then valueStep (paImplValue n.impl idx)
            else parentStep (heap.set rid ⟨.root (storage ++ [v]), par⟩) fuel idx
              n.parent)
          = Except.ok x
        by_cases hcont : paImplContains n.impl idx = true
        · rw [if_pos hcont] at h2
          rw [if_pos hcont]
          exact h2
        · rw [if_neg hcont] at h2
          rw [if_neg hcont]
          cases hp : n.parent with
          | none => rw [hp] at h2; exact absurd h2 (by simp [parentStep])
          | some p =>
            rw [hp] at h2
            exact ih p idx x h2

/-- Read preservation at the `value` level, for the two heap evolutions. -/
theorem value_append (heap ext : PAHeap T) (hw : AWF heap) (a : PArray)
    (hv : match a.node with | none => True | some id => id < heap.length)
    (i : Nat) : value (heap ++ ext) a i = value heap a i := by
  unfold value
  split
  · match hn : a.node with
    | none => rfl
    | some id =>
      rw [hn] at hv
      exact findValueFrom_append heap ext hw (id + 1) id i hv
  · rfl

theorem value_set_root {heap : PAHeap T} (hw : AWF heap) {rid : Nat}
    {storage : List T} {par : Option Nat} (v : T)
    (hr : heap.get? rid = some ⟨.root storage, par⟩) (a : PArray) (i : Nat)
    (x : T) (h : value heap a i = .ok x) :
    value (heap.set rid ⟨.root (storage ++ [v]), par⟩) a i = .ok x := by
  unfold value at h ⊢
  split at h
  · rename_i hsz
    rw [if_pos hsz]
    match hn : a.node with
    | none => rw [hn] at h; exact absurd h (by simp)
    | some id =>
      rw [hn] at h
      exact findValueFrom_set_root hw v hr (id + 1) id i x h
  · exact absurd h (by simp)

/-- C1 for the array: a successful mutating operation leaves every valid read
of the receiver unchanged. -/
theorem runOp_read_pres {heap : PAHeap T} {a : PArray} {op : PAOp T}
    {out : PAHeap T × PArray} (hw : AWF heap) (hv : AValid heap a)
    (h : PArray.runOp heap a op = .ok out) (i : Nat) (hi : i < a.size) :
    value out.1 a i = value heap a i := by
  obtain ⟨hnode, hreads⟩ := hv
  have hok : ∃ x, value heap a i = .ok x := by
    have := List.all_eq_true.mp hreads i (List.mem_range.mpr hi)
    match hx : value heap a i with
    | .ok x => exact ⟨x, rfl⟩
    | .error e => rw [hx] at this; exact absurd this (by simp)
  obtain ⟨x, hx⟩ := hok
  cases op with
  | setValue j v =>
    simp only [runOp] at h
    unfold setValue at h
    split at h
    · cases h
      rw [value_append heap _ hw a hnode]
    · exact Except.noConfusion h
  | emplaceBack v =>
    simp only [runOp] at h
    unfold emplaceBack at h
    split at h
    · cases h
      rw [value_append heap _ hw a hnode]
    · split at h
      · exact Except.noConfusion h
      · rename_i rootId hfind
        split at h
        · exact Except.noConfusion h
        · rename_i rootNode hget
          obtain ⟨impl0, par0⟩ := rootNode
          split at h
          · exact Except.noConfusion h
          · rename_i storage himpl
            cases himpl
            split at h
            · cases h
              rw [value_append heap _ hw a hnode]
            · cases h
              rw [hx]
              exact value_set_root hw v hget a i x hx
  | popBack =>
    simp only [runOp] at h
    unfold popBack at h
    split at h
    · exact Except.noConfusion h
    · cases h
      rfl

end PArray

/-! ## Receiver persistence (C1): the list

The shared write phase of every list operation allocates one fresh version
`nv = order.add(receiver)` and writes fat-node map entries only at the keys
`±nv`; both sort strictly after the receiver version, so every read at the
receiver version resolves to the same entries afterwards. -/

namespace Frac

/-- Denominator formulas (definitional). -/
theorem add_den (a b : Frac) : (a.add b).den = a.den * b.den := rfl

theorem sub_den (a b : Frac) : (a.sub b).den = a.den * b.den := rfl

theorem scale_den (n : Int) (a : Frac) : (Frac.scale n a).den = a.den := rfl

theorem divNat_den (a : Frac) (n : Nat) : (a.divNat n).den = a.den * n := rfl

theorem neg_den (a : Frac) : a.neg.den = a.den := rfl

/-- The value of a sum. -/
theorem val_add {a b : Frac} (ha : a.den ≠ 0) (hb : b.den ≠ 0) :
    (a.add b).val = a.val + b.val := by
  unfold val add
  have ha' : (a.den : ℚ) ≠ 0 := Int.cast_ne_zero.mpr ha
  have hb' : (b.den : ℚ) ≠ 0 := Int.cast_ne_zero.mpr hb
  push_cast
  field_simp
  try ring

/-- The value of a difference. -/
theorem val_sub {a b : Frac} (ha : a.den ≠ 0) (hb : b.den ≠ 0) :
    (a.sub b).val = a.val - b.val := by
  unfold val sub
  have ha' : (a.den : ℚ) ≠ 0 := Int.cast_ne_zero.mpr ha
  have hb' : (b.den : ℚ) ≠ 0 := Int.cast_ne_zero.mpr hb
  push_cast
  field_simp
  try ring

/-- The value of an integer multiple. -/
theorem val_scale (n : Int) (a : Frac) : (Frac.scale n a).val = n * a.val := by
  unfold val scale
  push_cast
  rw [mul_div_assoc]

/-- The value of a division by a positive natural. -/
theorem val_divNat (a : Frac) {n : Nat} (hn : n ≠ 0) :
    (a.divNat n).val = a.val / n := by
  unfold val divNat
  push_cast
  rw [div_div]

/-- The value of a negation. -/
theorem val_neg (a : Frac) : a.neg.val = -a.val := by
  unfold val neg
  push_cast
  rw [neg_div]

/-- For positive denominators the cross-multiplication comparison is the
value comparison. -/
theorem ltB_iff {a b : Frac} (ha : 0 < a.den) (hb : 0 < b.den) :
    (a.ltB b = true) ↔ a.val < b.val := by
  rw [ltB, decide_eq_true_eq, val, val,
      div_lt_div_iff (by exact_mod_cast ha) (by exact_mod_cast hb)]
  constructor <;> intro h <;> exact_mod_cast h

/-- For positive denominators the cross-multiplication equality is the value
equality. -/
theorem eqB_iff {a b : Frac} (ha : 0 < a.den) (hb : 0 < b.den) :
    (a.eqB b = true) ↔ a.val = b.val := by
  rw [eqB, decide_eq_true_eq, val, val,
      div_eq_div_iff (Int.cast_ne_zero.mpr ha.ne') (Int.cast_ne_zero.mpr hb.ne')]
  constructor <;> intro h <;> exact_mod_cast h

end Frac

namespace ListOrder

/-- The weight the comparator reads for an id (the reverse table for
negative ids). -/
def wOf (o : ListOrder) (id : VId) : Frac :=
  if id < 0 then o.weight_reverse.getD (-id).toNat (.ofInt 0)
  else o.weight_true.getD id.toNat (.ofInt 0)

/-- The real value of an id's label. -/
def vOf (o : ListOrder) (id : VId) : ℚ := (wOf o id).val

theorem lessB_eq_wOf (o : ListOrder) (a b : VId) :
    o.lessB a b = (wOf o a).ltB (wOf o b) := rfl

/-- All stored labels have positive denominators. -/
def DensOK (o : ListOrder) : Prop :=
  (∀ w ∈ o.weight_true, 0 < w.den) ∧ (∀ w ∈ o.weight_reverse, 0 < w.den)

/-- An id within the allocated version range. -/
def KVal (o : ListOrder) (k : VId) : Prop :=
  k.natAbs < o.weight_true.length

/-- Well-formedness of the order structure: parallel tables of
positive-denominator labels, nonzero in-range ids, labels strictly
increasing along the label list. -/
def OWF (o : ListOrder) : Prop :=
  o.weight_reverse.length = o.weight_true.length ∧
  DensOK o ∧
  (∀ id ∈ o.list, id ≠ 0 ∧ KVal o id) ∧
  o.list.Chain' (fun a b => o.lessB a b = true)

/-- A `getD` from a positive-denominator table has positive denominator. -/
theorem getD_den_pos {l : List Frac} (hl : ∀ w ∈ l, 0 < w.den) (i : Nat) :
    0 < (l.getD i (.ofInt 0)).den := by
  rw [List.getD_eq_get?]
  cases hg : l.get? i with
  | none => exact Int.zero_lt_one
  | some w => exact hl w (List.get?_mem hg)

/-- Every label the comparator can read has positive denominator. -/
theorem wOf_den_pos {o : ListOrder} (hd : DensOK o) (id : VId) :
    0 < (wOf o id).den := by
  unfold wOf
  split
  · exact getD_den_pos hd.2 _
  · exact getD_den_pos hd.1 _

/-- The comparator agrees with the real values. -/
theorem lessB_iff_vOf {o : ListOrder} (hd : DensOK o) (a b : VId) :
    (o.lessB a b = true) ↔ vOf o a < vOf o b := by
  rw [lessB_eq_wOf]
  exact Frac.ltB_iff (wOf_den_pos hd a) (wOf_den_pos hd b)

end ListOrder

namespace VMap

variable {α : Type}

/-- Sorted insert never produces an empty map. -/
theorem insertV_ne_nil (o : ListOrder) (k : VId) (x : α) (m : VMap α) :
    insertV o k x m ≠ [] := by
  cases m with
  | nil => simp [insertV]
  | cons e rest =>
    obtain ⟨k', y⟩ := e
    simp only [insertV]
    split
    · simp
    · split <;> simp

/-- Inserting a key strictly beyond `v` does not change the entry
`--upper_bound(v)` finds. -/
theorem lookupLE_insertV {o : ListOrder} (hd : o.DensOK) {v k : VId}
    (hvk : o.lessB v k = true) (x : α) (m : VMap α) :
    lookupLE o v (insertV o k x m) = lookupLE o v m := by
  induction m with
  | nil =>
    simp [insertV, lookupLE, hvk]
  | cons e rest ih =>
    obtain ⟨k', y⟩ := e
    simp only [insertV]
    split
    · rename_i hk'k
      simp only [lookupLE]
      split
      · rfl
      · rw [ih]
    · rename_i hk'k
      split
      · rename_i hkk'
        have hvk' : o.lessB v k' = true := by
          rw [ListOrder.lessB_iff_vOf hd] at hvk hkk' ⊢
          exact lt_trans hvk hkk'
        simp only [lookupLE]
        rw [if_pos hvk, if_pos hvk']
      · rename_i hkk'
        have hvk' : o.lessB v k' = true := by
          rw [ListOrder.lessB_iff_vOf hd] at hvk ⊢
          rw [ListOrder.lessB_iff_vOf hd] at hk'k
          have hle : ListOrder.vOf o k ≤ ListOrder.vOf o k' := le_of_not_lt hk'k
          exact lt_of_lt_of_le hvk hle
        simp only [lookupLE]
        rw [if_pos hvk, if_pos hvk']

/-- `m` extended by any number of sorted inserts with keys from `S`. -/
inductive MExt (o : ListOrder) (S : VId → Prop) : VMap α → VMap α → Prop
  | refl (m : VMap α) : MExt o S m m
  | step (m m' : VMap α) (k : VId) (x : α) :
      MExt o S m m' → S k → MExt o S m (insertV o k x m')

/-- Reads at `v` see through an extension whose keys all lie beyond `v`. -/
theorem lookupLE_MExt {o : ListOrder} (hd : o.DensOK) {v : VId}
    {S : VId → Prop} (hS : ∀ k, S k → o.lessB v k = true)
    {m m' : VMap α} (h : MExt o S m m') :
    lookupLE o v m' = lookupLE o v m := by
  induction h with
  | refl => rfl
  | step m' k x hext hk ih =>
    rw [lookupLE_insertV hd (hS k hk), ih]

/-- Extensions keep a non-empty map non-empty. -/
theorem MExt_ne_nil {o : ListOrder} {S : VId → Prop} {m m' : VMap α}
    (h : MExt o S m m') (hm : m ≠ []) : m' ≠ [] := by
  cases h with
  | refl => exact hm
  | step m'' k x hext hk => exact insertV_ne_nil o k x m''

/-- Reads are computed by the same comparisons under any order that agrees
on the keys involved. -/
theorem lookupLE_stab {o o' : ListOrder}
    (hstab : ∀ a b, o.KVal a → o.KVal b → o'.lessB a b = o.lessB a b)
    {v : VId} (hv : o.KVal v) {m : VMap α}
    (hkeys : ∀ e ∈ m, o.KVal e.1) :
    lookupLE o' v m = lookupLE o v m := by
  induction m with
  | nil => rfl
  | cons e rest ih =>
    obtain ⟨k, y⟩ := e
    simp only [lookupLE]
    rw [hstab v k hv (hkeys (k, y) (List.mem_cons_self _ _)),
        ih (fun e he => hkeys e (List.mem_cons_of_mem _ he))]

end VMap

namespace PList

variable {T : Type}

/-- Node-level extension: all three maps extended by keys from `S` only. -/
def NExt (o : ListOrder) (S : VId → Prop) (n n' : ListNode T) : Prop :=
  VMap.MExt o S n.next_ n'.next_ ∧ VMap.MExt o S n.last_ n'.last_ ∧
    VMap.MExt o S n.value_ n'.value_

/-- All keys of a node's maps are in the order's allocated range. -/
def NKeys (o : ListOrder) (n : ListNode T) : Prop :=
  (∀ e ∈ n.next_, o.KVal e.1) ∧ (∀ e ∈ n.last_, o.KVal e.1) ∧
    (∀ e ∈ n.value_, o.KVal e.1)

/-- All heap nodes have in-range keys. -/
def KV (sh : PListShared T) : Prop := ∀ n ∈ sh.heap, NKeys sh.order n

theorem NExt_refl (o : ListOrder) (S : VId → Prop) (n : ListNode T) :
    NExt o S n n := ⟨.refl _, .refl _, .refl _⟩

theorem MExt_trans {α : Type} {o : ListOrder} {S : VId → Prop}
    {m1 m2 m3 : VMap α} (h1 : VMap.MExt o S m1 m2) (h2 : VMap.MExt o S m2 m3) :
    VMap.MExt o S m1 m3 := by
  induction h2 with
  | refl => exact h1
  | step m' k x hext hk ih => exact .step _ _ k x ih hk

theorem NExt_trans {o : ListOrder} {S : VId → Prop} {n1 n2 n3 : ListNode T}
    (h1 : NExt o S n1 n2) (h2 : NExt o S n2 n3) : NExt o S n1 n3 :=
  ⟨MExt_trans h1.1 h2.1, MExt_trans h1.2.1 h2.2.1, MExt_trans h1.2.2 h2.2.2⟩

/-- Success-preservation of `getNext` through an extension beyond `v` and an
order change that agrees on the old keys. -/
theorem getNext_pres {o o' : ListOrder} {S : VId → Prop} {v : VId}
    (hd' : o'.DensOK)
    (hstab : ∀ a b, o.KVal a → o.KVal b → o'.lessB a b = o.lessB a b)
    (hS : ∀ k, S k → o'.lessB v k = true)
    {n n' : ListNode T} (hext : VMap.MExt o' S n.next_ n'.next_)
    (hkeys : ∀ e ∈ n.next_, o.KVal e.1) (hv : o.KVal v)
    {r : Option Nat} (h : ListNode.getNext o n v = .ok r) :
    ListNode.getNext o' n' v = .ok r := by
  unfold ListNode.getNext at h ⊢
  split at h
  · exact absurd h (by simp)
  · rename_i hne
    rw [if_neg ?_]
    · rw [VMap.lookupLE_MExt hd' hS hext, VMap.lookupLE_stab hstab hv hkeys]
      exact h
    · intro hemp
      exact hne (by
        rw [List.isEmpty_iff] at hemp ⊢
        by_contra hx
        exact (VMap.MExt_ne_nil hext hx) hemp)

/-- Success-preservation of `findV`. -/
theorem findV_pres {o o' : ListOrder} {S : VId → Prop} {v : VId}
    (hd' : o'.DensOK)
    (hstab : ∀ a b, o.KVal a → o.KVal b → o'.lessB a b = o.lessB a b)
    (hS : ∀ k, S k → o'.lessB v k = true)
    {n n' : ListNode T} (hext : VMap.MExt o' S n.value_ n'.value_)
    (hkeys : ∀ e ∈ n.value_, o.KVal e.1) (hv : o.KVal v)
    {x : T} (h : ListNode.findV o n v = .ok x) :
    ListNode.findV o' n' v = .ok x := by
  unfold ListNode.findV at h ⊢
  split at h
  · exact absurd h (by simp)
  · rename_i hne
    rw [if_neg ?_]
    · rw [VMap.lookupLE_MExt hd' hS hext, VMap.lookupLE_stab hstab hv hkeys]
      exact h
    · intro hemp
      exact hne (by
        rw [List.isEmpty_iff] at hemp ⊢
        by_contra hx
        exact (VMap.MExt_ne_nil hext hx) hemp)

/-- Heap-phase extension: order, sentinels and node count evolve as an
operation's write phase does, and every pre-existing node is only extended
with keys from `S`. -/
def HExt (S : VId → Prop) (sh sh' : PListShared T) : Prop :=
  sh'.order = sh.order ∧ sh'.head = sh.head ∧ sh'.tail = sh.tail ∧
  sh.heap.length ≤ sh'.heap.length ∧
  ∀ j n n', sh.heap.get? j = some n → sh'.heap.get? j = some n' →
    NExt sh.order S n n'

theorem HExt_refl (S : VId → Prop) (sh : PListShared T) : HExt S sh sh := by
  refine ⟨rfl, rfl, rfl, le_refl _, ?_⟩
  intro j n n' h h'
  rw [h] at h'
  cases h'
  exact NExt_refl _ _ _

theorem HExt_trans {S : VId → Prop} {sh1 sh2 sh3 : PListShared T}
    (h1 : HExt S sh1 sh2) (h2 : HExt S sh2 sh3) : HExt S sh1 sh3 := by
  obtain ⟨ho1, hh1, ht1, hl1, hn1⟩ := h1
  obtain ⟨ho2, hh2, ht2, hl2, hn2⟩ := h2
  refine ⟨ho2.trans ho1, hh2.trans hh1, ht2.trans ht1, le_trans hl1 hl2, ?_⟩
  intro j n n' h h'
  have hj : j < sh2.heap.length :=
    lt_of_lt_of_le ((List.get?_eq_some.mp h).1) hl1
  obtain ⟨m, hm⟩ : ∃ m, sh2.heap.get? j = some m := by
    cases hg : sh2.heap.get? j with
    | none => exact absurd (List.get?_eq_none.mp hg) (by omega)
    | some m => exact ⟨m, rfl⟩
  have e2 := hn2 j m n' hm h'
  rw [ho1] at e2
  exact NExt_trans (hn1 j n m h hm) e2

/-- A successful heap read, as a `get?` fact. -/
theorem hGet_ok {sh : PListShared T} {id : Nat} {n : ListNode T}
    (h : hGet sh id = .ok n) : sh.heap.get? id = some n := by
  unfold hGet at h
  split at h
  · rename_i m hm
    cases h
    exact hm
  · exact absurd h (by simp)

/-- The written forms of `setNext`/`setLast`/`add`. -/
theorem setNext_shape (o : ListOrder) (n : ListNode T) (v : VId) (x : Option Nat) :
    (n.setNext o v x).1 = n ∨
    (n.setNext o v x).1 = { n with next_ := n.next_.insertV o v x } := by
  unfold ListNode.setNext
  split
  · exact .inl rfl
  · exact .inr rfl

theorem setLast_shape (o : ListOrder) (n : ListNode T) (v : VId) (x : Option Nat) :
    (n.setLast o v x).1 = n ∨
    (n.setLast o v x).1 = { n with last_ := n.last_.insertV o v x } := by
  unfold ListNode.setLast
  split
  · exact .inl rfl
  · exact .inr rfl

theorem add_shape (o : ListOrder) (n : ListNode T) (v : VId) (x : T) :
    (n.add o v x).1 = n ∨
    (n.add o v x).1 = { n with value_ := n.value_.insertV o v x } := by
  unfold ListNode.add
  split
  · exact .inl rfl
  · exact .inr rfl

/-- Writing back a one-map extension of a live node is a heap extension. -/
theorem HExt_hSet {S : VId → Prop} {sh : PListShared T} {id : Nat}
    {n n' : ListNode T} (hget : sh.heap.get? id = some n)
    (hn : NExt sh.order S n n') : HExt S sh (hSet sh id n') := by
  refine ⟨rfl, rfl, rfl, by simp [hSet], ?_⟩
  intro j m m' hm hm'
  have hm'2 : (sh.heap.set id n').get? j = some m' := hm'
  by_cases hj : j = id
  · subst hj
    rw [hget] at hm
    cases hm
    rw [List.get?_set_eq, hget] at hm'2
    cases hm'2
    exact hn
  · rw [List.get?_set_ne _ _ (fun he => hj he.symm), hm] at hm'2
    cases hm'2
    exact NExt_refl _ _ _

/-- Allocating a fresh node is a heap extension. -/
theorem HExt_pushNode (S : VId → Prop) (sh : PListShared T) (n : ListNode T) :
    HExt S sh (pushNode sh n).1 := by
  refine ⟨rfl, rfl, rfl, by simp [pushNode], ?_⟩
  intro j m m' hm hm'
  have hj : j < sh.heap.length := (List.get?_eq_some.mp hm).1
  rw [show (pushNode sh n).1.heap = sh.heap ++ [n] from rfl,
      List.get?_append hj, hm] at hm'
  cases hm'
  exact NExt_refl _ _ _

/-- `setNextH` writes only the key `v`. -/
theorem HExt_setNextH {S : VId → Prop} {sh sh' : PListShared T} {id : Nat}
    {v : VId} {x : Option Nat} (hS : S v)
    (h : setNextH sh id v x = .ok sh') : HExt S sh sh' := by
  obtain ⟨n, hn, h⟩ := exBindOk h
  cases h
  rcases setNext_shape sh.order n v x with hs | hs <;> rw [hs]
  · exact HExt_hSet (hGet_ok hn) (NExt_refl _ _ _)
  · exact HExt_hSet (hGet_ok hn) ⟨.step _ _ v x (.refl _) hS, .refl _, .refl _⟩

/-- `setLastH` writes only the key `v`. -/
theorem HExt_setLastH {S : VId → Prop} {sh sh' : PListShared T} {id : Nat}
    {v : VId} {x : Option Nat} (hS : S v)
    (h : setLastH sh id v x = .ok sh') : HExt S sh sh' := by
  obtain ⟨n, hn, h⟩ := exBindOk h
  cases h
  rcases setLast_shape sh.order n v x with hs | hs <;> rw [hs]
  · exact HExt_hSet (hGet_ok hn) (NExt_refl _ _ _)
  · exact HExt_hSet (hGet_ok hn) ⟨.refl _, .step _ _ v x (.refl _) hS, .refl _⟩

/-- `addH` writes only the key `v`. -/
theorem HExt_addH {S : VId → Prop} {sh : PListShared T}
    {out : PListShared T × Bool} {id : Nat} {v : VId} {x : T} (hS : S v)
    (h : addH sh id v x = .ok out) : HExt S sh out.1 := by
  obtain ⟨n, hn, h⟩ := exBindOk h
  rcases hadd : ListNode.add sh.order n v x with ⟨n2, ok2⟩
  rw [hadd] at h
  cases h
  have hs := add_shape sh.order n v x
  rw [hadd] at hs
  rcases hs with hs | hs
  · have hs2 : n2 = n := hs
    subst hs2
    exact HExt_hSet (hGet_ok hn) (NExt_refl _ _ _)
  · have hs2 : n2 = { n with value_ := n.value_.insertV sh.order v x } := hs
    subst hs2
    exact HExt_hSet (hGet_ok hn) ⟨.refl _, .refl _, .step _ _ v x (.refl _) hS⟩

/-- The leftward relink loop writes only the key `wv`. -/
theorem HExt_relinkLeft {S : VId → Prop} (wv rv : VId) (hS : S wv) (fuel : Nat) :
    ∀ {sh sh' : PListShared T} {a b : Nat},
      relinkLeft wv rv fuel sh a b = .ok sh' → HExt S sh sh' := by
  induction fuel with
  | zero =>
    intro sh sh' a b h
    exact absurd h (by simp [relinkLeft])
  | succ fuel ih =>
    intro sh sh' a b h
    rw [relinkLeft] at h
    obtain ⟨nL, hnL, h⟩ := exBindOk h
    split at h
    · obtain ⟨sh1, h1, h2⟩ := exBindOk h
      exact HExt_trans (HExt_setNextH hS h1) (HExt_setLastH hS h2)
    · obtain ⟨o1, _, h⟩ := exBindOk h
      obtain ⟨prev, _, h⟩ := exBindOk h
      obtain ⟨val, _, h⟩ := exBindOk h
      simp only [pushNode] at h
      obtain ⟨sh1, h1, h⟩ := exBindOk h
      obtain ⟨sh2, h2, h⟩ := exBindOk h
      exact HExt_trans (HExt_trans (HExt_trans
        (HExt_pushNode S sh
          ((ListNode.mkValue wv val (some prev) (some b)).copyNextAfter
            sh.order nL wv))
        (HExt_setNextH hS h1)) (HExt_setLastH hS h2)) (ih h)

/-- The rightward relink loop writes only the key `wv`. -/
theorem HExt_relinkRight {S : VId → Prop} (wv rv : VId) (hS : S wv) (fuel : Nat) :
    ∀ {sh sh' : PListShared T} {a b : Nat},
      relinkRight wv rv fuel sh a b = .ok sh' → HExt S sh sh' := by
  induction fuel with
  | zero =>
    intro sh sh' a b h
    exact absurd h (by simp [relinkRight])
  | succ fuel ih =>
    intro sh sh' a b h
    rw [relinkRight] at h
    obtain ⟨nN, hnN, h⟩ := exBindOk h
    split at h
    · obtain ⟨sh1, h1, h2⟩ := exBindOk h
      exact HExt_trans (HExt_setNextH hS h1) (HExt_setLastH hS h2)
    · obtain ⟨o1, _, h⟩ := exBindOk h
      obtain ⟨nxt, _, h⟩ := exBindOk h
      obtain ⟨val, _, h⟩ := exBindOk h
      simp only [pushNode] at h
      obtain ⟨sh1, h1, h⟩ := exBindOk h
      obtain ⟨sh2, h2, h⟩ := exBindOk h
      exact HExt_trans (HExt_trans (HExt_trans
        (HExt_pushNode S sh
          ((ListNode.mkValue wv val (some a) (some nxt)).copyLastAfter
            sh.order nN wv))
        (HExt_setLastH hS h1)) (HExt_setNextH hS h2)) (ih h)

/-- `makeNewNode` writes only the key `v`. -/
theorem HExt_makeNewNode {S : VId → Prop} {sh sh' : PListShared T} {v : VId}
    {x : T} {a b : Nat} (hS : S v) (h : makeNewNode sh v x a b = .ok sh') :
    HExt S sh sh' := by
  unfold makeNewNode at h
  simp only [pushNode] at h
  obtain ⟨sh1, h1, h⟩ := exBindOk h
  exact HExt_trans (HExt_trans
    (HExt_pushNode S sh (ListNode.mkValue v x none none))
    (HExt_relinkLeft v v hS _ h1))
    (HExt_relinkRight v v hS _ h)

/-- `dropNode` writes only the key `v`. -/
theorem HExt_dropNode {S : VId → Prop} {sh sh' : PListShared T} {v ov : VId}
    {i : Nat} (hS : S v) (h : dropNode sh v ov i = .ok sh') : HExt S sh sh' := by
  unfold dropNode at h
  obtain ⟨n, _, h⟩ := exBindOk h
  obtain ⟨o1, _, h⟩ := exBindOk h
  obtain ⟨cl, _, h⟩ := exBindOk h
  obtain ⟨o2, _, h⟩ := exBindOk h
  obtain ⟨cn, _, h⟩ := exBindOk h
  obtain ⟨sh1, h1, h⟩ := exBindOk h
  obtain ⟨n2, _, h⟩ := exBindOk h
  obtain ⟨o3, _, h⟩ := exBindOk h
  obtain ⟨cl2, _, h⟩ := exBindOk h
  obtain ⟨o4, _, h⟩ := exBindOk h
  obtain ⟨cn2, _, h⟩ := exBindOk h
  exact HExt_trans (HExt_relinkLeft v ov hS _ h1) (HExt_relinkRight v ov hS _ h)

end PList

namespace PList

variable {T : Type}

/-- The keys an operation at new version `nv` may write. -/
def opKeys (nv : VId) : VId → Prop := fun k => k = nv ∨ k = -nv

/-- `set` adds one version and writes only its keys. -/
theorem setT_hext {sh : PListShared T} {l : PList} {i : Int} {x : T}
    {out : PListShared T × PList} (h : setT sh l i x = .ok out) :
    ∃ o' nv, sh.order.add l.version = .ok (o', nv) ∧
      HExt (opKeys nv) { sh with order := o' } out.1 := by
  unfold setT at h
  obtain ⟨ptr, _, h⟩ := exBindOk h
  obtain ⟨ov, hov, h⟩ := exBindOk h
  obtain ⟨o', nv⟩ := ov
  refine ⟨o', nv, hov, ?_⟩
  obtain ⟨p1, h1, h⟩ := exBindOk h
  obtain ⟨sh1, ok1⟩ := p1
  have e1 : HExt (opKeys nv) { sh with order := o' } sh1 :=
    HExt_addH (.inl rfl) h1
  have cont : ∀ {shm : PListShared T}, HExt (opKeys nv) { sh with order := o' } shm →
      ((do
        let oldVal ← findH shm ptr l.version
        let (sh, ok2) ← addH shm ptr (-nv) oldVal
        let sh ←
          if ok2 then pure sh
          else do
            let last ← deref (← getLastH sh ptr l.version)
            let next ← deref (← getNextH sh ptr l.version)
            makeNewNode sh (-nv) oldVal last next
        .ok (sh, getChildren l nv l.size)) = Except.ok out) →
      HExt (opKeys nv) { sh with order := o' } out.1 := by
    intro shm hm hc
    obtain ⟨oldVal, _, hc⟩ := exBindOk hc
    obtain ⟨p3, h3, hc⟩ := exBindOk hc
    obtain ⟨sh3, ok2⟩ := p3
    have e3 : HExt (opKeys nv) { sh with order := o' } sh3 :=
      HExt_trans hm (HExt_addH (.inr rfl) h3)
    cases ok2 with
    | true =>
      cases hc
      exact e3
    | false =>
      obtain ⟨o1, _, hc⟩ := exBindOk hc
      obtain ⟨la, _, hc⟩ := exBindOk hc
      obtain ⟨o2, _, hc⟩ := exBindOk hc
      obtain ⟨ne, _, hc⟩ := exBindOk hc
      obtain ⟨sh4, h4, hc⟩ := exBindOk hc
      cases hc
      exact HExt_trans e3 (HExt_makeNewNode (.inr rfl) h4)
  cases ok1 with
  | true => exact cont e1 h
  | false =>
    obtain ⟨o1, _, h⟩ := exBindOk h
    obtain ⟨la, _, h⟩ := exBindOk h
    obtain ⟨o2, _, h⟩ := exBindOk h
    obtain ⟨ne, _, h⟩ := exBindOk h
    obtain ⟨sh2, h2, h⟩ := exBindOk h
    exact cont (HExt_trans e1 (HExt_makeNewNode (.inl rfl) h2)) h

/-- `erase` adds one version and writes only its keys. -/
theorem eraseT_hext {sh : PListShared T} {l : PList} {i : Int}
    {out : PListShared T × PList} (h : eraseT sh l i = .ok out) :
    ∃ o' nv, sh.order.add l.version = .ok (o', nv) ∧
      HExt (opKeys nv) { sh with order := o' } out.1 := by
  unfold eraseT at h
  obtain ⟨ptr, _, h⟩ := exBindOk h
  obtain ⟨o1, _, h⟩ := exBindOk h
  obtain ⟨la, _, h⟩ := exBindOk h
  obtain ⟨o2, _, h⟩ := exBindOk h
  obtain ⟨ne, _, h⟩ := exBindOk h
  obtain ⟨ov, hov, h⟩ := exBindOk h
  obtain ⟨o', nv⟩ := ov
  refine ⟨o', nv, hov, ?_⟩
  obtain ⟨sh1, h1, h⟩ := exBindOk h
  obtain ⟨ptr1, _, h⟩ := exBindOk h
  obtain ⟨restored, _, h⟩ := exBindOk h
  obtain ⟨sh2, h2, h⟩ := exBindOk h
  cases h
  exact HExt_trans (HExt_dropNode (.inl rfl) h1) (HExt_makeNewNode (.inr rfl) h2)

/-- `insert` adds one version and writes only its keys. -/
theorem insertT_hext {sh : PListShared T} {l : PList} {i : Int} {x : T}
    {out : PListShared T × PList} (h : insertT sh l i x = .ok out) :
    ∃ o' nv, sh.order.add l.version = .ok (o', nv) ∧
      HExt (opKeys nv) { sh with order := o' } out.1 := by
  unfold insertT at h
  obtain ⟨ov, hov, h⟩ := exBindOk h
  obtain ⟨o', nv⟩ := ov
  refine ⟨o', nv, hov, ?_⟩
  obtain ⟨ptr, _, h⟩ := exBindOk h
  obtain ⟨o1, _, h⟩ := exBindOk h
  obtain ⟨la, _, h⟩ := exBindOk h
  obtain ⟨sh1, h1, h⟩ := exBindOk h
  obtain ⟨ptr1, _, h⟩ := exBindOk h
  obtain ⟨sh2, h2, h⟩ := exBindOk h
  cases h
  exact HExt_trans (HExt_makeNewNode (.inl rfl) h1) (HExt_dropNode (.inr rfl) h2)

/-- `pushBack` adds one version and writes only its keys. -/
theorem pushBack_hext {sh : PListShared T} {l : PList} {x : T}
    {out : PListShared T × PList} (h : pushBack sh l x = .ok out) :
    ∃ o' nv, sh.order.add l.version = .ok (o', nv) ∧
      HExt (opKeys nv) { sh with order := o' } out.1 := by
  unfold pushBack at h
  obtain ⟨ov, hov, h⟩ := exBindOk h
  obtain ⟨o', nv⟩ := ov
  refine ⟨o', nv, hov, ?_⟩
  obtain ⟨o1, _, h⟩ := exBindOk h
  obtain ⟨la, _, h⟩ := exBindOk h
  obtain ⟨sh1, h1, h⟩ := exBindOk h
  obtain ⟨o2, _, h⟩ := exBindOk h
  obtain ⟨ptr1, _, h⟩ := exBindOk h
  obtain ⟨sh2, h2, h⟩ := exBindOk h
  cases h
  exact HExt_trans (HExt_makeNewNode (.inl rfl) h1) (HExt_dropNode (.inr rfl) h2)

/-- Every public operation adds one version and writes only its keys. -/
theorem runOp_hext {sh : PListShared T} {l : PList} {op : PLOp T}
    {out : PListShared T × PList} (h : PList.runOp sh l op = .ok out) :
    ∃ o' nv, sh.order.add l.version = .ok (o', nv) ∧
      HExt (opKeys nv) { sh with order := o' } out.1 := by
  cases op with
  | set i x => exact setT_hext h
  | erase i => exact eraseT_hext h
  | insert i x => exact insertT_hext h
  | push_front x => exact insertT_hext h
  | push_back x => exact pushBack_hext h
  | pop_front => exact eraseT_hext h
  | pop_back => exact eraseT_hext h

end PList

/-- `indexOf` finds a member. -/
theorem get?_indexOf {α : Type} [DecidableEq α] {a : α} :
    ∀ {l : List α}, a ∈ l → l.get? (l.indexOf a) = some a := by
  intro l
  induction l with
  | nil => intro h; cases h
  | cons b rest ih =>
    intro h
    by_cases hb : b = a
    · subst hb
      rw [List.indexOf_cons_self]
      rfl
    · rw [List.indexOf_cons_ne _ hb]
      have ha : a ∈ rest := by
        cases List.mem_cons.mp h with
        | inl he => exact absurd he.symm hb
        | inr hm => exact hm
      exact ih ha

/-- Adjacent entries of a chain are related. -/
theorem chain'_rel_of_get? {α : Type} {R : α → α → Prop} {l : List α}
    {i : Nat} {a b : α} (hc : l.Chain' R) (ha : l.get? i = some a)
    (hb : l.get? (i + 1) = some b) : R a b := by
  have hi : i + 1 < l.length := (List.get?_eq_some.mp hb).1
  have h := List.chain'_iff_get.mp hc i (by omega)
  rw [List.get?_eq_get (by omega), Option.some.injEq] at ha
  rw [List.get?_eq_get (by omega), Option.some.injEq] at hb
  subst ha
  subst hb
  exact h

namespace ListOrder

/-- Appending one label to each weight table keeps denominators positive,
keeps every comparison between previously allocated ids, and makes the two
new ids (`±weight_true.length`) sort as their appended labels do. -/
theorem ext_facts (o : ListOrder) (L : List VId) (tw rv : Frac)
    (hlen : o.weight_reverse.length = o.weight_true.length)
    (hdens : DensOK o) (htwden : 0 < tw.den) (hrvden : 0 < rv.den)
    {v : VId} (hKv : KVal o v) (hvpos : (0 : Int) ≤ v)
    (htw : (wOf o v).val < tw.val) (hrv : (wOf o v).val < rv.val) :
    DensOK ⟨L, o.weight_true ++ [tw], o.weight_reverse ++ [rv]⟩ ∧
    (∀ a b, KVal o a → KVal o b →
      lessB ⟨L, o.weight_true ++ [tw], o.weight_reverse ++ [rv]⟩ a b
        = o.lessB a b) ∧
    lessB ⟨L, o.weight_true ++ [tw], o.weight_reverse ++ [rv]⟩ v
      (o.weight_true.length : Int) = true ∧
    lessB ⟨L, o.weight_true ++ [tw], o.weight_reverse ++ [rv]⟩ v
      (-(o.weight_true.length : Int)) = true := by
  have hKvn : v.natAbs < o.weight_true.length := hKv
  have hst : ∀ k, KVal o k →
      wOf ⟨L, o.weight_true ++ [tw], o.weight_reverse ++ [rv]⟩ k = wOf o k := by
    intro k hk
    have hkn : k.natAbs < o.weight_true.length := hk
    unfold wOf
    by_cases hkneg : k < 0
    · rw [if_pos hkneg, if_pos hkneg]
      show (o.weight_reverse ++ [rv]).getD (-k).toNat (Frac.ofInt 0)
        = o.weight_reverse.getD (-k).toNat (Frac.ofInt 0)
      refine List.getD_append _ _ _ _ ?_
      first
      | omega
      | (dsimp only [VId]; omega)
      | (dsimp only [VId] at *; omega)
    · rw [if_neg hkneg, if_neg hkneg]
      show (o.weight_true ++ [tw]).getD k.toNat (Frac.ofInt 0)
        = o.weight_true.getD k.toNat (Frac.ofInt 0)
      refine List.getD_append _ _ _ _ ?_
      first
      | omega
      | (dsimp only [VId]; omega)
      | (dsimp only [VId] at *; omega)
  have hwt : wOf ⟨L, o.weight_true ++ [tw], o.weight_reverse ++ [rv]⟩
      (o.weight_true.length : Int) = tw := by
    unfold wOf
    rw [if_neg (by
      first
      | omega
      | (dsimp only [VId]; omega)
      | (dsimp only [VId] at *; omega))]
    show (o.weight_true ++ [tw]).getD
      ((o.weight_true.length : Int)).toNat (Frac.ofInt 0) = tw
    rw [List.getD_append_right _ _ _ _ (by omega)]
    have he : ((o.weight_true.length : Int)).toNat - o.weight_true.length = 0 := by
      omega
    rw [he]
    rfl
  have hwr : wOf ⟨L, o.weight_true ++ [tw], o.weight_reverse ++ [rv]⟩
      (-(o.weight_true.length : Int)) = rv := by
    unfold wOf
    rw [if_pos (by
      first
      | omega
      | (dsimp only [VId]; omega)
      | (dsimp only [VId] at *; omega))]
    show (o.weight_reverse ++ [rv]).getD
      (-(-(o.weight_true.length : Int))).toNat (Frac.ofInt 0) = rv
    rw [List.getD_append_right _ _ _ _ (by omega)]
    have he : (-(-(o.weight_true.length : Int))).toNat - o.weight_reverse.length
        = 0 := by
      omega
    rw [he]
    rfl
  refine ⟨⟨?_, ?_⟩, ?_, ?_, ?_⟩
  · intro w hw
    rcases List.mem_append.mp hw with hw | hw
    · exact hdens.1 w hw
    · rw [List.mem_singleton.mp hw]
      exact htwden
  · intro w hw
    rcases List.mem_append.mp hw with hw | hw
    · exact hdens.2 w hw
    · rw [List.mem_singleton.mp hw]
      exact hrvden
  · intro a b ha hb
    rw [lessB_eq_wOf, lessB_eq_wOf, hst a ha, hst b hb]
  · rw [lessB_eq_wOf, hst v hKv, hwt,
      Frac.ltB_iff (wOf_den_pos hdens v) htwden]
    exact htw
  · rw [lessB_eq_wOf, hst v hKv, hwr,
      Frac.ltB_iff (wOf_den_pos hdens v) hrvden]
    exact hrv

/-- The facts a successful `add` establishes about the new order: stored
denominators stay positive, comparisons between previously allocated ids are
unchanged, and both new ids sort strictly after the parent. -/
theorem add_facts {o o' : ListOrder} {v nv : VId} (hW : OWF o) (hv0 : 0 < v)
    (hvm : v ∈ o.list) (h : o.add v = .ok (o', nv)) :
    DensOK o' ∧
    (∀ a b, o.KVal a → o.KVal b → o'.lessB a b = o.lessB a b) ∧
    o'.lessB v nv = true ∧ o'.lessB v (-nv) = true := by
  obtain ⟨hlen, hdens, hids, hchain⟩ := hW
  have hKv : KVal o v := (hids v hvm).2
  have hKvn : v.natAbs < o.weight_true.length := hKv
  unfold add at h
  rw [if_neg (by
    rw [List.isEmpty_iff]
    intro he
    rw [he] at hvm
    cases hvm)] at h
  rw [if_neg (by
    simp only [Bool.or_eq_true, decide_eq_true_eq, not_or, not_lt]
    first
    | omega
    | (dsimp only [VId]; omega)
    | (dsimp only [VId] at *; omega))] at h
  rw [show (if v = 0 then (1 : VId) else v) = v from if_neg (by
    first
    | omega
    | (dsimp only [VId]; omega)
    | (dsimp only [VId] at *; omega))] at h
  simp only [] at h
  have hidx : o.list.get? (o.list.indexOf v) = some v := get?_indexOf hvm
  split at h
  · exact Except.noConfusion h
  · rename_i np hnext
    have hnpm : np ∈ o.list := List.get?_mem hnext
    have hnp0 : np ≠ 0 := (hids np hnpm).1
    have hadj := chain'_rel_of_get? hchain hidx hnext
    set p := o.weight_true.getD v.toNat (Frac.ofInt 0) with hp
    set npv := (if 0 < np then o.weight_true.getD np.toNat (Frac.ofInt 0)
      else o.weight_reverse.getD (-np).toNat (Frac.ofInt 0)) with hnpv
    set d := npv.sub p with hd
    set tw := p.add (d.divNat 3) with htw
    set rv := p.add ((Frac.scale 2 d).divNat 3) with hrv
    have hpw : p = wOf o v := by
      rw [hp, wOf]
      rw [if_neg (by
        first
        | omega
        | (dsimp only [VId]; omega)
        | (dsimp only [VId] at *; omega))]
    have hnpw : npv = wOf o np := by
      by_cases hpos : 0 < np
      · rw [hnpv, if_pos hpos, wOf]
        rw [if_neg (by
          first
          | omega
          | (dsimp only [VId]; omega)
          | (dsimp only [VId] at *; omega))]
      · rw [hnpv, if_neg hpos, wOf]
        rw [if_pos (by
          first
          | omega
          | (dsimp only [VId]; omega)
          | (dsimp only [VId] at *; omega))]
    have hpden : 0 < p.den := by
      rw [hp]
      exact getD_den_pos hdens.1 _
    have hnpden : 0 < npv.den := by
      rw [hnpw]
      exact wOf_den_pos hdens np
    have hdden : 0 < d.den := by
      rw [hd, Frac.sub_den]
      exact mul_pos hnpden hpden
    have htwden : 0 < tw.den := by
      rw [htw, Frac.add_den, Frac.divNat_den]
      exact mul_pos hpden (mul_pos hdden (by omega))
    have hrvden : 0 < rv.den := by
      rw [hrv, Frac.add_den, Frac.divNat_den, Frac.scale_den]
      exact mul_pos hpden (mul_pos hdden (by omega))
    have hd_pos : 0 < d.val := by
      have hvp : vOf o v < vOf o np := (lessB_iff_vOf hdens v np).mp hadj
      have hdv : d.val = npv.val - p.val := by
        rw [hd, Frac.val_sub hnpden.ne' hpden.ne']
      rw [hdv, hnpw, hpw]
      have hvv : vOf o v = (wOf o v).val := rfl
      have hvn : vOf o np = (wOf o np).val := rfl
      rw [← hvv, ← hvn]
      linarith
    have htw_val : tw.val = p.val + d.val / 3 := by
      rw [htw, Frac.val_add hpden.ne' (by
        rw [Frac.divNat_den]
        intro hx
        have h3 : d.den * 3 = 0 := hx
        omega), Frac.val_divNat _ (by omega)]
      norm_num
    have hrv_val : rv.val = p.val + 2 * d.val / 3 := by
      rw [hrv, Frac.val_add hpden.ne' (by
        rw [Frac.divNat_den, Frac.scale_den]
        intro hx
        have h3 : d.den * 3 = 0 := hx
        omega), Frac.val_divNat _ (by omega), Frac.val_scale]
      norm_num
    have heqB : ¬(tw.eqB rv = true) := by
      intro hx
      have hvals := (Frac.eqB_iff htwden hrvden).mp hx
      rw [htw_val, hrv_val] at hvals
      have hz : d.val = 0 := by linarith
      exact absurd hz hd_pos.ne'
    rw [if_neg heqB] at h
    injection h with h2
    injection h2 with ho hnveq
    subst ho
    subst hnveq
    have htwlt : (wOf o v).val < tw.val := by
      rw [htw_val, ← hpw]
      linarith
    have hrvlt : (wOf o v).val < rv.val := by
      rw [hrv_val, ← hpw]
      linarith
    exact ext_facts o _ tw rv hlen hdens htwden hrvden hKv
      (by
        first
        | omega
        | (dsimp only [VId]; omega)
        | (dsimp only [VId] at *; omega))
      htwlt hrvlt

end ListOrder

namespace PList

variable {T : Type}

/-- `getNext` through the heap survives an operation's writes. -/
theorem getNextH_pres {sh sh' : PListShared T} {o' : ListOrder}
    {S : VId → Prop} {v : VId} (hd' : o'.DensOK)
    (hstab : ∀ a b, sh.order.KVal a → sh.order.KVal b →
      o'.lessB a b = sh.order.lessB a b)
    (hS : ∀ k, S k → o'.lessB v k = true)
    (hH : HExt S { sh with order := o' } sh') (hKV : KV sh)
    (hv : sh.order.KVal v) {id : Nat} {r : Option Nat}
    (h : getNextH sh id v = .ok r) : getNextH sh' id v = .ok r := by
  unfold getNextH at h ⊢
  obtain ⟨n, hn, h⟩ := exBindOk h
  have hg := hGet_ok hn
  have hlt : id < sh.heap.length := (List.get?_eq_some.mp hg).1
  obtain ⟨ho', hhd, htl, hlen, hnodes⟩ := hH
  have hlt' : id < sh'.heap.length := lt_of_lt_of_le hlt hlen
  obtain ⟨n', hg'⟩ : ∃ n', sh'.heap.get? id = some n' := by
    cases hx : sh'.heap.get? id with
    | none => exact absurd (List.get?_eq_none.mp hx) (by omega)
    | some m => exact ⟨m, rfl⟩
  have hne := hnodes id n n' hg hg'
  have hkeys := (hKV n (List.get?_mem hg)).1
  have hget' : hGet sh' id = .ok n' := by
    unfold hGet
    rw [hg']
  rw [hget']
  show ListNode.getNext sh'.order n' v = .ok r
  rw [ho']
  exact getNext_pres hd' hstab hS hne.1 hkeys hv h

/-- `find` (the stored value) through the heap survives an operation's
writes. -/
theorem findH_pres {sh sh' : PListShared T} {o' : ListOrder}
    {S : VId → Prop} {v : VId} (hd' : o'.DensOK)
    (hstab : ∀ a b, sh.order.KVal a → sh.order.KVal b →
      o'.lessB a b = sh.order.lessB a b)
    (hS : ∀ k, S k → o'.lessB v k = true)
    (hH : HExt S { sh with order := o' } sh') (hKV : KV sh)
    (hv : sh.order.KVal v) {id : Nat} {x : T}
    (h : findH sh id v = .ok x) : findH sh' id v = .ok x := by
  unfold findH at h ⊢
  obtain ⟨n, hn, h⟩ := exBindOk h
  have hg := hGet_ok hn
  have hlt : id < sh.heap.length := (List.get?_eq_some.mp hg).1
  obtain ⟨ho', hhd, htl, hlen, hnodes⟩ := hH
  have hlt' : id < sh'.heap.length := lt_of_lt_of_le hlt hlen
  obtain ⟨n', hg'⟩ : ∃ n', sh'.heap.get? id = some n' := by
    cases hx : sh'.heap.get? id with
    | none => exact absurd (List.get?_eq_none.mp hx) (by omega)
    | some m => exact ⟨m, rfl⟩
  have hne := hnodes id n n' hg hg'
  have hkeys := (hKV n (List.get?_mem hg)).2.2
  have hget' : hGet sh' id = .ok n' := by
    unfold hGet
    rw [hg']
  rw [hget']
  show ListNode.findV sh'.order n' v = .ok x
  rw [ho']
  exact findV_pres hd' hstab hS hne.2.2 hkeys hv h

/-- The `findNodeByIndex` walk survives an operation's writes. -/
theorem walkNext_pres {sh sh' : PListShared T} {o' : ListOrder}
    {S : VId → Prop} {v : VId} (hd' : o'.DensOK)
    (hstab : ∀ a b, sh.order.KVal a → sh.order.KVal b →
      o'.lessB a b = sh.order.lessB a b)
    (hS : ∀ k, S k → o'.lessB v k = true)
    (hH : HExt S { sh with order := o' } sh') (hKV : KV sh)
    (hv : sh.order.KVal v) :
    ∀ (steps : Nat) (cur : Option Nat) {r : Nat},
      walkNext sh v steps cur = .ok r → walkNext sh' v steps cur = .ok r := by
  intro steps
  induction steps with
  | zero => intro cur r h; exact h
  | succ steps ih =>
    intro cur r h
    match cur with
    | none => exact absurd h (by simp [walkNext])
    | some id =>
      have h2 : (do
          let nxt ← getNextH sh id v
          walkNext sh v steps nxt) = Except.ok r := h
      obtain ⟨nxt, hnx, h3⟩ := exBindOk h2
      show (do
        let nxt ← getNextH sh' id v
        walkNext sh' v steps nxt) = Except.ok r
      rw [getNextH_pres hd' hstab hS hH hKV hv hnx]
      exact ih nxt h3

/-- `findNodeByIndex` survives an operation's writes. -/
theorem findNodeByIndex_pres {sh sh' : PListShared T} {o' : ListOrder}
    {S : VId → Prop} {v : VId} (hd' : o'.DensOK)
    (hstab : ∀ a b, sh.order.KVal a → sh.order.KVal b →
      o'.lessB a b = sh.order.lessB a b)
    (hS : ∀ k, S k → o'.lessB v k = true)
    (hH : HExt S { sh with order := o' } sh') (hKV : KV sh)
    (hv : sh.order.KVal v) {size : Nat} {i : Int} {r : Nat}
    (h : findNodeByIndex sh size v i = .ok r) :
    findNodeByIndex sh' size v i = .ok r := by
  unfold findNodeByIndex at h ⊢
  split at h
  · exact Except.noConfusion h
  · rename_i hcond
    rw [if_neg hcond]
    rw [show sh'.head = sh.head from hH.2.1]
    exact walkNext_pres hd' hstab hS hH hKV hv (i.toNat + 1) (some sh.head) h

/-- `find(index)` on the receiver survives an operation's writes. -/
theorem findT_pres {sh sh' : PListShared T} {o' : ListOrder}
    {S : VId → Prop} {l : PList} (hd' : o'.DensOK)
    (hstab : ∀ a b, sh.order.KVal a → sh.order.KVal b →
      o'.lessB a b = sh.order.lessB a b)
    (hS : ∀ k, S k → o'.lessB l.version k = true)
    (hH : HExt S { sh with order := o' } sh') (hKV : KV sh)
    (hv : sh.order.KVal l.version) {i : Int} {x : T}
    (h : findT sh l i = .ok x) : findT sh' l i = .ok x := by
  unfold findT at h ⊢
  obtain ⟨ptr, hptr, h2⟩ := exBindOk h
  rw [findNodeByIndex_pres hd' hstab hS hH hKV hv hptr]
  show findH sh' ptr l.version = .ok x
  exact findH_pres hd' hstab hS hH hKV hv h2

end PList

namespace PMap

/-- After any mutation the previous observable state is still intact: `undo`
returns a map with the receiver's size and root, so every lookup agrees. -/
theorem runOp_undo_restores {K V : Type} [DecidableEq K] [DecidableEq V]
    {hashF : K → Nat} {m out : PMap K V} {op : PMapOp K V}
    (h : PMap.runOp hashF m op = .ok out) :
    ∃ m'', PMap.undo out = .ok m'' ∧ m''.size = m.size ∧
      ∀ k, PMap.find hashF m'' k = PMap.find hashF m k := by
  obtain ⟨r, sz, hmod⟩ := PMap.runOp_ok_modify h
  subst hmod
  refine ⟨⟨m.size, m.root, ⟨m.mgr.undoStack,
    ⟨⟨m.size, m.root⟩, ⟨sz, r⟩⟩ :: []⟩⟩, rfl, rfl, ?_⟩
  intro k
  rfl

end PMap

/-- Boolean chain check (for evaluating `Chain'` on concrete lists). -/
def chainB {α : Type} (R : α → α → Bool) : List α → Bool
  | [] => true
  | [_] => true
  | a :: b :: l => R a b && chainB R (b :: l)

theorem chain'_of_chainB {α : Type} {R' : α → α → Bool} :
    ∀ {l : List α}, chainB R' l = true → l.Chain' (fun a b => R' a b = true) := by
  intro l
  induction l with
  | nil => intro _; exact List.chain'_nil
  | cons a l ih =>
    cases l with
    | nil => intro _; exact List.chain'_singleton _
    | cons b l' =>
      intro h
      rw [chainB, Bool.and_eq_true] at h
      rw [List.chain'_cons]
      exact ⟨h.1, ih h.2⟩

instance (o : ListOrder) (k : VId) : Decidable (ListOrder.KVal o k) :=
  decidable_of_iff (k.natAbs < o.weight_true.length) Iff.rfl

instance (o : ListOrder) : Decidable (ListOrder.DensOK o) :=
  decidable_of_iff
    ((∀ w ∈ o.weight_true, 0 < w.den) ∧ (∀ w ∈ o.weight_reverse, 0 < w.den))
    Iff.rfl

instance {T : Type} (o : ListOrder) (n : ListNode T) :
    Decidable (PList.NKeys o n) :=
  decidable_of_iff
    ((∀ e ∈ n.next_, o.KVal e.1) ∧ (∀ e ∈ n.last_, o.KVal e.1) ∧
      (∀ e ∈ n.value_, o.KVal e.1))
    Iff.rfl

instance {T : Type} (sh : PListShared T) : Decidable (PList.KV sh) :=
  decidable_of_iff (∀ n ∈ sh.heap, PList.NKeys sh.order n) Iff.rfl

/-! ## Concrete instantiations used by the claims

The templated collections are instantiated at `Nat` keys and values with the
identity hash (a legal `Hash` template argument; `std::hash` of an unsigned
integer is the identity on the mainstream standard libraries). -/

/-- The hash function for the concrete map instantiation. -/
def natHash : Nat → Nat := fun k => k

/-- Extract the payload of a successful `Except`, with a fallback. -/
def exOkD {α : Type} (d : α) : Except CError α → α
  | .ok a => a
  | .error _ => d

/-- The map `{5 ↦ 1}` built by the public API. -/
def c3Map : PMap Nat Nat :=
  exOkD ⟨0, none, .empty⟩ (PMap.empty.insert natHash (5, 1) true)

/-- The map `{1 ↦ 10, 33 ↦ 20, 0 ↦ 30}` built by the public API.  The hashes
1 and 33 agree on the lowest 5 bits, so the trie is
`Bitmap{0,1} [value 0, Bitmap{0,1} [value 1, value 33]]`. -/
def c5Map : PMap Nat Nat :=
  exOkD ⟨0, none, .empty⟩
    (PMap.empty.insert natHash (1, 10) true >>= fun m =>
      m.insert natHash (33, 20) true >>= fun m =>
        m.insert natHash (0, 30) true)

/-- `c5Map.erase(0)`. -/
def c5Erased : PMap Nat Nat := exOkD ⟨0, none, .empty⟩ (c5Map.erase natHash 0)

/-- The map `{0 ↦ 1, 32 ↦ 2}` with key 0 erased: a one-child bitmap root. -/
def c5Single : PMap Nat Nat :=
  exOkD ⟨0, none, .empty⟩
    (PMap.empty.insert natHash (0, 1) true >>= fun m =>
      m.insert natHash (32, 2) true >>= fun m =>
        m.erase natHash 0)

/-- The shared state and list value of `PersistentList<int>{}` (empty). -/
def c9Pair : PListShared Int × PList :=
  exOkD (⟨⟨[], [], []⟩, [], 0, 0⟩, ⟨1, 0, .empty⟩) (PList.ofList [])

/-- Five successive `pushBack`s on an initially empty `PersistentList<int>`. -/
def c7Chain : Except CError (PListShared Int × PList) :=
  PList.ofList [] >>= fun (sh, l) =>
    PList.pushBack sh l 1 >>= fun (sh, l) =>
      PList.pushBack sh l 2 >>= fun (sh, l) =>
        PList.pushBack sh l 3 >>= fun (sh, l) =>
          PList.pushBack sh l 4 >>= fun (sh, l) =>
            PList.pushBack sh l 5

/-- The state after `c7Chain`. -/
def c7Pair : PListShared Int × PList :=
  exOkD (⟨⟨[], [], []⟩, [], 0, 0⟩, ⟨1, 0, .empty⟩) c7Chain

/-- The heap and array after one `emplaceBack(7)` on the default-constructed
`PersistentArray<int>` (empty heap, null node). -/
def c8Arr : PAHeap Nat × PArray :=
  exOkD ([], ⟨0, none, .empty⟩) (PArray.emplaceBack [] ⟨0, none, .empty⟩ 7)

/-- `c3Map.erase(7)`: erasing a key absent from `{5 ↦ 1}`. -/
def c10Erased : PMap Nat Nat := exOkD ⟨0, none, .empty⟩ (c3Map.erase natHash 7)

/-- The map `{0 ↦ 1}` built by the public API. -/
def c6M1 : PMap Nat Nat :=
  exOkD ⟨0, none, .empty⟩ (PMap.empty.insert natHash (0, 1) true)

/-- The map `{0 ↦ 1, 1 ↦ 2}`: its root is the bitmap node
`Bitmap{0,1} [value 0, value 1]`. -/
def c6M2 : PMap Nat Nat :=
  exOkD ⟨0, none, .empty⟩ (c6M1.insert natHash (1, 2) true)

/-- A freshly constructed empty `PersistentList<int>`. -/
def c7InitPair : PListShared Int × PList :=
  exOkD (⟨⟨[], [], []⟩, [], 0, 0⟩, ⟨1, 0, .empty⟩) (PList.ofList [])

/-- The state after one `pushBack(1)` on `c7InitPair`. -/
def c7Step1 : PListShared Int × PList :=
  exOkD (⟨⟨[], [], []⟩, [], 0, 0⟩, ⟨1, 0, .empty⟩)
    (PList.pushBack c7InitPair.1 c7InitPair.2 1)

/-- The heap and array after a further `emplaceBack(9)` on `c8Arr`. -/
def c1AOut : PAHeap Nat × PArray :=
  exOkD ([], c8Arr.2) (PArray.runOp c8Arr.1 c8Arr.2 (.emplaceBack 9))

/-- `c3Map.insert(3, 4)`. -/
def c1MOut : PMap Nat Nat :=
  exOkD ⟨0, none, .empty⟩ (PMap.runOp natHash c3Map (.insert (3, 4) true))

/-- `push_back(7)` on the one-element list state `c7Step1`. -/
def c1LOut : PListShared Int × PList :=
  exOkD (⟨⟨[], [], []⟩, [], 0, 0⟩, ⟨1, 0, .empty⟩)
    (PList.runOp c7Step1.1 c7Step1.2 (.push_back 7))

/-- The list state whose `insert` misbehaves (C4): from `{10, 20, 30}`, five
`insert(1, ·)`s fill the `next_` map of the head element's fat node (1 initial
entry + 2 per insert); the following `erase(1)` therefore copies that full
node in `dropNode`'s first relink loop, but the second loop re-reads the
*original* neighbours and overwrites the successor's fresh back-link with the
stale, full original.  The final `set(0, 77)` updates the live copy only. -/
def c4Chain : Except CError (PListShared Int × PList) :=
  PList.ofList [10, 20, 30] >>= fun (sh, l) =>
    PList.insertT sh l 1 101 >>= fun (sh, l) =>
      PList.insertT sh l 1 102 >>= fun (sh, l) =>
        PList.insertT sh l 1 103 >>= fun (sh, l) =>
          PList.insertT sh l 1 104 >>= fun (sh, l) =>
            PList.insertT sh l 1 105 >>= fun (sh, l) =>
              PList.eraseT sh l 1 >>= fun (sh, l) =>
                PList.setT sh l 0 77

/-- The receiver list `{77, 104, 103, 102, 101, 20, 30}` after `c4Chain`. -/
def c4Recv : PListShared Int × PList :=
  exOkD (⟨⟨[], [], []⟩, [], 0, 0⟩, ⟨1, 0, .empty⟩) c4Chain

/-- `c4Recv.insert(1, 999)`: the insert anchors through the successor's stale
back-link and re-copies the stale node, resurrecting its old value `10` at
index 0. -/
def c4Ins : PListShared Int × PList :=
  exOkD (⟨⟨[], [], []⟩, [], 0, 0⟩, ⟨1, 0, .empty⟩)
    (PList.insertT c4Recv.1 c4Recv.2 1 999)


/-! ## Claims -/

/-- C3: evaluation of the failing input.  In the first generation of
`PersistentHashMap`, whose `insert` passes `size_ + 1` to `modifyHamt`
unconditionally and whose `modifyHamt` applies that size whenever the visitor
returned a root different from the stored one, inserting the already present
key 5 with `replace = true` into the singleton map `{5 ↦ 1}` produces size 2,
whereas the claim (and the spec's size law, and the repo's own
`PersistentHashMapTests.TestInsert`) require the size to stay 1. -/
theorem claim_C3_eval :
    PMap.empty.insert natHash (5, 1) true = .ok c3Map ∧
    c3Map.size = 1 ∧
    c3Map.containsB natHash 5 = true ∧
    c3Map.insertFirstVariantSize natHash (5, 7) true = .ok 2 ∧
    (2 : Nat) ≠ 1 := by decide

/-- C5: evaluation of the failing input.  In the map `{1 ↦ 10, 33 ↦ 20,
0 ↦ 30}` the keys 1 and 33 collide on the lowest 5 hash bits, so they live in
an inner bitmap node one level down.  Erasing the present key 0 makes the
eraser collapse the parent bitmap to its single remaining child — that inner
bitmap — which is thereby lifted one level up without re-indexing: the
erased map no longer finds key 1 (the claim requires `m2.find(k2) == m.find(k2)`
for every other present key `k2`).  Moreover, after erasing key 0 from
`{0 ↦ 1, 32 ↦ 2}` the root is a one-child bitmap, and erasing the remaining
key 32 makes `EraserVisitor` call `children().at(0)` on an empty vector,
which throws `std::out_of_range`. -/
theorem claim_C5_eval :
    (PMap.empty.insert natHash (1, 10) true >>= fun m =>
      m.insert natHash (33, 20) true >>= fun m =>
        m.insert natHash (0, 30) true) = .ok c5Map ∧
    c5Map.containsB natHash 0 = true ∧
    c5Map.find natHash 1 = .ok (some 10) ∧
    c5Map.erase natHash 0 = .ok c5Erased ∧
    c5Erased.containsB natHash 0 = false ∧
    c5Erased.find natHash 1 = .ok none ∧
    (Except.ok (some 10) : Except CError (Option Nat)) ≠ .ok none ∧
    (PMap.empty.insert natHash (0, 1) true >>= fun m =>
      m.insert natHash (32, 2) true >>= fun m =>
        m.erase natHash 0) = .ok c5Single ∧
    c5Single.containsB natHash 32 = true ∧
    c5Single.erase natHash 32 = .error .outOfRange := by decide

/-- C4: evaluation of the failing input.  The receiver `c4Recv` — reachable
from `{10, 20, 30}` by public `insert`/`erase`/`set` calls — reads `77` at
index 0, but `insert(1, 999)` on it produces a list that reads `10` at
index 0, where the claim requires the prior element `77` to be unchanged.
The cause: when `dropNode`'s first relink loop replaces a full fat node by a
fresh copy, its second loop re-reads the original neighbours and overwrites
the successor's back-link at the new version with the stale original node;
the later `set(0, 77)` updates only the live copy, and the `insert` then
anchors `makeNewNode` through the stale back-link, re-copying the stale node
and resurrecting its old value `10`. -/
theorem claim_C4_eval :
    c4Chain = .ok c4Recv ∧
    PList.findT c4Recv.1 c4Recv.2 0 = .ok 77 ∧
    PList.obsList c4Recv.1 c4Recv.2 =
      [.ok 77, .ok 104, .ok 103, .ok 102, .ok 101, .ok 20, .ok 30] ∧
    PList.insertT c4Recv.1 c4Recv.2 1 999 = .ok c4Ins ∧
    c4Ins.2.size = 8 ∧
    PList.findT c4Ins.1 c4Ins.2 0 = .ok 10 ∧
    ((10 : Int) ≠ 77) := by decide

/-- C9 counterexample: on the empty `PersistentList<int>` (size 0) the read
`find(0)` has index `0 ≥ size()`, and `findNodeByIndex` raises a plain
`std::exception("index more size")` — not the `PreConditionFailure` contract
kind the claim requires. -/
theorem claim_C9_counterexample :
    PList.ofList ([] : List Int) = .ok c9Pair ∧
    c9Pair.2.size = 0 ∧
    PList.findT c9Pair.1 c9Pair.2 0 = .error .stdException ∧
    CError.stdException ≠ CError.preConditionFailure := by decide

/-- C9 as amended: for every list state and every index at or beyond the
size, `find` raises the plain `std::exception` kind (the guard
`index >= size_` in `findNodeByIndex` fires before any traversal). -/
theorem claim_C9 {T : Type} (sh : PListShared T) (l : PList) (i : Int)
    (h : (l.size : Int) ≤ i) :
    PList.findT sh l i = .error .stdException := by
  have hd : (decide (i < 0) || decide ((l.size : Int) ≤ i)) = true := by
    simp [h]
  simp [PList.findT, PList.findNodeByIndex, hd, bind, Except.bind]

/-- C9 witness: the amended theorem applied to the empty list at index 0. -/
theorem claim_C9_witness :
    ((c9Pair.2.size : Int) ≤ 0) ∧
    PList.findT c9Pair.1 c9Pair.2 0 = .error .stdException :=
  ⟨by decide, claim_C9 c9Pair.1 c9Pair.2 0 (by decide)⟩

/-- C7 counterexample: after five successive `pushBack`s on an initially
empty list the `tail_` sentinel's `last_` map holds 11 entries, exceeding
`MAX_SIZE_FAT_NODE = 10` (each `pushBack` writes `tail_->setLast` twice — once
at the new version and once at its negative companion via `dropNode` — and
`canSetLast` exempts the valueless sentinels from the cap). -/
theorem claim_C7_counterexample :
    c7Chain = .ok c7Pair ∧
    (c7Pair.1.heap.get? c7Pair.1.tail).map (fun n => n.last_.length) = some 11 ∧
    ¬ (11 ≤ maxSizeFatNode) := by decide

/-- C7 as amended: in every shared state reachable by a constructor call
followed by any sequence of public mutating operations, every node's `value_`
map holds at most `MAX_SIZE_FAT_NODE` entries (`PersistenceListNode::add`
refuses to grow a full value map, and nothing else writes `value_`).  The cap
does not extend to the `next_`/`last_` maps of the valueless sentinels, which
`canSetNext`/`canSetLast` exempt — see `claim_C7_counterexample`. -/
theorem claim_C7 {T : Type} (sh : PListShared T) (h : PList.PLReach sh) :
    ∀ n ∈ sh.heap, n.value_.length ≤ maxSizeFatNode :=
  PList.reach_vcap h

/-- C7 witness: the amended theorem applied to the lineage reached by
constructing an empty list and pushing one element. -/
theorem claim_C7_witness :
    PList.pushBack c7InitPair.1 c7InitPair.2 (1 : Int) = .ok c7Step1 ∧
    ∀ n ∈ c7Step1.1.heap, n.value_.length ≤ maxSizeFatNode :=
  ⟨by decide,
   claim_C7 c7Step1.1
     (PList.PLReach.step c7InitPair.1 c7Step1.1
       (PList.PLReach.init [] c7InitPair.1 c7InitPair.2 (by decide))
       (PList.PLStep.push_back c7InitPair.1 c7Step1.1 c7InitPair.2 1 c7Step1.2
         (by decide)))⟩


/-- C8: every successful mutating operation, on each of the three collections,
returns a collection whose history action was pushed by `pushUndo` — which
discards the redo stack — so the result has no redo available and `redo()`
raises the `PreConditionFailure` contract kind, regardless of the receiver's
redo stack. -/
theorem claim_C8 :
    (∀ (T : Type) (heap : PAHeap T) (a : PArray) (op : PAOp T)
        (out : PAHeap T × PArray), PArray.runOp heap a op = .ok out →
        out.2.hasRedo = false ∧ out.2.redo = .error .preConditionFailure) ∧
    (∀ (K V : Type) [DecidableEq K] [DecidableEq V] (hashF : K → Nat)
        (m : PMap K V) (op : PMapOp K V) (out : PMap K V),
        PMap.runOp hashF m op = .ok out →
        out.hasRedo = false ∧ out.redo = .error .preConditionFailure) ∧
    (∀ (T : Type) (sh : PListShared T) (l : PList) (op : PLOp T)
        (out : PListShared T × PList), PList.runOp sh l op = .ok out →
        PList.hasRedoL out.2 = false ∧
        PList.redoL out.2 = .error .preConditionFailure) := by
  refine ⟨?_, ?_, ?_⟩
  · intro T heap a op out h
    obtain ⟨nd, sz, hmod⟩ := PArray.arr_runOp_ok_modify h
    rw [hmod]
    exact ⟨rfl, rfl⟩
  · intro K V dK dV hashF m op out h
    obtain ⟨r, sz, hmod⟩ := PMap.runOp_ok_modify h
    rw [hmod]
    exact ⟨rfl, rfl⟩
  · intro T sh l op out h
    obtain ⟨nv, sz, hch⟩ := PList.runOp_ok_children h
    rw [hch]
    exact ⟨rfl, rfl⟩

/-- C8 witness: one concrete successful mutation per collection, with the
redo stack verifiably cleared. -/
theorem claim_C8_witness :
    (PArray.runOp ([] : PAHeap Nat) ⟨0, none, .empty⟩ (.emplaceBack 7)
        = .ok c8Arr ∧
      c8Arr.2.hasRedo = false ∧ c8Arr.2.redo = .error .preConditionFailure) ∧
    (PMap.runOp natHash PMap.empty (.insert (5, 1) true) = .ok c3Map ∧
      c3Map.hasRedo = false ∧ c3Map.redo = .error .preConditionFailure) ∧
    (PList.runOp c7InitPair.1 c7InitPair.2 (.push_back 1) = .ok c7Step1 ∧
      PList.hasRedoL c7Step1.2 = false ∧
      PList.redoL c7Step1.2 = .error .preConditionFailure) := by
  refine ⟨⟨by decide, ?_⟩, ⟨by decide, ?_⟩, ⟨by decide, ?_⟩⟩
  · exact claim_C8.1 Nat [] ⟨0, none, .empty⟩ (.emplaceBack 7) c8Arr (by decide)
  · exact claim_C8.2.1 Nat Nat natHash PMap.empty (.insert (5, 1) true) c3Map
      (by decide)
  · exact claim_C8.2.2 Int c7InitPair.1 c7InitPair.2 (.push_back 1) c7Step1
      (by decide)

/-- C10: a mutating call that does not change the mapping — `erase` of an
absent key, or `insert` of a present key with `replace = false` — still goes
through `modifyHamt`, which always pushes a history action: the returned map
has an undo available, its `undo()` restores the receiver's exact state
(size and root, hence every observation), and `redo()` after that returns the
post-operation map exactly. -/
theorem claim_C10 {K V : Type} [DecidableEq K] [DecidableEq V]
    (hashF : K → Nat) (m m2 : PMap K V) (k : K) (w : V)
    (h : (m.containsB hashF k = false ∧ m.erase hashF k = .ok m2) ∨
         (m.containsB hashF k = true ∧ m.insert hashF (k, w) false = .ok m2)) :
    m2.hasUndo = true ∧
    ∃ m1, m2.undo = .ok m1 ∧ m1.size = m.size ∧ m1.root = m.root ∧
      m1.redo = .ok m2 := by
  have hm : ∃ r s, m2 = m.modifyHamt r s := by
    rcases h with ⟨_, he⟩ | ⟨_, hi⟩
    · exact @PMap.runOp_ok_modify K V _ _ hashF m (.erase k) m2 he
    · exact @PMap.runOp_ok_modify K V _ _ hashF m (.insert (k, w) false) m2 hi
  obtain ⟨r, s, rfl⟩ := hm
  exact ⟨rfl, _, rfl, rfl, rfl, rfl⟩

/-- C10 witness: erasing the absent key 7 from `{5 ↦ 1}` pushes a history
action whose undo/redo round-trips. -/
theorem claim_C10_witness :
    c3Map.containsB natHash 7 = false ∧
    c3Map.erase natHash 7 = .ok c10Erased ∧
    (c10Erased.hasUndo = true ∧
      ∃ m1, c10Erased.undo = .ok m1 ∧ m1.size = c3Map.size ∧
        m1.root = c3Map.root ∧ m1.redo = .ok c10Erased) :=
  ⟨by decide, by decide,
   claim_C10 natHash c3Map c10Erased 7 1 (.inl ⟨by decide, by decide⟩)⟩

/-- C2: every successful mutating operation, on each of the three collections,
returns a collection whose `undo()` succeeds with a collection observationally
equal to the receiver (same size and same reads at every index or key, on the
shared state as the operation left it), and whose `redo()` after that returns
the post-operation collection exactly.  The pushed action captures the
receiver's `(size, node)` / `(size, root)` / `(version, size)` state, which
determines every observation. -/
theorem claim_C2 :
    (∀ (T : Type) (heap : PAHeap T) (a : PArray) (op : PAOp T)
        (out : PAHeap T × PArray), PArray.runOp heap a op = .ok out →
        ∃ a1, out.2.undo = .ok a1 ∧ a1.size = a.size ∧
          (∀ i, PArray.value out.1 a1 i = PArray.value out.1 a i) ∧
          a1.redo = .ok out.2) ∧
    (∀ (K V : Type) [DecidableEq K] [DecidableEq V] (hashF : K → Nat)
        (m : PMap K V) (op : PMapOp K V) (out : PMap K V),
        PMap.runOp hashF m op = .ok out →
        ∃ m1, out.undo = .ok m1 ∧ m1.size = m.size ∧
          (∀ k2, m1.find hashF k2 = m.find hashF k2) ∧
          m1.redo = .ok out) ∧
    (∀ (T : Type) (sh : PListShared T) (l : PList) (op : PLOp T)
        (out : PListShared T × PList), PList.runOp sh l op = .ok out →
        ∃ l1, PList.undoL out.2 = .ok l1 ∧ l1.size = l.size ∧
          PList.obsList out.1 l1 = PList.obsList out.1 l ∧
          PList.redoL l1 = .ok out.2) := by
  refine ⟨?_, ?_, ?_⟩
  · intro T heap a op out h
    obtain ⟨nd, sz, hmod⟩ := PArray.arr_runOp_ok_modify h
    rw [hmod]
    exact ⟨⟨a.size, a.node, _⟩, rfl, rfl, fun i => rfl, rfl⟩
  · intro K V dK dV hashF m op out h
    obtain ⟨r, sz, hmod⟩ := PMap.runOp_ok_modify h
    rw [hmod]
    exact ⟨⟨m.size, m.root, _⟩, rfl, rfl, fun k2 => rfl, rfl⟩
  · intro T sh l op out h
    obtain ⟨nv, sz, hch⟩ := PList.runOp_ok_children h
    rw [hch]
    exact ⟨⟨l.version, l.size, _⟩, rfl, rfl, rfl, rfl⟩

/-- C2 witness: one concrete successful mutation per collection, with the
round-trip evaluated. -/
theorem claim_C2_witness :
    (PArray.runOp ([] : PAHeap Nat) ⟨0, none, .empty⟩ (.emplaceBack 7)
        = .ok c8Arr ∧
      ∃ a1, c8Arr.2.undo = .ok a1 ∧ a1.size = 0 ∧
        (∀ i, PArray.value c8Arr.1 a1 i
          = PArray.value c8Arr.1 (⟨0, none, .empty⟩ : PArray) i) ∧
        a1.redo = .ok c8Arr.2) ∧
    (PMap.runOp natHash PMap.empty (.insert (5, 1) true) = .ok c3Map ∧
      ∃ m1, c3Map.undo = .ok m1 ∧ m1.size = 0 ∧
        (∀ k2, m1.find natHash k2 = PMap.empty.find natHash k2) ∧
        m1.redo = .ok c3Map) ∧
    (PList.runOp c7InitPair.1 c7InitPair.2 (.push_back 1) = .ok c7Step1 ∧
      ∃ l1, PList.undoL c7Step1.2 = .ok l1 ∧ l1.size = 0 ∧
        PList.obsList c7Step1.1 l1 = PList.obsList c7Step1.1 c7InitPair.2 ∧
        PList.redoL l1 = .ok c7Step1.2) := by
  refine ⟨⟨by decide, ?_⟩, ⟨by decide, ?_⟩, ⟨by decide, ?_⟩⟩
  · exact claim_C2.1 Nat [] ⟨0, none, .empty⟩ (.emplaceBack 7) c8Arr (by decide)
  · exact claim_C2.2.1 Nat Nat natHash PMap.empty (.insert (5, 1) true) c3Map
      (by decide)
  · exact claim_C2.2.2 Int c7InitPair.1 c7InitPair.2 (.push_back 1) c7Step1
      (by decide)

/-- C6: in a map built from `empty` by any sequence of `insert`/`erase`
calls, every bitmap node of the trie has exactly `popcount` children, the
listed set bits are strictly ascending, and the child stored at position `i`
is the child the trie addresses at the `i`-th lowest set bit
(`getChildAtBit` at that bit returns exactly it).  In the embedding a child
slot holds a node and cannot be null, matching the sources: the inserter
stores only freshly built nodes and the eraser catches a null child before
storing anything. -/
theorem claim_C6 {K V : Type} [DecidableEq K] [DecidableEq V] (hashF : K → Nat)
    (m : PMap K V) (hm : PMap.MReach hashF m) (r : HamtNode K V)
    (hr : m.root = some r) (bm : Nat) (children : List (HamtNode K V))
    (hsub : Hamt.HamtSub (.bitmap bm children) r) :
    children.length = Hamt.popcount32 bm ∧
    (Hamt.bitsOf bm).Pairwise (fun a b => a < b) ∧
    ∀ (i : Nat) (hi : i < children.length) (hb : i < (Hamt.bitsOf bm).length),
      Hamt.getChildAtBit bm children ((Hamt.bitsOf bm).get ⟨i, hb⟩)
        = .ok (children.get ⟨i, hi⟩) := by
  have hrOK : Hamt.structOKb r = true := by
    have h0 := PMap.reach_rootOK hm
    unfold PMap.rootOKb at h0
    rw [hr] at h0
    exact h0
  obtain ⟨hbm, hlen, hl⟩ :=
    Hamt.structOK_bitmap_elim (Hamt.structOK_sub hsub hrOK)
  refine ⟨hlen, Hamt.bitsOf_pairwise bm, ?_⟩
  intro i hi hb
  have hbit := Hamt.bitsOf_testBit (List.get_mem (Hamt.bitsOf bm) i hb)
  have hidx := Hamt.bitToIndex_bitsOf bm i hb
  unfold Hamt.getChildAtBit
  rw [if_pos (by simpa [Hamt.containsBit] using hbit), hidx,
      List.get?_eq_get hi]

/-- C6 witness: the root bitmap node of `{0 ↦ 1, 1 ↦ 2}`. -/
theorem claim_C6_witness :
    c6M2.root = some (.bitmap 3 [.value 0 1 0, .value 1 2 1]) ∧
    ([HamtNode.value 0 1 0, HamtNode.value 1 2 1] : List (HamtNode Nat Nat)).length
        = Hamt.popcount32 3 ∧
    (Hamt.bitsOf 3).Pairwise (fun a b => a < b) ∧
    ∀ (i : Nat)
      (hi : i < ([HamtNode.value 0 1 0, HamtNode.value 1 2 1] :
        List (HamtNode Nat Nat)).length)
      (hb : i < (Hamt.bitsOf 3).length),
      Hamt.getChildAtBit 3 [HamtNode.value 0 1 0, HamtNode.value 1 2 1]
          ((Hamt.bitsOf 3).get ⟨i, hb⟩)
        = .ok (([HamtNode.value 0 1 0, HamtNode.value 1 2 1] :
            List (HamtNode Nat Nat)).get ⟨i, hi⟩) := by
  refine ⟨by decide, ?_⟩
  exact claim_C6 natHash c6M2
    (PMap.MReach.insert c6M1 c6M2 (1, 2) true
      (PMap.MReach.insert PMap.empty c6M1 (0, 1) true PMap.MReach.empty
        (by decide))
      (by decide))
    (.bitmap 3 [.value 0 1 0, .value 1 2 1]) (by decide) 3
    [.value 0 1 0, .value 1 2 1] (Hamt.HamtSub.refl _)

/-- C1: persistence of the receiver.  A successful mutating public operation
leaves the receiver observationally unchanged.  For the array: over a sound
heap (parents point downwards, roots have no parent) and a valid receiver
(live node, all in-range reads succeed), every read of the receiver returns
the same element after the operation, even though `emplaceBack` may extend
the shared root storage in place.  For the hash map the C++ visitors only
build fresh nodes and never write through a shared pointer, which the (pure)
embedding reflects; the receiver's observable state is moreover captured on
the undo stack: `undo` on the result restores a map with the receiver's size
whose every lookup agrees with the receiver's.  For the list: from a
well-formed shared state (parallel weight tables with positive denominators,
nonzero in-range label-list entries sorted strictly, all fat-node map keys in
range) and a receiver version that is a live label, every successful
`find(index)` on the receiver returns the same value after the operation,
even though the operation writes into shared fat nodes — its writes use only
the two fresh keys `±new_version`, which sort strictly after the receiver's
version. -/
theorem claim_C1 :
    (∀ (T : Type) (heap : PAHeap T) (a : PArray) (op : PAOp T)
        (out : PAHeap T × PArray),
        PArray.AWF heap → PArray.AValid heap a →
        PArray.runOp heap a op = .ok out →
        ∀ i, i < a.size → PArray.value out.1 a i = PArray.value heap a i) ∧
    (∀ (K V : Type) [DecidableEq K] [DecidableEq V] (hashF : K → Nat)
        (m : PMap K V) (op : PMapOp K V) (out : PMap K V),
        PMap.runOp hashF m op = .ok out →
        ∃ m'', PMap.undo out = .ok m'' ∧ m''.size = m.size ∧
          ∀ k, PMap.find hashF m'' k = PMap.find hashF m k) ∧
    (∀ (T : Type) (sh : PListShared T) (l : PList) (op : PLOp T)
        (out : PListShared T × PList),
        ListOrder.OWF sh.order → PList.KV sh → 0 < l.version →
        l.version ∈ sh.order.list →
        PList.runOp sh l op = .ok out →
        ∀ (i : Int) (x : T), PList.findT sh l i = .ok x →
          PList.findT out.1 l i = .ok x) := by
  refine ⟨?_, ?_, ?_⟩
  · intro T heap a op out hw hv h i hi
    exact PArray.runOp_read_pres hw hv h i hi
  · intro K V _ _ hashF m op out h
    exact PMap.runOp_undo_restores h
  · intro T sh l op out hW hKV hv0 hvm hrun i x hfind
    obtain ⟨o', nv, hadd, hH⟩ := PList.runOp_hext hrun
    obtain ⟨hd', hstab, hlt1, hlt2⟩ := ListOrder.add_facts hW hv0 hvm hadd
    have hS : ∀ k, PList.opKeys nv k → o'.lessB l.version k = true := by
      rintro k (rfl | rfl)
      · exact hlt1
      · exact hlt2
    exact PList.findT_pres hd' hstab hS hH hKV (hW.2.2.1 l.version hvm).2 hfind

theorem claim_C1_witness :
    PArray.value c1AOut.1 c8Arr.2 0 = PArray.value c8Arr.1 c8Arr.2 0 ∧
    (∃ m'', PMap.undo c1MOut = .ok m'' ∧ m''.size = c3Map.size ∧
      ∀ k, PMap.find natHash m'' k = PMap.find natHash c3Map k) ∧
    PList.findT c1LOut.1 c7Step1.2 0 = .ok 1 :=
  ⟨claim_C1.1 Nat c8Arr.1 c8Arr.2 (.emplaceBack 9) c1AOut
      (by
        intro j hj
        have h1 : j < 1 := hj
        interval_cases j
        exact (by decide : PArray.nodeOKb (c8Arr.1.get ⟨0, by decide⟩) 0 = true))
      ⟨(by decide : (0 : Nat) < c8Arr.1.length), by decide⟩ (by rfl) 0 (by decide),
   claim_C1.2.1 Nat Nat natHash c3Map (.insert (3, 4) true) c1MOut (by rfl),
   claim_C1.2.2 Int c7Step1.1 c7Step1.2 (.push_back 7) c1LOut
      ⟨by decide, by decide, by decide, chain'_of_chainB (by decide)⟩
      (by decide) (by decide) (by decide) (by rfl) 0 1 (by rfl)⟩

end PDS
